import Mathlib

/-
Verification of the ciphercore evaluator and MPC compiler
(simple_evaluator.rs, mpc_arithmetic.rs, mpc_psi.rs) against its
natural-language specification.

Machine values (u64 words) are embedded as `Int` together with an explicit
modulus `m` (`m = 2^bit_width` of the scalar type); every arithmetic
operation reduces with `%` exactly where the Rust code reduces modulo the
scalar modulus.  Rust `panic!` is embedded as the `EvalOutcome.panicked`
outcome, recoverable `Result` errors as `EvalOutcome.err`.
-/

namespace CipherCore

/-- Outcome of evaluating an operation: `ok` for a normal result, `err` for a
recoverable error propagated through `Result`, `panicked` for a Rust panic
(fatal, aborts the evaluation). -/
inductive EvalOutcome (α : Type) where
  | ok (val : α)
  | err
  | panicked
deriving Repr, DecidableEq

/-- Modelled from the spec: `add_u64` from the packed-word arithmetic helpers
(`crate::bytes`, external to the core sources): modular addition, the result
lies in `[0, modulus)`. -/
def add_u64 (m a b : Int) : Int := (a + b) % m

/-- Modelled from the spec: `subtract_vectors_u64` entry-wise operation
(`crate::bytes`, external to the core sources): modular subtraction. -/
def sub_u64 (m a b : Int) : Int := (a - b) % m

/-- Modelled from the spec: `multiply_u64` (`crate::bytes`, external to the
core sources): modular multiplication. -/
def mul_u64 (m a b : Int) : Int := (a * b) % m

/-- Modelled from the spec: `add_vectors_u64` (`crate::bytes`): entry-wise
modular addition of two equal-length vectors. -/
def add_vectors_u64 (m : Int) (a b : List Int) : List Int :=
  List.zipWith (add_u64 m) a b

/-- Modelled from the spec: `subtract_vectors_u64` (`crate::bytes`):
entry-wise modular subtraction. -/
def subtract_vectors_u64 (m : Int) (a b : List Int) : List Int :=
  List.zipWith (sub_u64 m) a b

/-- Modelled from the spec: `multiply_vectors_u64` (`crate::bytes`):
entry-wise modular multiplication. -/
def multiply_vectors_u64 (m : Int) (a b : List Int) : List Int :=
  List.zipWith (mul_u64 m) a b

/-- Modelled from the spec: `dot_vectors_u64` (`crate::bytes`): inner product
of two vectors accumulated modulo `m`, as the evaluator loops
`acc = add_u64(acc, multiply_u64(x, y, m), m)`. -/
def dot_vectors_u64 (m : Int) (a b : List Int) : Int :=
  (List.zipWith (mul_u64 m) a b).foldl (add_u64 m) 0

theorem add_u64_emod (m a b : Int) : add_u64 m a b % m = (a + b) % m := by
  simp [add_u64, Int.emod_emod_of_dvd]

theorem dot_vectors_u64_eq_sum (m : Int) (a b : List Int) :
    dot_vectors_u64 m a b = (List.zipWith (· * ·) a b).sum % m := by
  suffices h : ∀ (l : List Int) (acc : Int),
      (l.map (fun p => p % m)).foldl (add_u64 m) (acc % m) = (acc + l.sum) % m by
    have h2 := h (List.zipWith (· * ·) a b) 0
    simpa [dot_vectors_u64, mul_u64, add_u64, List.zipWith_map_left,
      List.map_zipWith] using h2
  intro l
  induction l with
  | nil => intro acc; simp
  | cons x xs ih =>
    intro acc
    have hx : add_u64 m (acc % m) (x % m) = (acc + x) % m := by
      simp [add_u64, Int.add_emod]
    simp only [List.map_cons, List.foldl_cons, hx]
    rw [ih (acc + x), List.sum_cons, add_assoc]

end CipherCore

namespace CipherCore

/-! ### SegmentCumSum (simple_evaluator.rs, `Operation::SegmentCumSum`)

The evaluator flattens the input into rows of `row_size` entries; we embed the
computation on the list of rows.  For every processed bit the code appends
either the input row (`bit = 0`) or the modular sum of the input row and the
previously appended output row (`bit = 1`). -/

/-- Inner loop of `Operation::SegmentCumSum`: `prev` is the previously
appended output row (`result_array[i*row_size..(i+1)*row_size]`). -/
def segment_cumsum_go (m : Int) (prev : List Int) :
    List (List Int × Int) → List (List Int)
  | [] => []
  | (row, b) :: rest =>
    let cur := if b = 0 then row else add_vectors_u64 m row prev
    cur :: segment_cumsum_go m cur rest

/-- `Operation::SegmentCumSum` of the simple evaluator: the result starts with
`first_row` and appends one row per bit of `binary_array`. -/
def segment_cumsum (m : Int) (input_rows : List (List Int))
    (binary_array : List Int) (first_row : List Int) : List (List Int) :=
  first_row :: segment_cumsum_go m first_row (List.zip input_rows binary_array)

theorem segment_cumsum_go_length (m : Int) (prev : List Int)
    (l : List (List Int × Int)) :
    (segment_cumsum_go m prev l).length = l.length := by
  induction l generalizing prev with
  | nil => simp [segment_cumsum_go]
  | cons p rest ih => simp [segment_cumsum_go, ih]

theorem segment_cumsum_go_get (m : Int) (prev : List Int)
    (l : List (List Int × Int)) (i : Nat) (hi : i + 1 < (segment_cumsum_go m prev l).length) :
    (segment_cumsum_go m prev l)[i + 1]! =
      (if (l[i + 1]!).2 = 0 then (l[i + 1]!).1
       else add_vectors_u64 m (l[i + 1]!).1 ((segment_cumsum_go m prev l)[i]!)) := by
  induction l generalizing prev i with
  | nil => simp [segment_cumsum_go] at hi
  | cons p rest ih =>
    rw [segment_cumsum_go_length] at hi
    match i with
    | 0 =>
      simp only [segment_cumsum_go]
      have hlen : 0 < (segment_cumsum_go m
          (if p.2 = 0 then p.1 else add_vectors_u64 m p.1 prev) rest).length := by
        rw [segment_cumsum_go_length]; simpa using hi
      match rest, hlen with
      | q :: rest2, _ =>
        simp [segment_cumsum_go]
    | i + 1 =>
      have hi2 : i + 1 < (segment_cumsum_go m
          (if p.2 = 0 then p.1 else add_vectors_u64 m p.1 prev) rest).length := by
        rw [segment_cumsum_go_length]; simpa using hi
      have := ih (if p.2 = 0 then p.1 else add_vectors_u64 m p.1 prev) i hi2
      simpa [segment_cumsum_go] using this

/-- C7: SegmentCumSum returns `n+1` rows with `out[0] = first_row`,
`out[i] = in[i-1]` when `bits[i-1] = 0` and `out[i] = out[i-1] + in[i-1]`
(entry-wise, modulo the scalar modulus) when `bits[i-1] ≠ 0`. -/
theorem c7_segment_cumsum_correct (m : Int) (input_rows : List (List Int))
    (bits : List Int) (first_row : List Int) (n : Nat)
    (hrows : input_rows.length = n) (hbits : bits.length = n) :
    (segment_cumsum m input_rows bits first_row).length = n + 1 ∧
    (segment_cumsum m input_rows bits first_row)[0]! = first_row ∧
    ∀ i : Nat, i < n →
      (segment_cumsum m input_rows bits first_row)[i + 1]! =
        (if bits[i]! = 0 then input_rows[i]!
         else add_vectors_u64 m input_rows[i]!
           ((segment_cumsum m input_rows bits first_row)[i]!)) := by
  have hziplen : (List.zip input_rows bits).length = n := by
    simp [List.length_zip, hrows, hbits]
  refine ⟨by simp [segment_cumsum, segment_cumsum_go_length, hziplen], by
    simp [segment_cumsum], ?_⟩
  intro i hi
  have hzip : ∀ j : Nat, j < n → (List.zip input_rows bits)[j]! = (input_rows[j]!, bits[j]!) := by
    intro j hj
    have hj0 : j < (List.zip input_rows bits).length := by omega
    have hj1 : j < input_rows.length := by omega
    have hj2 : j < bits.length := by omega
    rw [getElem!_pos (List.zip input_rows bits) j hj0, getElem!_pos input_rows j hj1,
      getElem!_pos bits j hj2]
    simp [List.getElem_zip]
  match i with
  | 0 =>
    match input_rows, bits, hrows, hbits, hi with
    | row :: rows2, b :: bits2, _, _, _ =>
      simp [segment_cumsum, segment_cumsum_go]
  | i + 1 =>
    have hlen1 : i + 1 + 1 < (segment_cumsum m input_rows bits first_row).length := by
      simp [segment_cumsum, segment_cumsum_go_length, hziplen]; omega
    have hmain : (segment_cumsum m input_rows bits first_row)[i + 1 + 1]! =
        (segment_cumsum_go m first_row (List.zip input_rows bits))[i + 1]! := by
      simp [segment_cumsum]
    have htail : (segment_cumsum m input_rows bits first_row)[i + 1]! =
        (segment_cumsum_go m first_row (List.zip input_rows bits))[i]! := by
      simp [segment_cumsum]
    have hstep := segment_cumsum_go_get m first_row (List.zip input_rows bits) i
      (by rw [segment_cumsum_go_length, hziplen]; omega)
    rw [hmain, hstep, ← htail, hzip (i + 1) hi]

/-- Witness for C7 at the spec test vector: `in = [1,2,3,4,5,6]`,
`bits = [0,1,1,0,0,1]`, `first = 10` gives `[10,1,3,6,4,5,11]` (modulus
`2^32`). -/
theorem c7_segment_cumsum_correct_witness :
    segment_cumsum (2 ^ 32) ([[1], [2], [3], [4], [5], [6]] : List (List Int))
      [0, 1, 1, 0, 0, 1] [10] = [[10], [1], [3], [6], [4], [5], [11]] ∧
    (segment_cumsum (2 ^ 32) ([[1], [2], [3], [4], [5], [6]] : List (List Int))
      [0, 1, 1, 0, 0, 1] [10]).length = 6 + 1 ∧
    (segment_cumsum (2 ^ 32) ([[1], [2], [3], [4], [5], [6]] : List (List Int))
      [0, 1, 1, 0, 0, 1] [10])[3]! =
      (if ([0, 1, 1, 0, 0, 1] : List Int)[2]! = 0
       then ([[1], [2], [3], [4], [5], [6]] : List (List Int))[2]!
       else add_vectors_u64 (2 ^ 32) ([[1], [2], [3], [4], [5], [6]] : List (List Int))[2]!
         ((segment_cumsum (2 ^ 32) ([[1], [2], [3], [4], [5], [6]] : List (List Int))
           [0, 1, 1, 0, 0, 1] [10])[2]!)) := by
  refine ⟨by decide, ?_, ?_⟩
  · exact (c7_segment_cumsum_correct (2 ^ 32) [[1], [2], [3], [4], [5], [6]]
      [0, 1, 1, 0, 0, 1] [10] 6 rfl rfl).1
  · exact (c7_segment_cumsum_correct (2 ^ 32) [[1], [2], [3], [4], [5], [6]]
      [0, 1, 1, 0, 0, 1] [10] 6 rfl rfl).2.2 2 (by omega)

end CipherCore

namespace CipherCore

/-! ### Truncate (simple_evaluator.rs, `Operation::Truncate(scale)`) -/

/-- The Rust cast `scale as i64` applied to a `u64` value `0 ≤ s < 2^64`:
values at or above `2^63` wrap around to negatives. -/
def u64_as_i64 (s : Int) : Int := if s < 2 ^ 63 then s else s - 2 ^ 64

/-- `Operation::Truncate(scale)` on one stored entry `x` of a signed scalar
type whose modulus is present: reinterpret the high half as negative
(`val -= modulus` when `val ≥ modulus/2`), divide with Rust `i64` division
(truncation toward zero, divisor is `scale as i64`), and add the modulus back
when the quotient is negative. -/
def truncate_signed_entry (modulus scale x : Int) : Int :=
  let val := if x ≥ modulus / 2 then x - modulus else x
  let res := Int.tdiv val (u64_as_i64 scale)
  if res < 0 then res + modulus else res

/-- `Operation::Truncate(scale)` on one entry of an unsigned scalar type:
plain `u64` integer division `entry /= scale`. -/
def truncate_unsigned_entry (scale x : Int) : Int := x / scale

/-- The signed truncation semantics exactly as claim C9 words it: interpret
the stored `x` as `x` when `x < 2^(w-1)` and as `x - 2^w` otherwise, divide by
`scale` rounding toward zero, and re-encode the quotient modulo `2^w`. -/
def truncate_signed_claimed (w : Nat) (scale x : Int) : Int :=
  Int.tdiv (if x < 2 ^ (w - 1) then x else x - 2 ^ w) scale % 2 ^ w

theorem abs_tdiv_le (a b : Int) (hb : 0 < b) : |Int.tdiv a b| ≤ |a| := by
  rcases le_or_lt 0 a with h | h
  · rw [abs_of_nonneg h, abs_of_nonneg (Int.tdiv_nonneg h hb.le),
      Int.tdiv_eq_ediv h hb.le]
    exact Int.ediv_le_self b h
  · have h1 : 0 ≤ -a := by omega
    have h2 : Int.tdiv a b = -Int.tdiv (-a) b := by
      rw [Int.neg_tdiv, neg_neg]
    rw [abs_of_neg h, h2, abs_neg,
      abs_of_nonneg (Int.tdiv_nonneg h1 hb.le), Int.tdiv_eq_ediv h1 hb.le]
    exact Int.ediv_le_self b h1

theorem emod_eq_branch (M r : Int) (h1 : -M < r) (h2 : r < M) :
    r % M = if r < 0 then r + M else r := by
  have hM : 0 < M := by omega
  by_cases h : r < 0
  · rw [if_pos h]
    have h3 : (r + M) % M = r % M := by
      have h5 := Int.add_mul_emod_self_left r M 1
      rw [mul_one] at h5
      exact h5
    have h4 : (r + M) % M = r + M := Int.emod_eq_of_lt (by omega) (by omega)
    omega
  · rw [if_neg h]
    exact Int.emod_eq_of_lt (by omega) h2

/-- C9 (amended): for a signed scalar type with modulus `2^w`, a stored value
`0 ≤ x < 2^w` and a scale `1 ≤ scale < 2^63`, the evaluator's Truncate
interprets `x` as `x` below `2^(w-1)` and as `x - 2^w` above, divides by
`scale` truncating toward zero, and re-encodes the quotient modulo `2^w`;
on unsigned types it is plain `u64` integer division.  (For `scale ≥ 2^63`
the `scale as i64` cast wraps to a negative divisor and the statement fails,
see the counterexample.) -/
theorem c9_truncate_semantics (w : Nat) (scale x : Int)
    (hw : 1 ≤ w) (hx0 : 0 ≤ x) (hx1 : x < 2 ^ w)
    (hs1 : 1 ≤ scale) (hs2 : scale < 2 ^ 63) :
    truncate_signed_entry (2 ^ w) scale x = truncate_signed_claimed w scale x ∧
    ∀ y s : Int, 0 ≤ y → 0 ≤ s →
      truncate_unsigned_entry s y = ((y.toNat / s.toNat : Nat) : Int) := by
  constructor
  · have hcast : u64_as_i64 scale = scale := by
      unfold u64_as_i64
      rw [if_pos (by omega)]
    have h2w : (2 : Int) ^ w = 2 ^ (w - 1) * 2 := by
      conv_lhs => rw [show w = (w - 1) + 1 by omega]
      rw [pow_succ]
    have hhalf : (2 : Int) ^ w / 2 = 2 ^ (w - 1) := by
      rw [h2w, Int.mul_ediv_cancel _ (by norm_num)]
    have hposhalf : (0 : Int) < 2 ^ (w - 1) := by positivity
    have h2w2 : (2 : Int) ^ w = 2 ^ (w - 1) * 2 := h2w
    simp only [truncate_signed_entry, truncate_signed_claimed, hcast, hhalf]
    by_cases hc : x < 2 ^ (w - 1)
    · rw [if_neg (show ¬x ≥ 2 ^ (w - 1) from not_le.mpr hc), if_pos hc]
      have habs := abs_tdiv_le x scale (by omega)
      rw [abs_of_nonneg hx0] at habs
      have hb := abs_le.mp habs
      have hb1 : -(2 ^ w) < Int.tdiv x scale := by omega
      have hb2 : Int.tdiv x scale < 2 ^ w := by omega
      rw [emod_eq_branch (2 ^ w) (Int.tdiv x scale) hb1 hb2]
    · rw [if_pos (show x ≥ 2 ^ (w - 1) from not_lt.mp hc), if_neg hc]
      have habs := abs_tdiv_le (x - 2 ^ w) scale (by omega)
      have habsval : |x - 2 ^ w| ≤ 2 ^ (w - 1) := by
        rw [abs_of_nonpos (by omega)]
        omega
      have hb := abs_le.mp (le_trans habs habsval)
      have hb1 : -(2 ^ w) < Int.tdiv (x - 2 ^ w) scale := by omega
      have hb2 : Int.tdiv (x - 2 ^ w) scale < 2 ^ w := by omega
      rw [emod_eq_branch (2 ^ w) (Int.tdiv (x - 2 ^ w) scale) hb1 hb2]
  · intro y s hy hs
    unfold truncate_unsigned_entry
    rw [Int.ofNat_tdiv, Int.toNat_of_nonneg hy, Int.toNat_of_nonneg hs]
    exact (Int.tdiv_eq_ediv hy hs).symm

/-- Witness for C9 (amended) at `w = 32`, `scale = 7`, `x = 2^32 - 20`
(the encoding of `-20`; the quotient toward zero is `-2`, re-encoded as
`2^32 - 2`). -/
theorem c9_truncate_semantics_witness :
    truncate_signed_entry (2 ^ 32) 7 (2 ^ 32 - 20) =
      truncate_signed_claimed 32 7 (2 ^ 32 - 20) ∧
    truncate_signed_entry (2 ^ 32) 7 (2 ^ 32 - 20) = 2 ^ 32 - 2 ∧
    truncate_unsigned_entry 7 20 = ((20 / 7 : Nat) : Int) := by
  refine ⟨(c9_truncate_semantics 32 7 (2 ^ 32 - 20) (by norm_num) (by norm_num)
    (by norm_num) (by norm_num) (by norm_num)).1, by decide, ?_⟩
  exact (c9_truncate_semantics 32 7 (2 ^ 32 - 20) (by norm_num) (by norm_num)
    (by norm_num) (by norm_num) (by norm_num)).2 20 7 (by norm_num) (by norm_num)

/-- Counterexample to C9 as stated: with `scale = 2^64 - 1` the cast
`scale as i64` wraps to `-1`, so the evaluator divides by `-1` instead of by
`scale`.  Stored `x = 5` on a 32-bit signed type yields `2^32 - 5` (the
encoding of `-5`) while division of `5` by `scale` rounding toward zero
yields `0`. -/
theorem c9_truncate_counterexample :
    truncate_signed_entry (2 ^ 32) (2 ^ 64 - 1) 5 = 2 ^ 32 - 5 ∧
    truncate_signed_claimed 32 (2 ^ 64 - 1) 5 = 0 ∧
    truncate_signed_entry (2 ^ 32) (2 ^ 64 - 1) 5 ≠
      truncate_signed_claimed 32 (2 ^ 64 - 1) 5 := by
  refine ⟨by decide, by decide, by decide⟩

end CipherCore

namespace CipherCore

/-! ### Sum (simple_evaluator.rs, `evaluate_sum` and the `Operation::Sum`
dispatch in `evaluate_node`) -/

/-- Modelled from the spec: `index_to_number(coord, shape)` (crate::broadcast,
external to the core sources): the row-major flat index of a coordinate. -/
def index_to_number (coord shape : List Nat) : Nat :=
  (List.zip coord shape).foldl (fun acc cs => acc * cs.2 + cs.1) 0

/-- Modelled from the spec: `number_to_index(i, shape)` (crate::broadcast,
external to the core sources): the inverse of `index_to_number`, peeling
dimensions from the right. -/
def number_to_index_rev (i : Nat) : List Nat → List Nat
  | [] => []
  | d :: rest => i % d :: number_to_index_rev (i / d) rest

/-- Row-major coordinate of flat index `i` in `shape`. -/
def number_to_index (i : Nat) (shape : List Nat) : List Nat :=
  (number_to_index_rev i shape.reverse).reverse

/-- The reduction loop of `evaluate_sum` for an array result with non-empty
axes: each input entry is added (modulo `m`) into the output cell whose
coordinate keeps the non-reduced axes. -/
def sum_reduce (m : Int) (inp_shape res_shape : List Nat) (res_axes : List Nat)
    (values : List Int) : List Int :=
  (List.range values.length).foldl
    (fun result i =>
      let inp_index := number_to_index i inp_shape
      let new_index := res_axes.map (fun ax => inp_index[ax]!)
      let new_i := index_to_number new_index res_shape
      result.set new_i (add_u64 m result[new_i]! values[i]!))
    (List.replicate res_shape.prod 0)

/-- `evaluate_sum` (simple_evaluator.rs lines 806-849): a scalar result type
folds all entries with modular addition; an array result type returns the
input value untouched when `axes` is empty and otherwise reduces along the
listed axes. -/
def evaluate_sum (m : Int) (res_is_array : Bool) (res_shape inp_shape : List Nat)
    (axes : List Nat) (input_value : List Int) : EvalOutcome (List Int) :=
  if res_is_array = false then
    .ok [input_value.foldl (add_u64 m) 0]
  else if axes = [] then
    .ok input_value
  else
    .ok (sum_reduce m inp_shape res_shape
      ((List.range inp_shape.length).filter (fun j => ¬ axes.contains j))
      input_value)

/-- `fn sum_bits_along_last_dimension` (simple_evaluator.rs lines 851-943)
on the flattened 0/1 bit view of a packed `BIT` value: with
`row_bitsize = input_shape[last]` the loop runs over
`num_rows = size_in_bits / row_bitsize` consecutive rows
(`for _row_i in 0..num_rows`, each row the next `row_bitsize` bits from
`current_bit`), XOR-folding every bit of the row into `sum_byte` — the
64/32/16-bit word, whole-byte and partial-byte reads each contribute by
`^`, with `count_ones() % 2` reducing a word to its bit parity — and emits
the row parity `row_sum` as one output bit per row.  On the bit list, XOR
is addition modulo 2, so each output entry is the mod-2 fold of its row's
chunk. -/
def sum_bits_along_last_dimension (rowBits : Nat) (values : List Int) : List Int :=
  (List.range (values.length / rowBits)).map
    (fun row_i => ((values.drop (row_i * rowBits)).take rowBits).foldl
      (fun sum_byte b => (sum_byte + b) % 2) 0)

/-- The `Operation::Sum(axes)` dispatch of `evaluate_node`: the XOR-parity
fast path fires only for `axes == [input rank - 1]` on `BIT` data; everything
else goes to `evaluate_sum`. -/
def evaluate_sum_node (m : Int) (is_bit res_is_array : Bool)
    (res_shape inp_shape : List Nat) (axes : List Nat)
    (input_value : List Int) : EvalOutcome (List Int) :=
  if axes = [inp_shape.length - 1] ∧ is_bit = true then
    .ok (sum_bits_along_last_dimension inp_shape[inp_shape.length - 1]! input_value)
  else
    evaluate_sum m res_is_array res_shape inp_shape axes input_value

/-- C10: for an array-typed Sum whose result type is an array, an empty axes
list makes the operation the identity: the dispatched evaluation returns the
input value itself, with no reduction applied. -/
theorem c10_sum_empty_axes_identity (m : Int) (is_bit : Bool)
    (res_shape inp_shape : List Nat) (input_value : List Int) :
    evaluate_sum_node m is_bit true res_shape inp_shape [] input_value =
      .ok input_value := by
  unfold evaluate_sum_node evaluate_sum
  have hne : ([] : List Nat) ≠ [inp_shape.length - 1] := by simp
  rw [if_neg (by simp [hne])]
  simp

end CipherCore

namespace CipherCore

/-! ### InversePermutation (simple_evaluator.rs, `Operation::InversePermutation`) -/

/-- The write loop of `Operation::InversePermutation`: for each input entry
`value` at position `i`, panic when `value ≥ n` (`n` is the input length),
otherwise write `result[value] = i`. -/
def inverse_permutation_loop (n : Nat) :
    List Nat → Nat → List Nat → EvalOutcome (List Nat)
  | [], _, result => .ok result
  | v :: rest, i, result =>
    if n ≤ v then .panicked
    else inverse_permutation_loop n rest (i + 1) (result.set v i)

/-- The same write loop without the range check (used to name the successful
result). -/
def inverse_permutation_writes : List Nat → Nat → List Nat → List Nat
  | [], _, result => result
  | v :: rest, i, result => inverse_permutation_writes rest (i + 1) (result.set v i)

/-- `Operation::InversePermutation`: sort-and-dedup duplicate detection
(panic on duplicates), then the write loop `result[v[i]] = i` with a range
check that panics on entries `≥ n`. -/
def inverse_permutation (values : List Nat) : EvalOutcome (List Nat) :=
  let values_without_dup := (values.mergeSort (· ≤ ·)).dedup
  if values.length ≠ values_without_dup.length then .panicked
  else inverse_permutation_loop values.length values 0
    (List.replicate values.length 0)

theorem inverse_permutation_loop_ok (n : Nat) (l : List Nat) (i : Nat)
    (acc : List Nat) (h : ∀ v ∈ l, v < n) :
    inverse_permutation_loop n l i acc = .ok (inverse_permutation_writes l i acc) := by
  induction l generalizing i acc with
  | nil => rfl
  | cons v rest ih =>
    have hv : v < n := h v (by simp)
    simp only [inverse_permutation_loop, inverse_permutation_writes]
    rw [if_neg (by omega)]
    exact ih (i + 1) (acc.set v i) (fun x hx => h x (by simp [hx]))

theorem inverse_permutation_loop_panicked (n : Nat) (l : List Nat) (i : Nat)
    (acc : List Nat) (h : ∃ v ∈ l, n ≤ v) :
    inverse_permutation_loop n l i acc = .panicked := by
  induction l generalizing i acc with
  | nil => simp at h
  | cons v rest ih =>
    simp only [inverse_permutation_loop]
    by_cases hv : n ≤ v
    · rw [if_pos hv]
    · rw [if_neg hv]
      refine ih (i + 1) (acc.set v i) ?_
      rcases h with ⟨w, hw, hwn⟩
      rcases List.mem_cons.mp hw with rfl | hw2
      · omega
      · exact ⟨w, hw2, hwn⟩

theorem inverse_permutation_writes_length (l : List Nat) (i : Nat)
    (acc : List Nat) : (inverse_permutation_writes l i acc).length = acc.length := by
  induction l generalizing i acc with
  | nil => rfl
  | cons v rest ih => simp [inverse_permutation_writes, ih]

theorem inverse_permutation_writes_notin (l : List Nat) (i : Nat)
    (acc : List Nat) (p : Nat) (hp : p ∉ l) :
    (inverse_permutation_writes l i acc)[p]! = acc[p]! := by
  induction l generalizing i acc with
  | nil => rfl
  | cons v rest ih =>
    simp only [inverse_permutation_writes]
    rw [ih (i + 1) (acc.set v i) (fun h => hp (List.mem_cons.mpr (Or.inr h)))]
    have hvp : v ≠ p := fun h => hp (List.mem_cons.mpr (Or.inl h.symm))
    by_cases hpl : p < acc.length
    · rw [getElem!_pos (acc.set v i) p (by simpa using hpl), getElem!_pos acc p hpl]
      exact List.getElem_set_ne hvp _
    · rw [getElem!_neg (acc.set v i) p (by simpa using hpl), getElem!_neg acc p hpl]

theorem inverse_permutation_writes_get (l : List Nat) (i : Nat) (acc : List Nat)
    (hnd : l.Nodup) (j : Nat) (hj : j < l.length) (hlt : l[j]! < acc.length) :
    (inverse_permutation_writes l i acc)[l[j]!]! = i + j := by
  induction l generalizing i acc j with
  | nil => simp at hj
  | cons v rest ih =>
    match j with
    | 0 =>
      have hv : (v :: rest)[0]! = v := by
        rw [getElem!_pos (v :: rest) 0 (by simp)]
        rfl
      rw [hv] at hlt ⊢
      simp only [inverse_permutation_writes]
      rw [inverse_permutation_writes_notin rest (i + 1) (acc.set v i) v
        (List.nodup_cons.mp hnd).1]
      rw [getElem!_pos (acc.set v i) v (by simpa using hlt)]
      simp [List.getElem_set_self, hlt]
    | j + 1 =>
      have hrest : (v :: rest)[j + 1]! = rest[j]! := by
        have hj2 : j < rest.length := by simpa using hj
        rw [getElem!_pos (v :: rest) (j + 1) (by simpa using hj),
          getElem!_pos rest j hj2]
        simp
      rw [hrest] at hlt ⊢
      simp only [inverse_permutation_writes]
      have := ih (i + 1) (acc.set v i) (List.nodup_cons.mp hnd).2 j
        (by simpa using hj) (by simpa using hlt)
      rw [this]
      omega

theorem inverse_permutation_nodup_check (values : List Nat) :
    (values.mergeSort (· ≤ ·)).dedup.length = values.length ↔ values.Nodup := by
  have hperm : (values.mergeSort (· ≤ ·)).Perm values :=
    List.mergeSort_perm values _
  have hd : (values.mergeSort (· ≤ ·)).dedup.length = values.dedup.length :=
    (hperm.dedup).length_eq
  rw [hd]
  constructor
  · intro h
    have hsub := List.dedup_sublist values
    have heq := hsub.eq_of_length h
    rw [← heq]
    exact List.nodup_dedup values
  · intro h
    rw [List.dedup_eq_self.mpr h]

/-- C8 (amended): for an input `v` of length `n` that is a permutation of
`[0,n)`, InversePermutation returns `o` with `o[v[i]] = i` for every `i`; for
an input with a duplicate entry or an entry `≥ n` the evaluation panics — a
fatal error, not a recoverable `Result` error. -/
theorem c8_inverse_permutation (v : List Nat) (n : Nat) (hn : v.length = n) :
    (v.Perm (List.range n) →
      ∃ o, inverse_permutation v = .ok o ∧ o.length = n ∧
        ∀ i, i < n → o[v[i]!]! = i) ∧
    ((¬v.Nodup ∨ ∃ x ∈ v, n ≤ x) → inverse_permutation v = .panicked) := by
  constructor
  · intro hperm
    have hnd : v.Nodup := hperm.nodup_iff.mpr (List.nodup_range n)
    have hbound : ∀ x ∈ v, x < n := by
      intro x hx
      have := hperm.mem_iff.mp hx
      simpa using this
    refine ⟨inverse_permutation_writes v 0 (List.replicate v.length 0), ?_, ?_, ?_⟩
    · unfold inverse_permutation
      rw [if_neg (by
        rw [Ne, eq_comm]
        simp only [not_not]
        exact (inverse_permutation_nodup_check v).mpr hnd)]
      exact inverse_permutation_loop_ok v.length v 0 _
        (fun x hx => by rw [hn]; exact hbound x hx)
    · rw [inverse_permutation_writes_length, List.length_replicate, hn]
    · intro i hi
      have := inverse_permutation_writes_get v 0 (List.replicate v.length 0)
        hnd i (by omega) (by
          rw [List.length_replicate, hn]
          refine hbound _ ?_
          have : i < v.length := by omega
          rw [getElem!_pos v i this]
          exact List.getElem_mem this)
      simpa using this
  · intro hbad
    rcases hbad with hdup | hout
    · unfold inverse_permutation
      rw [if_pos (by
        rw [Ne, eq_comm]
        intro h
        exact hdup ((inverse_permutation_nodup_check v).mp h))]
    · unfold inverse_permutation
      by_cases hch : v.length = (v.mergeSort (· ≤ ·)).dedup.length
      · rw [if_neg (by omega)]
        refine inverse_permutation_loop_panicked v.length v 0 _ ?_
        rcases hout with ⟨x, hx, hxn⟩
        exact ⟨x, hx, by omega⟩
      · rw [if_pos hch]

/-- Witness for C8 (amended) at the spec example: `[2,0,1,4,3]` is a
permutation of `[0,5)` and inverts to `[1,2,0,4,3]`; `[2,0,1,4,4]` has a
duplicate and panics. -/
theorem c8_inverse_permutation_witness :
    List.Perm [2, 0, 1, 4, 3] (List.range 5) ∧
    (∃ o, inverse_permutation [2, 0, 1, 4, 3] = .ok o ∧ o.length = 5 ∧
      ∀ i, i < 5 → o[([2, 0, 1, 4, 3] : List Nat)[i]!]! = i) ∧
    inverse_permutation [2, 0, 1, 4, 4] = .panicked := by
  refine ⟨by decide, (c8_inverse_permutation [2, 0, 1, 4, 3] 5 rfl).1 (by decide), ?_⟩
  exact (c8_inverse_permutation [2, 0, 1, 4, 4] 5 rfl).2 (Or.inl (by decide))

/-- Counterexample to C8 as stated: on the duplicate input `[2,0,1,4,4]` the
evaluator panics (`panic!`, fatal to the process) instead of surfacing a
recoverable error through the `Result` channel. -/
theorem c8_inverse_permutation_counterexample :
    inverse_permutation [2, 0, 1, 4, 4] = .panicked ∧
    inverse_permutation [2, 0, 1, 4, 4] ≠ .err := by
  have hnd : ¬ ([2, 0, 1, 4, 4] : List Nat).Nodup := by decide
  have h : inverse_permutation [2, 0, 1, 4, 4] = .panicked := by
    unfold inverse_permutation
    rw [if_pos (by
      rw [Ne, eq_comm]
      intro hcontra
      exact hnd ((inverse_permutation_nodup_check [2, 0, 1, 4, 4]).mp hcontra))]
  refine ⟨h, by rw [h]; intro hcontra; cases hcontra⟩

end CipherCore

namespace CipherCore

/-! ### DecomposeSwitchingMap (simple_evaluator.rs, `Operation::DecomposeSwitchingMap(n)`)

The PRNG shuffle of the missing indices is embedded as an explicit parameter
`missing`: the list of indices of `[0,n)` not hit by the map, in the shuffled
order in which the loop consumes them. -/

/-- The distinct values of the map in first-occurrence order: the
`existing_indices` vector built while filling the `switch_indexes` hash map. -/
def existing_go (seen : List Nat) : List Nat → List Nat
  | [] => []
  | v :: rest => if v ∈ seen then existing_go seen rest
                 else v :: existing_go (v :: seen) rest

/-- `existing_indices` of the DecomposeSwitchingMap loop. -/
def existing_indices (map : List Nat) : List Nat := existing_go [] map

/-- The positions of value `v` in the map, in increasing order: the location
vector stored in the `switch_indexes` hash map. -/
def locations (map : List Nat) (v : Nat) : List Nat :=
  (List.range map.length).filter (fun i => decide (map[i]! = v))

/-- The indices of `[0,n)` that never occur in the map (`missing_indices`,
before the PRNG shuffle). -/
def missing_indices (map : List Nat) (n : Nat) : List Nat :=
  (List.range n).filter (fun i => decide (i ∉ map))

/-- The grouping loop of DecomposeSwitchingMap over the distinct map values:
for each value emit it followed by `num_copies - 1` shuffled missing indices
into `perm1`, extend the duplication map with the block position and the
duplication bits with `0` then ones, and extend the grouping permutation with
the value's locations.  `none` models the panic of the Rust code when it
indexes past the end of `missing_indices`. -/
def decompose_groups (map : List Nat) :
    List Nat → Nat → List Nat → Option (List Nat × List Nat × List Nat × List Nat)
  | _, _, [] => some ([], [], [], [])
  | missing, start, v :: vs =>
    if missing.length < (locations map v).length - 1 then none
    else
      match decompose_groups map (missing.drop ((locations map v).length - 1))
        (start + (locations map v).length) vs with
      | none => none
      | some (perm1, dupMap, dupBits, ptsp) =>
        some (v :: (missing.take ((locations map v).length - 1) ++ perm1),
              List.replicate (locations map v).length start ++ dupMap,
              (0 :: List.replicate ((locations map v).length - 1) 1) ++ dupBits,
              locations map v ++ ptsp)

/-- `Operation::DecomposeSwitchingMap(n)` for one map: panic on a value `≥ n`,
group the map positions by value, fill the duplicate slots with the shuffled
missing indices, and invert the grouping permutation into `perm2`
(`little_perm2_array[ptsp[i]] = i`). -/
def decompose_switching_map (map : List Nat) (n : Nat) (missing : List Nat) :
    Option (List Nat × (List Nat × List Nat) × List Nat) :=
  if map.any (fun v => decide (n ≤ v)) then none
  else
    match decompose_groups map missing 0 (existing_indices map) with
    | none => none
    | some (perm1, dupMap, dupBits, ptsp) =>
      some (perm1, (dupMap, dupBits),
        inverse_permutation_writes ptsp 0 (List.replicate map.length 0))

/-- The duplication stage as claim C3 words it: `out[i] = out[i-1]` when
`dup_bits[i] = 1`, else the stage input at `i`. -/
def dup_stage_go (prev : Nat) : List (Nat × Nat) → List Nat
  | [] => []
  | (v, b) :: rest =>
    let cur := if b = 1 then prev else v
    cur :: dup_stage_go cur rest

/-- Duplication stage applied to a whole vector (the first bit of a valid
duplication map is `0`, so the seed of the scan is irrelevant). -/
def dup_stage (vals bits : List Nat) : List Nat := dup_stage_go 0 (vals.zip bits)

/-- Applying `perm1`, then the duplication stage, then `perm2`, in this
order: `out[i] = dup(perm1)[perm2[i]]`. -/
def compose_decomposition (perm1 dupBits perm2 : List Nat) : List Nat :=
  perm2.map (fun j => (dup_stage perm1 dupBits)[j]!)

theorem mem_existing_go (seen l : List Nat) (x : Nat) :
    x ∈ existing_go seen l ↔ x ∈ l ∧ x ∉ seen := by
  induction l generalizing seen with
  | nil => simp [existing_go]
  | cons v rest ih =>
    by_cases hv : v ∈ seen
    · rw [existing_go, if_pos hv, ih]
      constructor
      · rintro ⟨h1, h2⟩
        exact ⟨List.mem_cons.mpr (Or.inr h1), h2⟩
      · rintro ⟨h1, h2⟩
        rcases List.mem_cons.mp h1 with rfl | h3
        · exact absurd hv h2
        · exact ⟨h3, h2⟩
    · rw [existing_go, if_neg hv]
      constructor
      · intro h
        rcases List.mem_cons.mp h with rfl | h2
        · exact ⟨List.mem_cons.mpr (Or.inl rfl), hv⟩
        · rcases (ih (v :: seen)).mp h2 with ⟨h3, h4⟩
          refine ⟨List.mem_cons.mpr (Or.inr h3), fun h5 => h4 (List.mem_cons.mpr (Or.inr h5))⟩
      · rintro ⟨h1, h2⟩
        rcases List.mem_cons.mp h1 with rfl | h3
        · exact List.mem_cons.mpr (Or.inl rfl)
        · by_cases hx : x = v
          · exact List.mem_cons.mpr (Or.inl hx)
          · refine List.mem_cons.mpr (Or.inr ((ih (v :: seen)).mpr ⟨h3, ?_⟩))
            intro h4
            rcases List.mem_cons.mp h4 with h5 | h5
            · exact hx h5
            · exact h2 h5

theorem nodup_existing_go (seen l : List Nat) : (existing_go seen l).Nodup := by
  induction l generalizing seen with
  | nil => exact List.nodup_nil
  | cons v rest ih =>
    by_cases hv : v ∈ seen
    · rw [existing_go, if_pos hv]
      exact ih seen
    · rw [existing_go, if_neg hv]
      refine List.nodup_cons.mpr ⟨?_, ih (v :: seen)⟩
      intro h
      exact ((mem_existing_go (v :: seen) rest v).mp h).2 (List.mem_cons.mpr (Or.inl rfl))

theorem mem_existing_indices (map : List Nat) (x : Nat) :
    x ∈ existing_indices map ↔ x ∈ map := by
  rw [existing_indices, mem_existing_go]
  simp

theorem nodup_existing_indices (map : List Nat) : (existing_indices map).Nodup :=
  nodup_existing_go [] map

theorem mem_locations (map : List Nat) (v p : Nat) :
    p ∈ locations map v ↔ p < map.length ∧ map[p]! = v := by
  rw [locations]
  simp [List.mem_filter]

theorem nodup_locations (map : List Nat) (v : Nat) : (locations map v).Nodup :=
  (List.nodup_range map.length).filter _

theorem locations_ne_nil (map : List Nat) (v : Nat) (hv : v ∈ map) :
    locations map v ≠ [] := by
  rcases List.mem_iff_getElem.mp hv with ⟨p, hp, hpv⟩
  intro h
  have : p ∈ locations map v := by
    rw [mem_locations]
    exact ⟨hp, by rw [getElem!_pos map p hp]; exact hpv⟩
  rw [h] at this
  simp at this

end CipherCore

namespace CipherCore

theorem getElem!_append_left_nat (as bs : List Nat) (i : Nat) (h : i < as.length) :
    (as ++ bs)[i]! = as[i]! := by
  rw [getElem!_pos (as ++ bs) i (by simp; omega), getElem!_pos as i h]
  exact List.getElem_append_left h

theorem getElem!_append_right_nat (as bs : List Nat) (i : Nat)
    (h1 : as.length ≤ i) (h2 : i < as.length + bs.length) :
    (as ++ bs)[i]! = bs[i - as.length]! := by
  rw [getElem!_pos (as ++ bs) i (by simp; omega), getElem!_pos bs (i - as.length) (by omega)]
  exact List.getElem_append_right h1

theorem zip_replicate_const (l : List Nat) (c : Nat) :
    l.zip (List.replicate l.length c) = l.map (fun x => (x, c)) := by
  induction l with
  | nil => rfl
  | cons x xs ih => simp [List.replicate_succ, ih]

theorem dup_stage_go_ones (v : Nat) (ms : List Nat) (rest : List (Nat × Nat)) :
    dup_stage_go v (ms.map (fun x => (x, 1)) ++ rest) =
      List.replicate ms.length v ++ dup_stage_go v rest := by
  induction ms with
  | nil => simp
  | cons x xs ih => simp [dup_stage_go, List.replicate_succ, ih]

theorem dup_stage_go_block (prev v : Nat) (ms : List Nat) (rest : List (Nat × Nat)) :
    dup_stage_go prev ((v, 0) :: (ms.map (fun x => (x, 1)) ++ rest)) =
      List.replicate (ms.length + 1) v ++ dup_stage_go v rest := by
  rw [List.replicate_succ]
  simp only [dup_stage_go]
  rw [if_neg (by omega)]
  simp [dup_stage_go_ones]

theorem forall₂_replicate_right (R : Nat → Nat → Prop) (l : List Nat) (c : Nat)
    (h : ∀ x ∈ l, R x c) :
    List.Forall₂ R l (List.replicate l.length c) := by
  induction l with
  | nil => exact List.Forall₂.nil
  | cons x xs ih =>
    rw [List.length_cons, List.replicate_succ]
    exact List.Forall₂.cons (h x (by simp)) (ih (fun y hy => h y (by simp [hy])))

/-- The concatenation of the location lists of the distinct map values, in
first-occurrence order, is a permutation of the position range of the map. -/
theorem grouping_flatten_perm (map : List Nat) :
    ((existing_indices map).map (locations map)).flatten.Perm
      (List.range map.length) := by
  have hnodup : ((existing_indices map).map (locations map)).flatten.Nodup := by
    rw [List.nodup_flatten]
    constructor
    · intro l hl
      rcases List.mem_map.mp hl with ⟨v, _, rfl⟩
      exact nodup_locations map v
    · refine List.Pairwise.map (locations map) ?_ (nodup_existing_indices map)
      intro a b hab
      intro p hpa hpb
      rw [mem_locations] at hpa hpb
      exact absurd (hpa.2.symm.trans hpb.2) hab
  have hsub1 : ((existing_indices map).map (locations map)).flatten ⊆
      List.range map.length := by
    intro p hp
    rcases List.mem_flatten.mp hp with ⟨l, hl, hpl⟩
    rcases List.mem_map.mp hl with ⟨v, _, rfl⟩
    rw [mem_locations] at hpl
    exact List.mem_range.mpr hpl.1
  have hsub2 : List.range map.length ⊆
      ((existing_indices map).map (locations map)).flatten := by
    intro p hp
    have hpm : p < map.length := List.mem_range.mp hp
    have hv : map[p]! ∈ map := by
      rw [getElem!_pos map p hpm]
      exact List.getElem_mem hpm
    refine List.mem_flatten.mpr ⟨locations map map[p]!, ?_, ?_⟩
    · exact List.mem_map.mpr ⟨map[p]!, (mem_existing_indices map _).mpr hv, rfl⟩
    · exact (mem_locations map _ p).mpr ⟨hpm, rfl⟩
  exact List.Subperm.antisymm
    (List.subperm_of_subset hnodup hsub1)
    (List.subperm_of_subset (List.nodup_range map.length) hsub2)

/-- The number of duplicate slots needed equals `map.length` minus the number
of distinct values, and the number of missing indices is `n` minus the number
of distinct values; `map.length ≤ n` makes the former fit into the latter. -/
theorem locations_length_sum (map : List Nat) :
    (((existing_indices map).map (locations map)).map List.length).sum =
      map.length := by
  have h := (grouping_flatten_perm map).length_eq
  rw [List.length_flatten] at h
  rw [List.map_map] at h ⊢
  simpa using h

theorem missing_indices_length (map : List Nat) (n : Nat)
    (hvals : ∀ v ∈ map, v < n) :
    (missing_indices map n).length = n - (existing_indices map).length := by
  have hsplit := (List.filter_append_perm
    (fun i => decide (i ∉ map)) (List.range n)).length_eq
  rw [List.length_append, List.length_range] at hsplit
  have hperm2 : (List.filter (fun x => !decide (x ∉ map)) (List.range n)).Perm
      (existing_indices map) := by
    rw [List.perm_ext_iff_of_nodup
      ((List.nodup_range n).filter _) (nodup_existing_indices map)]
    intro a
    rw [List.mem_filter, List.mem_range, mem_existing_indices]
    constructor
    · rintro ⟨_, h2⟩
      simpa using h2
    · intro h
      exact ⟨hvals a h, by simpa using h⟩
  rw [missing_indices]
  have := hperm2.length_eq
  omega

end CipherCore

namespace CipherCore

/-- Full behaviour of the grouping loop of DecomposeSwitchingMap: on distinct
values `vs` of the map with enough shuffled missing indices, it succeeds and
produces blocks whose grouping permutation is the concatenated locations,
whose duplication stage rebuilds the map values, and whose duplication map and
bits satisfy the block recurrences. -/
theorem decompose_groups_spec (map : List Nat) (n : Nat) :
    ∀ (vs missing : List Nat) (start : Nat),
    vs.Nodup →
    (∀ v ∈ vs, v ∈ map) →
    (∀ v ∈ vs, v < n) →
    (∀ x ∈ missing, x ∉ map ∧ x < n) →
    (vs.map (fun v => (locations map v).length - 1)).sum ≤ missing.length →
    ∃ p1 dm db pt, decompose_groups map missing start vs = some (p1, dm, db, pt) ∧
      pt = (vs.map (locations map)).flatten ∧
      p1.length = pt.length ∧ dm.length = pt.length ∧ db.length = pt.length ∧
      List.Forall₂ (fun x b => x < n ∧ (b = 1 ↔ x ∉ map)) p1 db ∧
      (∀ prev, List.Forall₂ (fun p dv => map[p]! = dv) pt
        (dup_stage_go prev (p1.zip db))) ∧
      (0 < pt.length → db[0]! = 0) ∧
      (∀ j, j < pt.length → dm[j]! = if db[j]! = 1 then dm[j - 1]! else start + j) := by
  intro vs
  induction vs with
  | nil =>
    intro missing start _ _ _ _ _
    refine ⟨[], [], [], [], rfl, by simp, rfl, rfl, rfl, List.Forall₂.nil,
      fun prev => List.Forall₂.nil, ?_, ?_⟩
    · intro h; simp at h
    · intro j hj; simp at hj
  | cons v vs ih =>
    intro missing start hnd hmem hvn hmiss hcount
    have hvmem : v ∈ map := hmem v (by simp)
    have hlocs_ne := locations_ne_nil map v hvmem
    have hlpos : 0 < (locations map v).length := by
      cases hl : locations map v with
      | nil => exact absurd hl hlocs_ne
      | cons a l => simp [hl]
    have hsum : ((locations map v).length - 1) +
        (vs.map (fun w => (locations map w).length - 1)).sum ≤ missing.length := by
      simpa [List.map_cons, List.sum_cons] using hcount
    have hkm : (locations map v).length - 1 ≤ missing.length := by omega
    obtain ⟨p1R, dmR, dbR, ptR, hEq, hptR, hl1, hl2, hl3, hA, hB, hdb0, hE⟩ :=
      ih (missing.drop ((locations map v).length - 1))
        (start + (locations map v).length)
        (List.nodup_cons.mp hnd).2
        (fun w hw => hmem w (by simp [hw]))
        (fun w hw => hvn w (by simp [hw]))
        (fun x hx => hmiss x (List.mem_of_mem_drop hx))
        (by rw [List.length_drop]; omega)
    have htake : (missing.take ((locations map v).length - 1)).length =
        (locations map v).length - 1 := by
      rw [List.length_take]
      omega
    refine ⟨v :: (missing.take ((locations map v).length - 1) ++ p1R),
      List.replicate (locations map v).length start ++ dmR,
      (0 :: List.replicate ((locations map v).length - 1) 1) ++ dbR,
      locations map v ++ ptR, ?_, ?_, ?_, ?_, ?_, ?_, ?_, ?_, ?_⟩
    · unfold decompose_groups
      rw [if_neg (by omega), hEq]
    · rw [List.map_cons, List.flatten_cons, hptR]
    · simp only [List.length_cons, List.length_append, htake, hl1]
      omega
    · simp only [List.length_append, List.length_replicate, hl2]
    · simp only [List.length_append, List.length_cons, List.length_replicate, hl3]
      omega
    · simp only [List.cons_append]
      refine List.Forall₂.cons
        ⟨hvn v (by simp),
          Iff.intro (fun h => absurd h (by omega)) (fun h => absurd hvmem h)⟩ ?_
      refine List.rel_append ?_ hA
      have := forall₂_replicate_right
        (fun x b => x < n ∧ (b = 1 ↔ x ∉ map))
        (missing.take ((locations map v).length - 1)) 1
        (fun x hx => by
          have hxm := hmiss x (List.mem_of_mem_take hx)
          exact ⟨hxm.2, Iff.intro (fun _ => hxm.1) (fun _ => rfl)⟩)
      rw [htake] at this
      exact this
    · intro prev
      have hz : (v :: (missing.take ((locations map v).length - 1) ++ p1R)).zip
          ((0 :: List.replicate ((locations map v).length - 1) 1) ++ dbR) =
          (v, 0) :: (((missing.take ((locations map v).length - 1)).map
            (fun x => (x, 1))) ++ p1R.zip dbR) := by
        rw [show (0 :: List.replicate ((locations map v).length - 1) 1) ++ dbR =
            (0 :: List.replicate ((locations map v).length - 1) 1) ++ dbR from rfl,
          show v :: (missing.take ((locations map v).length - 1) ++ p1R) =
            (v :: missing.take ((locations map v).length - 1)) ++ p1R by simp,
          List.zip_append (by simp [htake]), List.zip_cons_cons]
        rw [show List.replicate ((locations map v).length - 1) 1 =
            List.replicate (missing.take ((locations map v).length - 1)).length 1 by
              rw [htake],
          zip_replicate_const]
        simp
      rw [hz, dup_stage_go_block]
      rw [htake]
      have hrepl : (locations map v).length - 1 + 1 = (locations map v).length := by
        omega
      rw [hrepl]
      refine List.rel_append ?_ (hB v)
      have := forall₂_replicate_right
        (fun p dv => map[p]! = dv) (locations map v) v
        (fun p hp => ((mem_locations map v p).mp hp).2)
      exact this
    · intro _
      rw [List.cons_append]
      rw [getElem!_pos _ 0 (by simp)]
      rfl
    · intro j hj
      simp only [List.length_append] at hj
      have hlenR : ptR.length = dmR.length := hl2.symm
      by_cases hjk : j < (locations map v).length
      · have hdmj : (List.replicate (locations map v).length start ++ dmR)[j]! = start := by
          rw [getElem!_append_left_nat _ _ j (by simpa using hjk),
            getElem!_pos _ j (by simpa using hjk)]
          exact List.getElem_replicate start _
        match j with
        | 0 =>
          have hdbj : ((0 :: List.replicate ((locations map v).length - 1) 1) ++ dbR)[0]! =
              0 := by
            rw [List.cons_append, getElem!_pos _ 0 (by simp)]
            rfl
          rw [hdmj, hdbj, if_neg (by omega)]
          omega
        | j + 1 =>
          have hdbj : ((0 :: List.replicate ((locations map v).length - 1) 1) ++ dbR)[j + 1]! =
              1 := by
            rw [getElem!_append_left_nat _ _ (j + 1) (by simp; omega),
              getElem!_pos _ (j + 1) (by simp; omega)]
            simp only [List.getElem_cons_succ]
            exact List.getElem_replicate 1 _
          have hdmj1 : (List.replicate (locations map v).length start ++ dmR)[j]! =
              start := by
            rw [getElem!_append_left_nat _ _ j (by simp; omega),
              getElem!_pos _ j (by simp; omega)]
            exact List.getElem_replicate start _
          rw [hdmj, hdbj, if_pos rfl]
          simpa using hdmj1.symm
      · have hj2 : (locations map v).length ≤ j := by omega
        have hj3 : j - (locations map v).length < ptR.length := by omega
        have hdmj : (List.replicate (locations map v).length start ++ dmR)[j]! =
            dmR[j - (locations map v).length]! := by
          rw [getElem!_append_right_nat _ _ j (by simpa using hj2)
            (by simp; omega)]
          simp
        have hdbj : ((0 :: List.replicate ((locations map v).length - 1) 1) ++ dbR)[j]! =
            dbR[j - (locations map v).length]! := by
          rw [getElem!_append_right_nat _ _ j (by simp; omega) (by simp; omega)]
          congr 1
          simp
          omega
        rw [hdmj, hdbj]
        have hEj := hE (j - (locations map v).length) hj3
        by_cases hb : dbR[j - (locations map v).length]! = 1
        · rw [if_pos hb]
          rw [hb, if_pos rfl] at hEj
          have hj1pos : 1 ≤ j - (locations map v).length := by
            by_contra h0
            have h00 : j - (locations map v).length = 0 := by omega
            rw [h00] at hb
            rw [hdb0 (by omega)] at hb
            exact absurd hb (by omega)
          have hdmj1 : (List.replicate (locations map v).length start ++ dmR)[j - 1]! =
              dmR[j - 1 - (locations map v).length]! := by
            rw [getElem!_append_right_nat _ _ (j - 1) (by simp; omega)
              (by simp; omega)]
            congr 1
            simp
          rw [hdmj1, hEj]
          congr 1
          omega
        · rw [if_neg hb]
          rw [if_neg hb] at hEj
          rw [hEj]
          omega

end CipherCore

namespace CipherCore

theorem get_eq_getElemBang (l : List Nat) (i : Nat) (h : i < l.length) :
    l.get ⟨i, h⟩ = l[i]! := by
  rw [getElem!_pos l i h]
  simp

theorem sum_map_sub_one (l : List Nat) (f : Nat → Nat) (h : ∀ x ∈ l, 1 ≤ f x) :
    (l.map (fun x => f x - 1)).sum = (l.map f).sum - l.length ∧
      l.length ≤ (l.map f).sum := by
  induction l with
  | nil => simp
  | cons x xs ih =>
    have hx := h x (by simp)
    have ihx := ih (fun y hy => h y (by simp [hy]))
    simp only [List.map_cons, List.sum_cons, List.length_cons]
    omega

/-- C3 (amended): for a switching map of length `m ≤ n` with values in
`[0,n)` and the shuffled missing indices, DecomposeSwitchingMap succeeds and
returns `(perm1, (dup_map, dup_bits), perm2)` of length `m` such that
applying `perm1`, then the duplication stage, then `perm2` reproduces the
map, and `dup_bits[i] = 1` exactly at the positions filled by a duplicate
copy (a missing index, not a map value).  (For `m > n` the code panics:
see the counterexample.) -/
theorem c3_decompose_switching_map (map : List Nat) (n : Nat) (missing : List Nat)
    (hvals : ∀ v ∈ map, v < n) (hlen : map.length ≤ n)
    (hshuf : missing.Perm (missing_indices map n)) :
    ∃ perm1 dupMap dupBits perm2,
      decompose_switching_map map n missing =
        some (perm1, (dupMap, dupBits), perm2) ∧
      perm1.length = map.length ∧ dupMap.length = map.length ∧
      dupBits.length = map.length ∧ perm2.length = map.length ∧
      compose_decomposition perm1 dupBits perm2 = map ∧
      (∀ i, i < map.length → (dupBits[i]! = 1 ↔ perm1[i]! ∉ map)) := by
  have hnd := nodup_existing_indices map
  have hmem : ∀ v ∈ existing_indices map, v ∈ map :=
    fun v hv => (mem_existing_indices map v).mp hv
  have hvn : ∀ v ∈ existing_indices map, v < n :=
    fun v hv => hvals v (hmem v hv)
  have hmx : ∀ x ∈ missing, x ∉ map ∧ x < n := by
    intro x hx
    have hx2 := hshuf.mem_iff.mp hx
    rw [missing_indices, List.mem_filter, List.mem_range] at hx2
    exact ⟨by simpa using hx2.2, hx2.1⟩
  have hsum_eq :
      ((existing_indices map).map (fun v => (locations map v).length)).sum =
        map.length := by
    have := locations_length_sum map
    rwa [List.map_map] at this
  have hml : missing.length = n - (existing_indices map).length := by
    rw [hshuf.length_eq]
    exact missing_indices_length map n hvals
  have hcount :
      ((existing_indices map).map (fun v => (locations map v).length - 1)).sum ≤
        missing.length := by
    have hge : ∀ v ∈ existing_indices map, 1 ≤ (locations map v).length := by
      intro v hv
      have := locations_ne_nil map v (hmem v hv)
      cases hl : locations map v with
      | nil => exact absurd hl this
      | cons a l => simp [hl]
    have hs := sum_map_sub_one (existing_indices map)
      (fun v => (locations map v).length) hge
    rw [hsum_eq] at hs
    obtain ⟨hs1, hs2⟩ := hs
    have hs3 : ((existing_indices map).map
        (fun v => (locations map v).length - 1)).sum =
        map.length - (existing_indices map).length := hs1
    omega
  obtain ⟨p1, dm, db, pt, hEq, hpt, hL1, hL2, hL3, hA, hB, hdb0, _⟩ :=
    decompose_groups_spec map n (existing_indices map) missing 0
      hnd hmem hvn hmx hcount
  have hptperm : pt.Perm (List.range map.length) := by
    rw [hpt]
    exact grouping_flatten_perm map
  have hm : pt.length = map.length := by
    rw [hptperm.length_eq, List.length_range]
  have hptnd : pt.Nodup := hptperm.nodup_iff.mpr (List.nodup_range _)
  have hptlt : ∀ j, j < pt.length → pt[j]! < map.length := by
    intro j hj
    have : pt[j]! ∈ pt := by
      rw [getElem!_pos pt j hj]
      exact List.getElem_mem hj
    have := hptperm.mem_iff.mp this
    simpa using this
  have hnotany : ¬(map.any (fun v => decide (n ≤ v)) = true) := by
    rw [List.any_eq_true]
    rintro ⟨v, hv, hnv⟩
    have := hvals v hv
    simp at hnv
    omega
  refine ⟨p1, dm, db, inverse_permutation_writes pt 0 (List.replicate map.length 0),
    ?_, by omega, by omega, by omega, ?_, ?_, ?_⟩
  · unfold decompose_switching_map
    rw [if_neg hnotany, hEq]
  · rw [inverse_permutation_writes_length, List.length_replicate]
  · -- composition reproduces the map
    have hd := hB 0
    obtain ⟨hdlen, hdget⟩ := List.forall₂_iff_get.mp hd
    have hdptwise : ∀ j, j < map.length → (dup_stage p1 db)[j]! = map[pt[j]!]! := by
      intro j hj
      have hj1 : j < pt.length := by omega
      have hj2 : j < (dup_stage_go 0 (p1.zip db)).length := by omega
      have := hdget j hj1 hj2
      rw [get_eq_getElemBang pt j hj1, get_eq_getElemBang _ j hj2] at this
      rw [dup_stage]
      exact this.symm
    have hinv : ∀ j, j < map.length →
        (inverse_permutation_writes pt 0 (List.replicate map.length 0))[pt[j]!]! = j := by
      intro j hj
      have := inverse_permutation_writes_get pt 0 (List.replicate map.length 0)
        hptnd j (by omega) (by
          rw [List.length_replicate]
          exact hptlt j (by omega))
      simpa using this
    have hsurj : ∀ i, i < map.length → ∃ j, j < map.length ∧ pt[j]! = i := by
      intro i hi
      have : i ∈ pt := hptperm.mem_iff.mpr (List.mem_range.mpr hi)
      rcases List.mem_iff_getElem.mp this with ⟨j, hj, hji⟩
      refine ⟨j, by omega, ?_⟩
      rw [getElem!_pos pt j hj]
      exact hji
    have hplen : (inverse_permutation_writes pt 0 (List.replicate map.length 0)).length =
        map.length := by
      rw [inverse_permutation_writes_length, List.length_replicate]
    refine List.ext_getElem (by simp [compose_decomposition, hplen]) ?_
    intro i h1 h2
    have hi : i < map.length := by omega
    rcases hsurj i hi with ⟨j, hj, hji⟩
    have hperm2i :
        (inverse_permutation_writes pt 0 (List.replicate map.length 0))[i]! = j := by
      rw [← hji]
      exact hinv j hj
    simp only [compose_decomposition, List.getElem_map]
    have hib : i < (inverse_permutation_writes pt 0 (List.replicate map.length 0)).length := by
      omega
    rw [show (inverse_permutation_writes pt 0 (List.replicate map.length 0))[i] =
        (inverse_permutation_writes pt 0 (List.replicate map.length 0))[i]! from
      (getElem!_pos (inverse_permutation_writes pt 0 (List.replicate map.length 0))
        i hib).symm]
    rw [hperm2i, hdptwise j hj, hji]
    exact getElem!_pos map i hi
  · -- duplication bits mark exactly the duplicate-copy slots
    intro i hi
    obtain ⟨hablen, habget⟩ := List.forall₂_iff_get.mp hA
    have hi1 : i < p1.length := by omega
    have hi2 : i < db.length := by omega
    have := (habget i hi1 hi2).2
    rw [get_eq_getElemBang p1 i hi1, get_eq_getElemBang db i hi2] at this
    exact this

/-- Witness for C3 (amended) at the spec example: map `[2,0,1,3,2,4,3,8]` with
`n = 9` and shuffled missing indices `[6,5,7]` decomposes into
`perm1 = [2,6,0,1,3,5,4,8]`, `dup_bits = [0,1,0,0,0,1,0,0]`,
`perm2 = [0,2,3,4,1,6,5,7]`, and the composition reproduces the map. -/
theorem c3_decompose_switching_map_witness :
    decompose_switching_map [2, 0, 1, 3, 2, 4, 3, 8] 9 [6, 5, 7] =
      some ([2, 6, 0, 1, 3, 5, 4, 8], ([0, 0, 2, 3, 4, 4, 6, 7], [0, 1, 0, 0, 0, 1, 0, 0]),
        [0, 2, 3, 4, 1, 6, 5, 7]) ∧
    compose_decomposition [2, 6, 0, 1, 3, 5, 4, 8] [0, 1, 0, 0, 0, 1, 0, 0]
      [0, 2, 3, 4, 1, 6, 5, 7] = [2, 0, 1, 3, 2, 4, 3, 8] ∧
    (∃ perm1 dupMap dupBits perm2,
      decompose_switching_map [2, 0, 1, 3, 2, 4, 3, 8] 9 [6, 5, 7] =
        some (perm1, (dupMap, dupBits), perm2) ∧
      perm1.length = 8 ∧ dupMap.length = 8 ∧ dupBits.length = 8 ∧ perm2.length = 8 ∧
      compose_decomposition perm1 dupBits perm2 = [2, 0, 1, 3, 2, 4, 3, 8] ∧
      (∀ i, i < 8 →
        (dupBits[i]! = 1 ↔ perm1[i]! ∉ ([2, 0, 1, 3, 2, 4, 3, 8] : List Nat)))) := by
  refine ⟨by decide, by decide, ?_⟩
  have h := c3_decompose_switching_map [2, 0, 1, 3, 2, 4, 3, 8] 9 [6, 5, 7]
    (by decide) (by decide) (by decide)
  simpa using h

/-- Counterexample to C3 as stated: the map `[0,0]` has length `2 > n = 1`
with all values in `[0,1)`, its missing-index list is empty, and the
evaluator panics (indexing past `missing_indices`) instead of returning a
decomposition. -/
theorem c3_decompose_switching_map_counterexample :
    (∀ v ∈ ([0, 0] : List Nat), v < 1) ∧
    missing_indices [0, 0] 1 = [] ∧
    decompose_switching_map [0, 0] 1 [] = none := by
  refine ⟨by decide, by decide, by decide⟩

end CipherCore

namespace CipherCore

/-! ### CuckooToPermutation (simple_evaluator.rs, `Operation::CuckooToPermutation`)

The PRNG shuffle of the unused indices is embedded as the explicit parameter
`shuffled` (the `remaining_indices` vector after `shuffle_array`). -/

/-- `CUCKOO_DUMMY_ELEMENT = u64::MAX`. -/
def CUCKOO_DUMMY_ELEMENT : Nat := 2 ^ 64 - 1

/-- `constant_time_select(a, b, c)` for `c ∈ {0,1}`: build the mask
`c * u64::MAX` with wrapping multiplication, then `mask & (a ^ b) ^ b`. -/
def constant_time_select (a b c : Nat) : Nat :=
  (((c * (2 ^ 64 - 1)) % 2 ^ 64) &&& (a ^^^ b)) ^^^ b

theorem constant_time_select_zero (a b : Nat) : constant_time_select a b 0 = b := by
  simp [constant_time_select]

theorem constant_time_select_one (a b : Nat) (ha : a < 2 ^ 64) (hb : b < 2 ^ 64) :
    constant_time_select a b 1 = a := by
  unfold constant_time_select
  have h1 : (1 * (2 ^ 64 - 1)) % 2 ^ 64 = 2 ^ 64 - 1 := by norm_num
  rw [h1]
  have hxor : a ^^^ b < 2 ^ 64 := Nat.xor_lt_two_pow ha hb
  rw [Nat.and_comm, Nat.and_pow_two_sub_one_eq_mod, Nat.mod_eq_of_lt hxor]
  exact Nat.xor_cancel_right b a

theorem div_dummy_eq (x : Nat) (hx : x < 2 ^ 64) :
    x / CUCKOO_DUMMY_ELEMENT = if x = CUCKOO_DUMMY_ELEMENT then 1 else 0 := by
  by_cases h : x = CUCKOO_DUMMY_ELEMENT
  · rw [if_pos h, h]
    exact Nat.div_self (by norm_num [CUCKOO_DUMMY_ELEMENT])
  · rw [if_neg h]
    refine Nat.div_eq_of_lt ?_
    rw [CUCKOO_DUMMY_ELEMENT] at h ⊢
    omega

theorem sum_div_dummy_eq_count (l : List Nat) (h : ∀ x ∈ l, x < 2 ^ 64) :
    (l.map (fun x => x / CUCKOO_DUMMY_ELEMENT)).sum = l.count CUCKOO_DUMMY_ELEMENT := by
  induction l with
  | nil => simp
  | cons x rest ih =>
    rw [List.map_cons, List.sum_cons, ih (fun y hy => h y (by simp [hy])),
      List.count_cons, div_dummy_eq x (h x (by simp))]
    by_cases hx : x = CUCKOO_DUMMY_ELEMENT
    · simp [hx]
      omega
    · simp [hx]

/-- The per-entry loop of `Operation::CuckooToPermutation`: range-check each
entry, substitute the next shuffled unused index for each sentinel via the
constant-time select, and advance the cursor capped at the end. -/
def ctp_loop (table_size num_dummies : Nat) (shuffled : List Nat) :
    List Nat → Nat → EvalOutcome (List Nat)
  | [], _ => .ok []
  | x :: rest, current_index =>
    if table_size - num_dummies ≤ x ∧ x ≠ CUCKOO_DUMMY_ELEMENT then .panicked
    else
      match ctp_loop table_size num_dummies shuffled rest
        (min (current_index + x / CUCKOO_DUMMY_ELEMENT) (shuffled.length - 1)) with
      | .ok out =>
        .ok (constant_time_select shuffled[current_index]! x
          (x / CUCKOO_DUMMY_ELEMENT) :: out)
      | .err => .err
      | .panicked => .panicked

/-- The substituted table (the value part of `ctp_loop`). -/
def ctp_out (shuffled : List Nat) : List Nat → Nat → List Nat
  | [], _ => []
  | x :: rest, current_index =>
    constant_time_select shuffled[current_index]! x (x / CUCKOO_DUMMY_ELEMENT) ::
      ctp_out shuffled rest
        (min (current_index + x / CUCKOO_DUMMY_ELEMENT) (shuffled.length - 1))

/-- `Operation::CuckooToPermutation` on one Cuckoo table: count the sentinels
(`x / u64::MAX`), check that removing the sentinels leaves no duplicates
(sort-and-dedup), then run the substitution loop. -/
def cuckoo_to_permutation_table (input shuffled : List Nat) : EvalOutcome (List Nat) :=
  if 1 < (input.map (fun x => x / CUCKOO_DUMMY_ELEMENT)).sum then
    if (input.mergeSort (· ≤ ·)).dedup.length +
        (input.map (fun x => x / CUCKOO_DUMMY_ELEMENT)).sum - 1 ≠ input.length
    then .panicked
    else ctp_loop input.length ((input.map (fun x => x / CUCKOO_DUMMY_ELEMENT)).sum)
      shuffled input 0
  else if (input.mergeSort (· ≤ ·)).dedup.length ≠ input.length then .panicked
  else ctp_loop input.length ((input.map (fun x => x / CUCKOO_DUMMY_ELEMENT)).sum)
    shuffled input 0

theorem sorted_dedup_length (l : List Nat) :
    (l.mergeSort (· ≤ ·)).dedup.length = l.dedup.length :=
  ((List.mergeSort_perm l _).dedup).length_eq

theorem nodup_iff_dedup_length (l : List Nat) :
    l.dedup.length = l.length ↔ l.Nodup := by
  constructor
  · intro h
    have heq := (List.dedup_sublist l).eq_of_length h
    rw [← heq]
    exact List.nodup_dedup l
  · intro h
    rw [List.dedup_eq_self.mpr h]

theorem length_filter_ne_add_count (l : List Nat) (D : Nat) :
    (l.filter (fun x => decide (x ≠ D))).length + l.count D = l.length := by
  induction l with
  | nil => simp
  | cons x rest ih =>
    rw [List.filter_cons, List.count_cons]
    by_cases hx : x = D
    · rw [if_neg (by simp [hx]), if_pos (by simp [hx])]
      simp only [List.length_cons]
      omega
    · rw [if_pos (by simp [hx]), if_neg (by simp [hx])]
      simp only [List.length_cons]
      omega

theorem dedup_length_filter_dummy (l : List Nat) :
    l.dedup.length = (l.filter (fun x => decide (x ≠ CUCKOO_DUMMY_ELEMENT))).dedup.length +
      (if CUCKOO_DUMMY_ELEMENT ∈ l then 1 else 0) := by
  rw [← List.card_toFinset, ← List.card_toFinset]
  by_cases hD : CUCKOO_DUMMY_ELEMENT ∈ l
  · rw [if_pos hD]
    have hset : l.toFinset =
        insert CUCKOO_DUMMY_ELEMENT
          (l.filter (fun x => decide (x ≠ CUCKOO_DUMMY_ELEMENT))).toFinset := by
      ext a
      simp only [List.mem_toFinset, Finset.mem_insert, List.mem_filter]
      constructor
      · intro ha
        by_cases haD : a = CUCKOO_DUMMY_ELEMENT
        · exact Or.inl haD
        · exact Or.inr ⟨ha, by simpa using haD⟩
      · rintro (rfl | ⟨ha, _⟩)
        · exact hD
        · exact ha
    rw [hset, Finset.card_insert_of_not_mem (by
      simp only [List.mem_toFinset, List.mem_filter]
      rintro ⟨_, h2⟩
      simp at h2)]
  · rw [if_neg hD]
    have : l.filter (fun x => decide (x ≠ CUCKOO_DUMMY_ELEMENT)) = l := by
      refine List.filter_eq_self.mpr ?_
      intro a ha
      simp only [decide_eq_true_eq]
      intro h
      rw [h] at ha
      exact hD ha
    rw [this]
    omega

/-- The duplicate check of CuckooToPermutation passes exactly when the
non-sentinel entries contain no duplicate. -/
theorem ctp_checks_iff (input : List Nat) :
    ((if 1 < input.count CUCKOO_DUMMY_ELEMENT then
        input.dedup.length + input.count CUCKOO_DUMMY_ELEMENT - 1 = input.length
      else input.dedup.length = input.length) ↔
      (input.filter (fun x => decide (x ≠ CUCKOO_DUMMY_ELEMENT))).Nodup) := by
  have hsplit := length_filter_ne_add_count input CUCKOO_DUMMY_ELEMENT
  have hded := dedup_length_filter_dummy input
  have hnodup := nodup_iff_dedup_length
    (input.filter (fun x => decide (x ≠ CUCKOO_DUMMY_ELEMENT)))
  have hcm : input.count CUCKOO_DUMMY_ELEMENT = 0 ↔ CUCKOO_DUMMY_ELEMENT ∉ input := by
    exact List.count_eq_zero
  by_cases hd : 1 < input.count CUCKOO_DUMMY_ELEMENT
  · rw [if_pos hd]
    have hmem : CUCKOO_DUMMY_ELEMENT ∈ input := by
      by_contra h
      rw [← hcm] at h
      omega
    rw [if_pos hmem] at hded
    rw [← hnodup]
    omega
  · rw [if_neg hd]
    by_cases hmem : CUCKOO_DUMMY_ELEMENT ∈ input
    · rw [if_pos hmem] at hded
      have hc1 : input.count CUCKOO_DUMMY_ELEMENT = 1 := by
        have := List.count_pos_iff.mpr hmem
        omega
      rw [← hnodup]
      omega
    · rw [if_neg hmem] at hded
      have hc0 : input.count CUCKOO_DUMMY_ELEMENT = 0 := hcm.mpr hmem
      rw [← hnodup]
      omega

end CipherCore

namespace CipherCore

theorem ctp_loop_panicked (ts d : Nat) (sh l : List Nat) (ci : Nat)
    (h : ∃ x ∈ l, ts - d ≤ x ∧ x ≠ CUCKOO_DUMMY_ELEMENT) :
    ctp_loop ts d sh l ci = .panicked := by
  induction l generalizing ci with
  | nil => simp at h
  | cons x rest ih =>
    simp only [ctp_loop]
    by_cases hx : ts - d ≤ x ∧ x ≠ CUCKOO_DUMMY_ELEMENT
    · rw [if_pos hx]
    · rw [if_neg hx]
      have hrest : ∃ y ∈ rest, ts - d ≤ y ∧ y ≠ CUCKOO_DUMMY_ELEMENT := by
        rcases h with ⟨y, hy, hyc⟩
        rcases List.mem_cons.mp hy with rfl | hy2
        · exact absurd hyc hx
        · exact ⟨y, hy2, hyc⟩
      rw [ih _ hrest]

theorem ctp_loop_ok (ts d : Nat) (sh l : List Nat) (ci : Nat)
    (h : ∀ x ∈ l, ¬(ts - d ≤ x ∧ x ≠ CUCKOO_DUMMY_ELEMENT)) :
    ctp_loop ts d sh l ci = .ok (ctp_out sh l ci) := by
  induction l generalizing ci with
  | nil => rfl
  | cons x rest ih =>
    simp only [ctp_loop, ctp_out]
    rw [if_neg (h x (by simp))]
    rw [ih _ (fun y hy => h y (by simp [hy]))]

theorem ctp_out_length (sh l : List Nat) (ci : Nat) :
    (ctp_out sh l ci).length = l.length := by
  induction l generalizing ci with
  | nil => rfl
  | cons x rest ih => simp [ctp_out, ih]

theorem ctp_out_no_dummy (sh l : List Nat) (ci : Nat)
    (hl : ∀ x ∈ l, x < 2 ^ 64) (hc : l.count CUCKOO_DUMMY_ELEMENT = 0) :
    ctp_out sh l ci = l := by
  induction l generalizing ci with
  | nil => rfl
  | cons x rest ih =>
    have hx : x ≠ CUCKOO_DUMMY_ELEMENT := by
      intro hxe
      have := List.count_eq_zero.mp hc
      rw [hxe] at this
      exact this (by simp)
    have hdiv : x / CUCKOO_DUMMY_ELEMENT = 0 := by
      rw [div_dummy_eq x (hl x (by simp)), if_neg hx]
    simp only [ctp_out, hdiv, constant_time_select_zero]
    rw [ih _ (fun y hy => hl y (by simp [hy])) (by
      rw [List.count_cons] at hc
      omega)]

theorem ctp_out_perm (sh l : List Nat) (ci : Nat)
    (hl : ∀ x ∈ l, x < 2 ^ 64) (hsh : ∀ x ∈ sh, x < 2 ^ 64)
    (hbound : ci + l.count CUCKOO_DUMMY_ELEMENT ≤ sh.length) :
    (ctp_out sh l ci).Perm
      (l.filter (fun x => decide (x ≠ CUCKOO_DUMMY_ELEMENT)) ++
        (sh.drop ci).take (l.count CUCKOO_DUMMY_ELEMENT)) := by
  induction l generalizing ci with
  | nil => simp [ctp_out]
  | cons x rest ih =>
    have hcc : (x :: rest).count CUCKOO_DUMMY_ELEMENT =
        rest.count CUCKOO_DUMMY_ELEMENT +
          (if CUCKOO_DUMMY_ELEMENT = x then 1 else 0) := by
      rw [List.count_cons]
      by_cases hxe : x = CUCKOO_DUMMY_ELEMENT
      · simp [hxe]
      · have hxe2 : ¬CUCKOO_DUMMY_ELEMENT = x := fun h => hxe h.symm
        simp [hxe, hxe2]
    by_cases hx : x = CUCKOO_DUMMY_ELEMENT
    · -- sentinel entry: it is replaced by the next shuffled index
      have hci : ci < sh.length := by
        rw [hcc, if_pos hx.symm] at hbound
        omega
      have hdiv : x / CUCKOO_DUMMY_ELEMENT = 1 := by
        rw [div_dummy_eq x (hl x (by simp)), if_pos hx]
      have hsel : constant_time_select sh[ci]! x 1 = sh[ci]! := by
        refine constant_time_select_one _ _ ?_ (hl x (by simp))
        rw [getElem!_pos sh ci hci]
        exact hsh _ (List.getElem_mem hci)
      have hdropci : sh.drop ci = sh[ci]! :: sh.drop (ci + 1) := by
        rw [getElem!_pos sh ci hci]
        exact List.drop_eq_getElem_cons hci
      have hfilter : (x :: rest).filter (fun y => decide (y ≠ CUCKOO_DUMMY_ELEMENT)) =
          rest.filter (fun y => decide (y ≠ CUCKOO_DUMMY_ELEMENT)) := by
        rw [List.filter_cons, if_neg (by simp [hx])]
      by_cases hrc : rest.count CUCKOO_DUMMY_ELEMENT = 0
      · have hrec : ctp_out sh rest (min (ci + 1) (sh.length - 1)) = rest :=
          ctp_out_no_dummy sh rest _ (fun y hy => hl y (by simp [hy])) hrc
        simp only [ctp_out, hdiv, hsel, hrec, hfilter, hcc, if_pos hx.symm, hrc]
        rw [hdropci]
        simp only [List.take_succ_cons, List.take_zero]
        have hfr : rest.filter (fun y => decide (y ≠ CUCKOO_DUMMY_ELEMENT)) = rest := by
          refine List.filter_eq_self.mpr ?_
          intro a ha
          have := List.count_eq_zero.mp hrc
          simp only [decide_eq_true_eq]
          intro he
          rw [he] at ha
          exact this ha
        rw [hfr]
        simpa using
          (show (rest ++ sh[ci]! :: ([] : List Nat)).Perm
              (sh[ci]! :: (rest ++ [])) from List.perm_middle).symm
      · have hmin : min (ci + 1) (sh.length - 1) = ci + 1 := by
          rw [hcc, if_pos hx.symm] at hbound
          omega
        have hrec := ih (ci + 1) (fun y hy => hl y (by simp [hy])) (by
          rw [hcc, if_pos hx.symm] at hbound
          omega)
        simp only [ctp_out, hdiv, hsel, hmin, hfilter, hcc, if_pos hx.symm]
        rw [hdropci]
        simp only [List.take_succ_cons]
        refine (hrec.cons sh[ci]!).trans ?_
        exact (List.perm_middle).symm
    · -- regular entry: it is kept
      have hdiv : x / CUCKOO_DUMMY_ELEMENT = 0 := by
        rw [div_dummy_eq x (hl x (by simp)), if_neg hx]
      have hfilter : (x :: rest).filter (fun y => decide (y ≠ CUCKOO_DUMMY_ELEMENT)) =
          x :: rest.filter (fun y => decide (y ≠ CUCKOO_DUMMY_ELEMENT)) := by
        rw [List.filter_cons, if_pos (by simp [hx])]
      have hcc0 : (x :: rest).count CUCKOO_DUMMY_ELEMENT =
          rest.count CUCKOO_DUMMY_ELEMENT := by
        rw [hcc, if_neg (fun h => hx h.symm)]
        omega
      by_cases hrc : rest.count CUCKOO_DUMMY_ELEMENT = 0
      · have hrec : ctp_out sh rest (min (ci + 0) (sh.length - 1)) = rest :=
          ctp_out_no_dummy sh rest _ (fun y hy => hl y (by simp [hy])) hrc
        simp only [ctp_out, hdiv, constant_time_select_zero, hrec, hfilter, hcc0, hrc,
          List.take_zero, List.append_nil]
        refine List.Perm.cons x ?_
        have hfr : rest.filter (fun y => decide (y ≠ CUCKOO_DUMMY_ELEMENT)) = rest := by
          refine List.filter_eq_self.mpr ?_
          intro a ha
          have h0 := List.count_eq_zero.mp hrc
          simp only [decide_eq_true_eq]
          intro he
          rw [he] at ha
          exact h0 ha
        rw [hfr]
      · have hmin : min (ci + 0) (sh.length - 1) = ci := by
          rw [hcc0] at hbound
          omega
        have hrec := ih ci (fun y hy => hl y (by simp [hy])) (by
          rw [hcc0] at hbound
          omega)
        simp only [ctp_out, hdiv, constant_time_select_zero, hmin, hfilter, hcc0]
        exact hrec.cons x

end CipherCore

namespace CipherCore

theorem getElem!_cons_zero_nat (a : Nat) (t : List Nat) : (a :: t)[0]! = a := by
  rw [getElem!_pos (a :: t) 0 (by simp)]
  simp

theorem getElem!_cons_succ_nat (a : Nat) (t : List Nat) (j : Nat) :
    (a :: t)[j + 1]! = t[j]! := by
  by_cases h : j < t.length
  · rw [getElem!_pos (a :: t) (j + 1) (by simp; omega), getElem!_pos t j h]
    simp
  · rw [getElem!_neg (a :: t) (j + 1) (by simp; omega), getElem!_neg t j (by omega)]

theorem ctp_out_getElem (sh l : List Nat) (ci : Nat)
    (hl : ∀ x ∈ l, x < 2 ^ 64) (hsh : ∀ x ∈ sh, x < 2 ^ 64)
    (hbound : ci + l.count CUCKOO_DUMMY_ELEMENT ≤ sh.length) :
    ∀ j, j < l.length →
      (ctp_out sh l ci)[j]! =
        if l[j]! = CUCKOO_DUMMY_ELEMENT
        then sh[ci + (l.take j).count CUCKOO_DUMMY_ELEMENT]!
        else l[j]! := by
  induction l generalizing ci with
  | nil => intro j hj; simp at hj
  | cons x rest ih =>
    intro j hj
    have hcc : (x :: rest).count CUCKOO_DUMMY_ELEMENT =
        rest.count CUCKOO_DUMMY_ELEMENT + (if x = CUCKOO_DUMMY_ELEMENT then 1 else 0) := by
      rw [List.count_cons]
      by_cases hxe : x = CUCKOO_DUMMY_ELEMENT
      · simp [hxe]
      · have hxe2 : ¬CUCKOO_DUMMY_ELEMENT = x := fun h => hxe h.symm
        simp [hxe, hxe2]
    match j with
    | 0 =>
      simp only [ctp_out, List.take_zero, List.count_nil, Nat.add_zero]
      rw [getElem!_cons_zero_nat, getElem!_cons_zero_nat]
      by_cases hx : x = CUCKOO_DUMMY_ELEMENT
      · rw [if_pos hx]
        have hci : ci < sh.length := by
          rw [hcc, if_pos hx] at hbound
          omega
        have hdiv : x / CUCKOO_DUMMY_ELEMENT = 1 := by
          rw [div_dummy_eq x (hl x (by simp)), if_pos hx]
        rw [hdiv]
        refine constant_time_select_one _ _ ?_ (hl x (by simp))
        rw [getElem!_pos sh ci hci]
        exact hsh _ (List.getElem_mem hci)
      · rw [if_neg hx]
        have hdiv : x / CUCKOO_DUMMY_ELEMENT = 0 := by
          rw [div_dummy_eq x (hl x (by simp)), if_neg hx]
        rw [hdiv, constant_time_select_zero]
    | j + 1 =>
      have hjr : j < rest.length := by simpa using hj
      have htake : ((x :: rest).take (j + 1)).count CUCKOO_DUMMY_ELEMENT =
          (rest.take j).count CUCKOO_DUMMY_ELEMENT +
            (if x = CUCKOO_DUMMY_ELEMENT then 1 else 0) := by
        rw [List.take_succ_cons, List.count_cons]
        by_cases hxe : x = CUCKOO_DUMMY_ELEMENT
        · simp [hxe]
        · have hxe2 : ¬CUCKOO_DUMMY_ELEMENT = x := fun h => hxe h.symm
          simp [hxe, hxe2]
      simp only [ctp_out]
      rw [getElem!_cons_succ_nat, getElem!_cons_succ_nat, htake]
      by_cases hrc : rest.count CUCKOO_DUMMY_ELEMENT = 0
      · have hrid : ∀ ci2, ctp_out sh rest ci2 = rest := fun ci2 =>
          ctp_out_no_dummy sh rest ci2 (fun y hy => hl y (by simp [hy])) hrc
        rw [hrid]
        have hrj : rest[j]! ≠ CUCKOO_DUMMY_ELEMENT := by
          intro he
          have h0 := List.count_eq_zero.mp hrc
          refine h0 ?_
          rw [← he, getElem!_pos rest j hjr]
          exact List.getElem_mem hjr
        rw [if_neg hrj]
      · by_cases hx : x = CUCKOO_DUMMY_ELEMENT
        · have hdiv : x / CUCKOO_DUMMY_ELEMENT = 1 := by
            rw [div_dummy_eq x (hl x (by simp)), if_pos hx]
          have hb2 : ci + (rest.count CUCKOO_DUMMY_ELEMENT + 1) ≤ sh.length := by
            rw [hcc, if_pos hx] at hbound
            omega
          have hmin : min (ci + x / CUCKOO_DUMMY_ELEMENT) (sh.length - 1) = ci + 1 := by
            rw [hdiv]
            omega
          rw [hmin]
          have := ih (ci + 1) (fun y hy => hl y (by simp [hy])) (by omega) j hjr
          rw [this, if_pos hx,
            show ci + ((rest.take j).count CUCKOO_DUMMY_ELEMENT + 1) =
              ci + 1 + (rest.take j).count CUCKOO_DUMMY_ELEMENT by omega]
        · have hdiv : x / CUCKOO_DUMMY_ELEMENT = 0 := by
            rw [div_dummy_eq x (hl x (by simp)), if_neg hx]
          have hb2 : ci + rest.count CUCKOO_DUMMY_ELEMENT ≤ sh.length := by
            rw [hcc, if_neg hx] at hbound
            omega
          have hmin : min (ci + x / CUCKOO_DUMMY_ELEMENT) (sh.length - 1) = ci := by
            rw [hdiv]
            omega
          rw [hmin]
          have := ih ci (fun y hy => hl y (by simp [hy])) (by omega) j hjr
          rw [this, if_neg hx]
          simp

end CipherCore



namespace CipherCore

/-- C4 (amended): CuckooToPermutation succeeds exactly when the non-sentinel
entries contain no duplicate AND all lie in `[0, table_size − #sentinels)`
(the range check is what the original claim misses); on success the output is
a permutation of `[0, table_size)` in which non-sentinel entries are kept in
place and the sentinel entries are replaced, in scan order, by the shuffled
unused indices `[table_size − #sentinels, table_size)`. -/
theorem c4_cuckoo_to_permutation (input shuffled : List Nat) (d : Nat)
    (hin : ∀ x ∈ input, x < 2 ^ 64) (hts : input.length ≤ 2 ^ 64)
    (hd : d = input.count CUCKOO_DUMMY_ELEMENT)
    (hshuf0 : d = 0 → shuffled = [CUCKOO_DUMMY_ELEMENT])
    (hshuf1 : 1 ≤ d → shuffled.Perm (List.range' (input.length - d) d)) :
    ((∃ out, cuckoo_to_permutation_table input shuffled = .ok out) ↔
      ((input.filter (fun x => decide (x ≠ CUCKOO_DUMMY_ELEMENT))).Nodup ∧
        ∀ x ∈ input, x ≠ CUCKOO_DUMMY_ELEMENT → x < input.length - d)) ∧
    (((input.filter (fun x => decide (x ≠ CUCKOO_DUMMY_ELEMENT))).Nodup ∧
        ∀ x ∈ input, x ≠ CUCKOO_DUMMY_ELEMENT → x < input.length - d) →
      ∃ out, cuckoo_to_permutation_table input shuffled = .ok out ∧
        out.length = input.length ∧
        out.Perm (List.range input.length) ∧
        (∀ j, j < input.length → input[j]! ≠ CUCKOO_DUMMY_ELEMENT →
          out[j]! = input[j]!) ∧
        (∀ j, j < input.length → input[j]! = CUCKOO_DUMMY_ELEMENT →
          out[j]! = shuffled[(input.take j).count CUCKOO_DUMMY_ELEMENT]!)) := by
  have hsum : (input.map (fun x => x / CUCKOO_DUMMY_ELEMENT)).sum = d := by
    rw [sum_div_dummy_eq_count input hin, hd]
  have hdlen : d ≤ input.length := by
    rw [hd]
    exact List.count_le_length _ _
  have hshlen : d ≤ shuffled.length := by
    by_cases h0 : d = 0
    · omega
    · rw [(hshuf1 (by omega)).length_eq, List.length_range']
  have hshbound : ∀ x ∈ shuffled, x < 2 ^ 64 := by
    intro x hx
    by_cases h0 : d = 0
    · rw [hshuf0 h0] at hx
      rcases List.mem_cons.mp hx with rfl | h
      · rw [CUCKOO_DUMMY_ELEMENT]
        omega
      · simp at h
    · have := (hshuf1 (by omega)).mem_iff.mp hx
      rw [List.mem_range'_1] at this
      -- the unused table indices are below the table length, hence below 2^64:
      -- d ≥ 1 means at least one sentinel occupies the table
      have hone : 1 ≤ d := by omega
      omega
  have hcheck := ctp_checks_iff input
  have heval_cases :
      (cuckoo_to_permutation_table input shuffled =
          ctp_loop input.length d shuffled input 0 ∧
        (input.filter (fun x => decide (x ≠ CUCKOO_DUMMY_ELEMENT))).Nodup) ∨
      (cuckoo_to_permutation_table input shuffled = .panicked ∧
        ¬(input.filter (fun x => decide (x ≠ CUCKOO_DUMMY_ELEMENT))).Nodup) := by
    unfold cuckoo_to_permutation_table
    rw [hsum]
    by_cases h1 : 1 < d
    · rw [if_pos h1]
      rw [if_pos (by omega)] at hcheck
      by_cases h2 : (input.mergeSort (· ≤ ·)).dedup.length + d - 1 ≠ input.length
      · refine Or.inr ⟨by rw [if_pos h2], ?_⟩
        intro hcon
        refine h2 ?_
        rw [sorted_dedup_length]
        have := hcheck.mpr hcon
        omega
      · refine Or.inl ⟨by rw [if_neg h2], ?_⟩
        refine hcheck.mp ?_
        rw [sorted_dedup_length] at h2
        omega
    · rw [if_neg h1]
      rw [if_neg (by omega)] at hcheck
      by_cases h2 : (input.mergeSort (· ≤ ·)).dedup.length ≠ input.length
      · refine Or.inr ⟨by rw [if_pos h2], ?_⟩
        intro hcon
        refine h2 ?_
        rw [sorted_dedup_length]
        exact hcheck.mpr hcon
      · refine Or.inl ⟨by rw [if_neg h2], ?_⟩
        refine hcheck.mp ?_
        rw [sorted_dedup_length] at h2
        omega
  have heval_of_cond :
      ((input.filter (fun x => decide (x ≠ CUCKOO_DUMMY_ELEMENT))).Nodup ∧
        (∀ x ∈ input, x ≠ CUCKOO_DUMMY_ELEMENT → x < input.length - d)) →
      cuckoo_to_permutation_table input shuffled = .ok (ctp_out shuffled input 0) := by
    rintro ⟨hnd, hbnd⟩
    have hok : ctp_loop input.length d shuffled input 0 =
        .ok (ctp_out shuffled input 0) := by
      refine ctp_loop_ok _ _ _ _ _ ?_
      rintro x hx ⟨hge, hne⟩
      have := hbnd x hx hne
      omega
    rcases heval_cases with ⟨heq, _⟩ | ⟨_, hcon⟩
    · rw [heq, hok]
    · exact absurd hnd hcon
  constructor
  · constructor
    · rintro ⟨out, hout⟩
      rcases heval_cases with ⟨heq, hnd⟩ | ⟨heq, hcon⟩
      · refine ⟨hnd, ?_⟩
        intro x hx hne
        by_contra hge
        push_neg at hge
        have hpan := ctp_loop_panicked input.length d shuffled input 0
          ⟨x, hx, hge, hne⟩
        rw [heq, hpan] at hout
        cases hout
      · rw [heq] at hout
        cases hout
    · intro hcond
      exact ⟨_, heval_of_cond hcond⟩
  · rintro ⟨hnd, hbnd⟩
    refine ⟨ctp_out shuffled input 0, heval_of_cond ⟨hnd, hbnd⟩,
      ctp_out_length shuffled input 0, ?_, ?_, ?_⟩
    · -- the output is a permutation of [0, table_size)
      have hprm := ctp_out_perm shuffled input 0 hin hshbound (by omega)
      rw [List.drop_zero, ← hd] at hprm
      have hnslen : (input.filter (fun x => decide (x ≠ CUCKOO_DUMMY_ELEMENT))).length =
          input.length - d := by
        have := length_filter_ne_add_count input CUCKOO_DUMMY_ELEMENT
        omega
      have hnsperm : (input.filter (fun x => decide (x ≠ CUCKOO_DUMMY_ELEMENT))).Perm
          (List.range (input.length - d)) := by
        refine List.Subperm.perm_of_length_le ?_ ?_
        · refine List.subperm_of_subset hnd ?_
          intro x hx
          rw [List.mem_filter] at hx
          refine List.mem_range.mpr (hbnd x hx.1 (by simpa using hx.2))
        · rw [List.length_range, hnslen]
      by_cases h0 : d = 0
      · subst h0
        refine hprm.trans ?_
        simp only [List.take_zero, List.append_nil]
        refine hnsperm.trans ?_
        rw [Nat.sub_zero]
      · have hshp := hshuf1 (by omega)
        have hshl : shuffled.length = d := by
          rw [hshp.length_eq, List.length_range']
        have htk : shuffled.take d = shuffled := by
          rw [← hshl]
          exact List.take_length shuffled
        rw [htk] at hprm
        refine hprm.trans ?_
        refine ((hnsperm.append_right shuffled).trans
          ((hshp.append_left (List.range (input.length - d))))).trans ?_
        rw [List.perm_ext_iff_of_nodup ?_ (List.nodup_range _)]
        · intro a
          rw [List.mem_append, List.mem_range, List.mem_range, List.mem_range'_1]
          omega
        · refine List.Nodup.append (List.nodup_range _) (List.nodup_range' _ _) ?_
          intro a ha hb
          rw [List.mem_range] at ha
          rw [List.mem_range'_1] at hb
          omega
    · intro j hj hne
      have := ctp_out_getElem shuffled input 0 hin hshbound (by omega) j hj
      rw [this, if_neg hne]
    · intro j hj heq
      have := ctp_out_getElem shuffled input 0 hin hshbound (by omega) j hj
      rw [this, if_pos heq, Nat.zero_add]

end CipherCore

namespace CipherCore

/-- Witness for C4 (amended): the table `[0, 1, MAX, MAX]` (two sentinels)
with shuffled unused indices `[3, 2]` maps to a permutation of `[0,4)` that
keeps `0, 1` in place and substitutes `3` then `2` for the sentinels. -/
theorem c4_cuckoo_to_permutation_witness :
    ∃ out, cuckoo_to_permutation_table
        [0, 1, CUCKOO_DUMMY_ELEMENT, CUCKOO_DUMMY_ELEMENT] [3, 2] = .ok out ∧
      out.length = ([0, 1, CUCKOO_DUMMY_ELEMENT, CUCKOO_DUMMY_ELEMENT] : List Nat).length ∧
      out.Perm (List.range ([0, 1, CUCKOO_DUMMY_ELEMENT, CUCKOO_DUMMY_ELEMENT] : List Nat).length) ∧
      (∀ j, j < ([0, 1, CUCKOO_DUMMY_ELEMENT, CUCKOO_DUMMY_ELEMENT] : List Nat).length →
        ([0, 1, CUCKOO_DUMMY_ELEMENT, CUCKOO_DUMMY_ELEMENT] : List Nat)[j]! ≠
          CUCKOO_DUMMY_ELEMENT →
        out[j]! = ([0, 1, CUCKOO_DUMMY_ELEMENT, CUCKOO_DUMMY_ELEMENT] : List Nat)[j]!) ∧
      (∀ j, j < ([0, 1, CUCKOO_DUMMY_ELEMENT, CUCKOO_DUMMY_ELEMENT] : List Nat).length →
        ([0, 1, CUCKOO_DUMMY_ELEMENT, CUCKOO_DUMMY_ELEMENT] : List Nat)[j]! =
          CUCKOO_DUMMY_ELEMENT →
        out[j]! = [3, 2][(([0, 1, CUCKOO_DUMMY_ELEMENT,
          CUCKOO_DUMMY_ELEMENT] : List Nat).take j).count CUCKOO_DUMMY_ELEMENT]!) :=
  (c4_cuckoo_to_permutation [0, 1, CUCKOO_DUMMY_ELEMENT, CUCKOO_DUMMY_ELEMENT] [3, 2] 2
    (by decide) (by norm_num) (by decide)
    (fun h => absurd h (by omega)) (fun _ => by decide)).2 ⟨by decide, by decide⟩

/-- Counterexample to C4 as stated: the table `[2, MAX]` has no duplicate
among its non-sentinel entries, yet the operation panics, because the entry
`2` is not below `table_size − #sentinels = 1` (the claim omits this range
check). -/
theorem c4_cuckoo_to_permutation_counterexample :
    (([2, CUCKOO_DUMMY_ELEMENT] : List Nat).filter
      (fun x => decide (x ≠ CUCKOO_DUMMY_ELEMENT))).Nodup ∧
    cuckoo_to_permutation_table [2, CUCKOO_DUMMY_ELEMENT] [1] = .panicked := by
  constructor
  · decide
  · unfold cuckoo_to_permutation_table
    rw [if_neg (by decide)]
    rw [if_neg (by rw [sorted_dedup_length]; decide)]
    decide

end CipherCore

namespace CipherCore

/-! ### CuckooHash (simple_evaluator.rs, `evaluate_cuckoo`)

One independent input set is embedded (the outer loop over sets runs the same
insertion for each set); the re-insertion bound of 100 is the fuel of the
insertion loop, exactly as in `while reinsert_attempt < 100`. -/

/-- One output bit of the GF(2) matrix-vector hash: the XOR over the columns
of `hash_matrices[msize*h + row*cols + col] & input[col]`. -/
def cuckoo_hash_row_bit (mats : List Nat) (msize h row cols : Nat)
    (s : List Nat) : Nat :=
  (List.range (min cols s.length)).foldl
    (fun acc col => acc ^^^ (mats[msize * h + row * cols + col]! &&& s[col]!)) 0

/-- The hash of a bit string under hash function `h`:
`new_index ^= hash_index_bit << row` over all matrix rows. -/
def cuckoo_hash_index (mats : List Nat) (msize h rows cols : Nat)
    (s : List Nat) : Nat :=
  (List.range rows).foldl
    (fun acc row => acc ^^^ (cuckoo_hash_row_bit mats msize h row cols s <<< row)) 0

/-- The re-insertion loop of `evaluate_cuckoo` for one string: hash with the
current function; insert into an empty slot, else evict the occupant and
retry it with its next hash function.  The fuel is the remaining number of
loop iterations (`100 - reinsert_attempt`); exhausting it is the
`insertion_failed` panic. -/
def cuckoo_insert_loop (mats : List Nat) (msize rows cols nfun : Nat)
    (strings : List (List Nat)) :
    Nat → List Nat → List Nat → Nat → Nat → Option (List Nat × List Nat)
  | 0, _, _, _, _ => none
  | fuel + 1, table, used, cur, h =>
    if table[cuckoo_hash_index mats msize h rows cols strings[cur]!]! =
        CUCKOO_DUMMY_ELEMENT then
      some (table.set (cuckoo_hash_index mats msize h rows cols strings[cur]!) cur,
        used.set (cuckoo_hash_index mats msize h rows cols strings[cur]!) h)
    else
      cuckoo_insert_loop mats msize rows cols nfun strings fuel
        (table.set (cuckoo_hash_index mats msize h rows cols strings[cur]!) cur)
        (used.set (cuckoo_hash_index mats msize h rows cols strings[cur]!) h)
        (table[cuckoo_hash_index mats msize h rows cols strings[cur]!]!)
        ((used[cuckoo_hash_index mats msize h rows cols strings[cur]!]! + 1) % nfun)

/-- The outer loop of `evaluate_cuckoo` over the string indices of one set. -/
def cuckoo_insert_each (mats : List Nat) (msize rows cols nfun : Nat)
    (strings : List (List Nat)) :
    List Nat → List Nat × List Nat → Option (List Nat × List Nat)
  | [], st => some st
  | si :: rest, (table, used) =>
    match cuckoo_insert_loop mats msize rows cols nfun strings 100 table used si 0 with
    | none => none
    | some st2 => cuckoo_insert_each mats msize rows cols nfun strings rest st2

/-- `evaluate_cuckoo` for one input set: start from a table of sentinels and
a `usize::MAX` used-function table, insert every string, panic when any
insertion exhausts its 100 attempts. -/
def evaluate_cuckoo_set (mats : List Nat) (msize rows cols nfun table_size : Nat)
    (strings : List (List Nat)) : EvalOutcome (List Nat) :=
  match cuckoo_insert_each mats msize rows cols nfun strings
      (List.range strings.length)
      (List.replicate table_size CUCKOO_DUMMY_ELEMENT,
        List.replicate table_size (2 ^ 64 - 1)) with
  | none => .panicked
  | some (table, _) => .ok table

theorem getElem!_zero_of_all_zero (mats : List Nat) (hz : ∀ x ∈ mats, x = 0)
    (i : Nat) : mats[i]! = 0 := by
  by_cases h : i < mats.length
  · rw [getElem!_pos mats i h]
    exact hz _ (List.getElem_mem h)
  · rw [getElem!_neg mats i h]
    rfl

theorem cuckoo_hash_zero (mats : List Nat) (hz : ∀ x ∈ mats, x = 0)
    (msize h rows cols : Nat) (s : List Nat) :
    cuckoo_hash_index mats msize h rows cols s = 0 := by
  have hrow : ∀ row, cuckoo_hash_row_bit mats msize h row cols s = 0 := by
    intro row
    rw [cuckoo_hash_row_bit]
    generalize List.range (min cols s.length) = l
    induction l using List.reverseRecOn with
    | nil => rfl
    | append_singleton xs x ih =>
      rw [List.foldl_append, ih, List.foldl_cons, List.foldl_nil,
        getElem!_zero_of_all_zero mats hz]
      simp
  rw [cuckoo_hash_index]
  generalize List.range rows = l
  induction l using List.reverseRecOn with
  | nil => rfl
  | append_singleton xs x ih =>
    rw [List.foldl_append, ih, List.foldl_cons, List.foldl_nil, hrow]
    simp

theorem cuckoo_zero_loop_none (mats : List Nat) (msize rows cols nfun : Nat)
    (strings : List (List Nat)) (hz : ∀ x ∈ mats, x = 0) :
    ∀ (fuel : Nat) (table used : List Nat) (cur h : Nat),
      0 < table.length → cur ≠ CUCKOO_DUMMY_ELEMENT →
      table[0]! ≠ CUCKOO_DUMMY_ELEMENT →
      cuckoo_insert_loop mats msize rows cols nfun strings fuel table used cur h =
        none := by
  intro fuel
  induction fuel with
  | zero => intro table used cur h _ _ _; rfl
  | succ fuel ih =>
    intro table used cur h htl hcur htab
    rw [cuckoo_insert_loop, cuckoo_hash_zero mats hz]
    rw [if_neg htab]
    refine ih _ _ _ _ (by simpa using htl) htab ?_
    rw [getElem!_pos (table.set 0 cur) 0 (by simpa using htl)]
    rw [List.getElem_set_self]
    exact hcur

/-- C5: with all-zero hash matrices every string hashes to slot 0, so from
the second string on, each insertion evicts the occupant of slot 0 over and
over; after 100 re-insertions the bound of the loop is exhausted and the
whole CuckooHash evaluation fails fatally (panic). -/
theorem c5_cuckoo_all_zero_fails (mats : List Nat)
    (msize rows cols nfun table_size : Nat) (strings : List (List Nat))
    (hz : ∀ x ∈ mats, x = 0) (hn : 2 ≤ strings.length)
    (htsz : 1 ≤ table_size) :
    evaluate_cuckoo_set mats msize rows cols nfun table_size strings = .panicked := by
  obtain ⟨k, hk⟩ : ∃ k, strings.length = k + 2 := ⟨strings.length - 2, by omega⟩
  have hrange : List.range strings.length = 0 :: 1 :: List.range' 2 k := by
    rw [hk, List.range_eq_range', show k + 2 = (k + 1) + 1 by omega,
      List.range'_succ, List.range'_succ]
  have hT0 : (List.replicate table_size CUCKOO_DUMMY_ELEMENT)[0]! =
      CUCKOO_DUMMY_ELEMENT := by
    rw [getElem!_pos (List.replicate table_size CUCKOO_DUMMY_ELEMENT) 0
      (by simpa using htsz)]
    exact List.getElem_replicate _ _
  have hfirst : cuckoo_insert_loop mats msize rows cols nfun strings 100
      (List.replicate table_size CUCKOO_DUMMY_ELEMENT)
      (List.replicate table_size (2 ^ 64 - 1)) 0 0 =
      some ((List.replicate table_size CUCKOO_DUMMY_ELEMENT).set 0 0,
        (List.replicate table_size (2 ^ 64 - 1)).set 0 0) := by
    rw [show (100 : Nat) = 99 + 1 from rfl, cuckoo_insert_loop,
      cuckoo_hash_zero mats hz, if_pos hT0]
  have hsecond : cuckoo_insert_loop mats msize rows cols nfun strings 100
      ((List.replicate table_size CUCKOO_DUMMY_ELEMENT).set 0 0)
      ((List.replicate table_size (2 ^ 64 - 1)).set 0 0) 1 0 = none := by
    refine cuckoo_zero_loop_none mats msize rows cols nfun strings hz 100 _ _ 1 0
      (by simpa using htsz) ?_ ?_
    · rw [CUCKOO_DUMMY_ELEMENT]
      omega
    · rw [getElem!_pos ((List.replicate table_size CUCKOO_DUMMY_ELEMENT).set 0 0) 0
        (by simpa using htsz)]
      rw [List.getElem_set_self (by simpa using htsz)]
      rw [CUCKOO_DUMMY_ELEMENT]
      omega
  have hall : cuckoo_insert_each mats msize rows cols nfun strings
      (0 :: 1 :: List.range' 2 k)
      (List.replicate table_size CUCKOO_DUMMY_ELEMENT,
        List.replicate table_size (2 ^ 64 - 1)) = none := by
    simp only [cuckoo_insert_each]
    rw [hfirst]
    simp only [cuckoo_insert_each]
    rw [hsecond]
  unfold evaluate_cuckoo_set
  rw [hrange, hall]

/-- Witness for C5: a single all-zero 1×1 hash matrix and the two one-bit
strings `[1]`, `[0]` make every insertion collide on slot 0; the evaluation
panics. -/
theorem c5_cuckoo_all_zero_fails_witness :
    evaluate_cuckoo_set [0] 1 1 1 1 2 [[1], [0]] = .panicked :=
  c5_cuckoo_all_zero_fails [0] 1 1 1 1 2 [[1], [0]] (by decide) (by decide)
    (by decide)

end CipherCore

namespace CipherCore

/-! ### MixedMultiplyMPC bits × integer sub-protocol
(mpc_arithmetic.rs, `multiply_bits_by_public_integers`)

One tensor entry is embedded: the integer `c` lives modulo `m`, the bit
shares modulo 2 (`BIT` addition is XOR).  The PRF outputs `r_s`, `r_h` are
explicit parameters. -/

/-- Modelled from the spec: the 1-out-of-2 `ObliviousTransfer` custom
operation (mpc/utils.rs, outside the provided sources): the receiver obtains
the message selected by its choice bit `b_r`. -/
def oblivious_transfer (m0 m1 br : Int) : Int := if br = 1 then m1 else m0

/-- Sender message `m_0 = (b_s XOR b_h)·c − r_s − r_h`, built exactly from
the graph nodes: a BIT addition, a mixed multiplication, two modular
subtractions. -/
def mbpi_m0 (m c bs bh rs rh : Int) : Int :=
  sub_u64 m (sub_u64 m (mul_u64 m c (add_u64 2 bs bh)) rs) rh

/-- Sender message `m_1 = c − (b_s XOR b_h)·c − r_s − r_h`. -/
def mbpi_m1 (m c bs bh rs rh : Int) : Int :=
  sub_u64 m (sub_u64 m (sub_u64 m c (mul_u64 m c (add_u64 2 bs bh))) rs) rh

/-- `multiply_bits_by_public_integers` per entry: the output sharing is
`(m_(b_r), r_s, r_h)` placed at the receiver, sender and helper slots. -/
def multiply_bits_by_public_integers (m c bs bh br rs rh : Int) : Int × Int × Int :=
  (oblivious_transfer (mbpi_m0 m c bs bh rs rh) (mbpi_m1 m c bs bh rs rh) br, rs, rh)

theorem emod_modEq (a m : Int) : a % m ≡ a [ZMOD m] :=
  Int.emod_emod_of_dvd a dvd_rfl

theorem mbpi_m0_modEq (m c bs bh rs rh : Int) :
    mbpi_m0 m c bs bh rs rh ≡ (bs + bh) % 2 * c - rs - rh [ZMOD m] := by
  unfold mbpi_m0 sub_u64 mul_u64 add_u64
  calc ((c * ((bs + bh) % 2) % m - rs) % m - rh) % m
      ≡ (c * ((bs + bh) % 2) % m - rs) % m - rh [ZMOD m] := emod_modEq _ m
    _ ≡ (c * ((bs + bh) % 2) % m - rs) - rh [ZMOD m] :=
        Int.ModEq.sub (emod_modEq _ m) (Int.ModEq.refl rh)
    _ ≡ (c * ((bs + bh) % 2) - rs) - rh [ZMOD m] :=
        Int.ModEq.sub (Int.ModEq.sub (emod_modEq _ m) (Int.ModEq.refl rs))
          (Int.ModEq.refl rh)
    _ = (bs + bh) % 2 * c - rs - rh := by ring

theorem mbpi_m1_modEq (m c bs bh rs rh : Int) :
    mbpi_m1 m c bs bh rs rh ≡ c - (bs + bh) % 2 * c - rs - rh [ZMOD m] := by
  unfold mbpi_m1 sub_u64 mul_u64 add_u64
  calc (((c - c * ((bs + bh) % 2) % m) % m - rs) % m - rh) % m
      ≡ ((c - c * ((bs + bh) % 2) % m) % m - rs) % m - rh [ZMOD m] := emod_modEq _ m
    _ ≡ ((c - c * ((bs + bh) % 2) % m) % m - rs) - rh [ZMOD m] :=
        Int.ModEq.sub (emod_modEq _ m) (Int.ModEq.refl rh)
    _ ≡ ((c - c * ((bs + bh) % 2) % m) - rs) - rh [ZMOD m] :=
        Int.ModEq.sub (Int.ModEq.sub (emod_modEq _ m) (Int.ModEq.refl rs))
          (Int.ModEq.refl rh)
    _ ≡ ((c - c * ((bs + bh) % 2)) - rs) - rh [ZMOD m] :=
        Int.ModEq.sub (Int.ModEq.sub (Int.ModEq.sub (Int.ModEq.refl c)
          (emod_modEq _ m)) (Int.ModEq.refl rs)) (Int.ModEq.refl rh)
    _ = c - (bs + bh) % 2 * c - rs - rh := by ring

theorem mbpi_sum_modEq (m c bs bh br rs rh : Int) (hbr : br = 0 ∨ br = 1) :
    (multiply_bits_by_public_integers m c bs bh br rs rh).1 + rs + rh ≡
      (bs + bh + br) % 2 * c [ZMOD m] := by
  have h0 := mbpi_m0_modEq m c bs bh rs rh
  have h1 := mbpi_m1_modEq m c bs bh rs rh
  rcases hbr with rfl | rfl
  · have hsel : (multiply_bits_by_public_integers m c bs bh 0 rs rh).1 =
        mbpi_m0 m c bs bh rs rh := by
      simp [multiply_bits_by_public_integers, oblivious_transfer]
    rw [hsel]
    have hstep : mbpi_m0 m c bs bh rs rh + rs + rh ≡
        (bs + bh) % 2 * c - rs - rh + rs + rh [ZMOD m] :=
      Int.ModEq.add (Int.ModEq.add h0 (Int.ModEq.refl rs)) (Int.ModEq.refl rh)
    refine hstep.trans ?_
    have he : (bs + bh + 0) % 2 = (bs + bh) % 2 := by ring_nf
    rw [he]
    have : (bs + bh) % 2 * c - rs - rh + rs + rh = (bs + bh) % 2 * c := by ring
    rw [this]
  · have hsel : (multiply_bits_by_public_integers m c bs bh 1 rs rh).1 =
        mbpi_m1 m c bs bh rs rh := by
      simp [multiply_bits_by_public_integers, oblivious_transfer]
    rw [hsel]
    have hsum : mbpi_m1 m c bs bh rs rh + rs + rh ≡
        c - (bs + bh) % 2 * c - rs - rh + rs + rh [ZMOD m] :=
      Int.ModEq.add (Int.ModEq.add h1 (Int.ModEq.refl rs)) (Int.ModEq.refl rh)
    refine hsum.trans ?_
    have hxor : (bs + bh + 1) % 2 = 1 - (bs + bh) % 2 := by omega
    rw [hxor]
    have : c - (bs + bh) % 2 * c - rs - rh + rs + rh =
        (1 - (bs + bh) % 2) * c := by ring
    rw [this]

/-- C6: in the bits × integer sub-protocol the sender messages satisfy
`m_0 ≡ (b_s XOR b_h)·c − r_s − r_h` and `m_1 ≡ c − m_0 − 2r_s − 2r_h`
(mod `m`), and for either choice bit `b_r` the output triple
`(m_(b_r), r_s, r_h)` sums modulo `m` to `b·c` with `b = b_s ⊕ b_h ⊕ b_r`
(XOR is addition modulo 2 on bit shares). -/
theorem c6_multiply_bits_by_public_integers (m c bs bh br rs rh : Int)
    (hbr : br = 0 ∨ br = 1) :
    mbpi_m0 m c bs bh rs rh % m = ((bs + bh) % 2 * c - rs - rh) % m ∧
    mbpi_m1 m c bs bh rs rh % m =
      (c - mbpi_m0 m c bs bh rs rh - 2 * rs - 2 * rh) % m ∧
    ((multiply_bits_by_public_integers m c bs bh br rs rh).1 + rs + rh) % m =
      ((bs + bh + br) % 2 * c) % m := by
  have h0 := mbpi_m0_modEq m c bs bh rs rh
  have h1 := mbpi_m1_modEq m c bs bh rs rh
  refine ⟨h0, ?_, ?_⟩
  · have heq : c - ((bs + bh) % 2 * c - rs - rh) - 2 * rs - 2 * rh =
        c - (bs + bh) % 2 * c - rs - rh := by ring
    have h2 : c - mbpi_m0 m c bs bh rs rh - 2 * rs - 2 * rh ≡
        c - (bs + bh) % 2 * c - rs - rh [ZMOD m] := by
      calc c - mbpi_m0 m c bs bh rs rh - 2 * rs - 2 * rh
          ≡ c - ((bs + bh) % 2 * c - rs - rh) - 2 * rs - 2 * rh [ZMOD m] :=
            Int.ModEq.sub (Int.ModEq.sub (Int.ModEq.sub (Int.ModEq.refl c) h0)
              (Int.ModEq.refl _)) (Int.ModEq.refl _)
        _ = c - (bs + bh) % 2 * c - rs - rh := heq
    exact h1.trans h2.symm
  · exact mbpi_sum_modEq m c bs bh br rs rh hbr

/-- Witness for C6 at `m = 2^32`, `c = 5`, `b_s = 1`, `b_h = 0`, `b_r = 1`
(so `b = 0`), `r_s = 7`, `r_h = 9`. -/
theorem c6_multiply_bits_by_public_integers_witness :
    mbpi_m0 (2 ^ 32) 5 1 0 7 9 % 2 ^ 32 = ((1 + 0) % 2 * 5 - 7 - 9) % 2 ^ 32 ∧
    mbpi_m1 (2 ^ 32) 5 1 0 7 9 % 2 ^ 32 =
      (5 - mbpi_m0 (2 ^ 32) 5 1 0 7 9 - 2 * 7 - 2 * 9) % 2 ^ 32 ∧
    ((multiply_bits_by_public_integers (2 ^ 32) 5 1 0 1 7 9).1 + 7 + 9) % 2 ^ 32 =
      ((1 + 0 + 1) % 2 * 5) % 2 ^ 32 :=
  c6_multiply_bits_by_public_integers (2 ^ 32) 5 1 0 1 7 9 (Or.inr rfl)

end CipherCore

namespace CipherCore

/-! ### MPC share arithmetic (mpc_arithmetic.rs) against the reference
evaluator (simple_evaluator.rs)

Flattened tensors are embedded as functions `Nat → Int` from flat index to
entry; every evaluator operation reduces modulo the scalar modulus `m`
exactly where the Rust code does.  PRF outputs are explicit parameters, and
the `nop` nodes carrying `Send` annotations are identities in the simulator,
so they do not appear as separate steps. -/

/-- Entry-wise modular addition (`evaluate_add_subtract_multiply`,
`Operation::Add`). -/
def evalAdd (m : Int) (x y : Nat → Int) : Nat → Int := fun i => (x i + y i) % m

/-- Entry-wise modular subtraction (`Operation::Subtract`). -/
def evalSub (m : Int) (x y : Nat → Int) : Nat → Int := fun i => (x i - y i) % m

/-- Entry-wise modular multiplication (`Operation::Multiply`; AND on BIT is
multiplication modulo 2). -/
def evalMul (m : Int) (x y : Nat → Int) : Nat → Int := fun i => (x i * y i) % m

/-- `evaluate_mixed_multiply`: entry-wise product of the integer entries with
the 0/1 bit entries, modulo the integer modulus. -/
def evalMixedMul (m : Int) (x b : Nat → Int) : Nat → Int := fun i => (x i * b i) % m

/-- The accumulation loop shared by `evaluate_dot`, `evaluate_matmul` and
`dot_vectors_u64`: `acc = add_u64(acc, multiply_u64(a_j, b_j, m), m)`. -/
def dot_fold (m : Int) (a b : Nat → Int) (len : Nat) : Int :=
  (List.range len).foldl (fun acc j => add_u64 m acc (mul_u64 m (a j) (b j))) 0

/-- `evaluate_dot` on two vectors of length `len`: the scalar inner product
(stored at flat index 0). -/
def evalDot (m : Int) (len : Nat) (x y : Nat → Int) : Nat → Int :=
  fun _ => dot_fold m x y len

/-- `evaluate_matmul` on an `r×k` by `k×c` matrix product: flat entry `t`
accumulates `x[(t/c)*k + j] * y[j*c + t%c]` over the middle dimension. -/
def evalMatmul (m : Int) (k c : Nat) (x y : Nat → Int) : Nat → Int :=
  fun t => dot_fold m (fun j => x (t / c * k + j)) (fun j => y (j * c + t % c)) k

/-- `evaluate_transpose_array` of a `p×q` matrix, flattened. -/
def transposeMat (p q : Nat) (x : Nat → Int) : Nat → Int :=
  fun t => x ((t % p) * q + t / p)

/-- The core of `general_gemm`: entry `t` of the result is the
`dot_vectors_u64` of row `t / n1` of `a` and row `t % n1` of `b`, both of
row size `L`. -/
def general_gemm_entry (m : Int) (L n1 : Nat) (a b : Nat → Int) : Nat → Int :=
  fun t => dot_fold m (fun q => a (t / n1 * L + q)) (fun q => b (t % n1 * L + q)) L

/-- `evaluate_gemm` on a `rx×cx` by `ry×cy` input pair with transpose flags:
the first operand is transposed when `ta`, the second when `¬tb`, then
`general_gemm` runs row-by-row. -/
def evalGemm (m : Int) (ta tb : Bool) (rx cx ry cy : Nat) (x y : Nat → Int) :
    Nat → Int :=
  general_gemm_entry m (if ta then rx else cx) (if tb then ry else cy)
    (if ta then transposeMat rx cx x else x)
    (if tb then y else transposeMat ry cy y)

theorem dot_fold_eq_sum (m : Int) (a b : Nat → Int) (len : Nat) :
    dot_fold m a b len = ((List.range len).map (fun j => a j * b j)).sum % m := by
  rw [dot_fold]
  generalize List.range len = l
  induction l using List.reverseRecOn with
  | nil => simp
  | append_singleton xs x ih =>
    rw [List.foldl_append, ih, List.foldl_cons, List.foldl_nil, List.map_append,
      List.sum_append]
    simp only [List.map_cons, List.map_nil, List.sum_cons, List.sum_nil, add_zero]
    rw [add_u64, mul_u64, Int.add_emod, Int.emod_emod_of_dvd _ dvd_rfl,
      Int.emod_emod_of_dvd _ dvd_rfl, ← Int.add_emod]

theorem list_sum_modEq (m : Int) (p q : Nat → Int) (l : List Nat)
    (h : ∀ j ∈ l, p j ≡ q j [ZMOD m]) :
    (l.map p).sum ≡ (l.map q).sum [ZMOD m] := by
  induction l with
  | nil => exact Int.ModEq.refl 0
  | cons x xs ih =>
    simp only [List.map_cons, List.sum_cons]
    exact Int.ModEq.add (h x (by simp)) (ih (fun j hj => h j (by simp [hj])))

theorem list_sum_map_add (p q : Nat → Int) (l : List Nat) :
    (l.map (fun j => p j + q j)).sum = (l.map p).sum + (l.map q).sum := by
  induction l with
  | nil => simp
  | cons x xs ih =>
    simp only [List.map_cons, List.sum_cons, ih]
    ring

theorem dot_fold_congr (m : Int) (a a2 b b2 : Nat → Int) (len : Nat)
    (ha : ∀ j, a j ≡ a2 j [ZMOD m]) (hb : ∀ j, b j ≡ b2 j [ZMOD m]) :
    dot_fold m a b len ≡ dot_fold m a2 b2 len [ZMOD m] := by
  rw [dot_fold_eq_sum, dot_fold_eq_sum]
  refine ((emod_modEq _ m).trans ?_).trans (emod_modEq _ m).symm
  exact list_sum_modEq m _ _ _ (fun j _ => Int.ModEq.mul (ha j) (hb j))

theorem dot_fold_add_left (m : Int) (a a2 b : Nat → Int) (len : Nat) :
    dot_fold m (fun j => a j + a2 j) b len ≡
      dot_fold m a b len + dot_fold m a2 b len [ZMOD m] := by
  rw [dot_fold_eq_sum, dot_fold_eq_sum, dot_fold_eq_sum]
  refine (emod_modEq _ m).trans ?_
  have h1 : ((List.range len).map (fun j => (a j + a2 j) * b j)).sum =
      ((List.range len).map (fun j => a j * b j)).sum +
        ((List.range len).map (fun j => a2 j * b j)).sum := by
    rw [← list_sum_map_add]
    have he : (fun j => (a j + a2 j) * b j) = fun j => a j * b j + a2 j * b j := by
      funext j
      ring
    rw [he]
  rw [h1]
  exact Int.ModEq.add (emod_modEq _ m).symm (emod_modEq _ m).symm

theorem dot_fold_add_right (m : Int) (a b b2 : Nat → Int) (len : Nat) :
    dot_fold m a (fun j => b j + b2 j) len ≡
      dot_fold m a b len + dot_fold m a b2 len [ZMOD m] := by
  rw [dot_fold_eq_sum, dot_fold_eq_sum, dot_fold_eq_sum]
  refine (emod_modEq _ m).trans ?_
  have h1 : ((List.range len).map (fun j => a j * (b j + b2 j))).sum =
      ((List.range len).map (fun j => a j * b j)).sum +
        ((List.range len).map (fun j => a j * b2 j)).sum := by
    rw [← list_sum_map_add]
    have he : (fun j => a j * (b j + b2 j)) = fun j => a j * b j + a j * b2 j := by
      funext j
      ring
    rw [he]
  rw [h1]
  exact Int.ModEq.add (emod_modEq _ m).symm (emod_modEq _ m).symm

end CipherCore

namespace CipherCore

/-- Output shares of `AddMPC` on two private inputs: the parties add their
shares locally (`a0i.add(a1i)` for each `i`). -/
def add_mpc_shares (m : Int) (x0 x1 x2 y0 y1 y2 : Nat → Int) :
    (Nat → Int) × (Nat → Int) × (Nat → Int) :=
  (evalAdd m x0 y0, evalAdd m x1 y1, evalAdd m x2 y2)

/-- Output shares of `SubtractMPC` on two private inputs
(`a0i.subtract(a1i)` for each `i`). -/
def subtract_mpc_shares (m : Int) (x0 x1 x2 y0 y1 y2 : Nat → Int) :
    (Nat → Int) × (Nat → Int) × (Nat → Int) :=
  (evalSub m x0 y0, evalSub m x1 y1, evalSub m x2 y2)

/-- Party `i`'s output share of `private_product` with bilinear product `f`:
`z1 = y_i + y_(i+1)`, `z2 = f(x_i, z1)`, `z3 = f(x_(i+1), y_i)`,
`z = z2 + z3`, and `mul_share = z + zero_share_i`; the `nop` node carrying
the `Send` annotation does not change the value. -/
def pp_share (m : Int) (f : (Nat → Int) → (Nat → Int) → Nat → Int)
    (xa xb ya yb r : Nat → Int) : Nat → Int :=
  evalAdd m (evalAdd m (f xa (evalAdd m ya yb)) (f xb ya)) r

/-- Modelled from the spec: `get_zero_shares` (mpc_compiler, not under
`src/`) returns PRF-generated shares `r_0, r_1, r_2` with
`r_0 + r_1 + r_2 ≡ 0 (mod m)`; the shares appear here as explicit
parameters constrained by that hypothesis. The triple of
`private_product` output shares, party by party. -/
def private_product_shares (m : Int) (f : (Nat → Int) → (Nat → Int) → Nat → Int)
    (x0 x1 x2 y0 y1 y2 r0 r1 r2 : Nat → Int) :
    (Nat → Int) × (Nat → Int) × (Nat → Int) :=
  (pp_share m f x0 x1 y0 y1 r0, pp_share m f x1 x2 y1 y2 r1,
    pp_share m f x2 x0 y2 y0 r2)

/-- Output shares of `MixedMultiplyMPC` on private integers `(a0,a1,a2)` and
private bits `(b0,b1,b2)`: two instances of
`multiply_bits_by_public_integers`, the first with integer owner party 0
(`c = a0`, bits in order `b_s = b0, b_h = b1, b_r = b2`), the second with
integer owner party 1 (`c = a1 + a2` added in the graph, bits
`b_s = b1, b_h = b2, b_r = b0`), then the share-wise sum of the two output
tuples.  Instance 1 places `(r_s, r_h, m_(b_r))` in slots `(0, 1, 2)`;
instance 2 places `(m_(b_r), r_s, r_h)` in slots `(0, 1, 2)`.  The PRF
outputs `rs1, rh1, rs2, rh2` are explicit parameters. -/
def mixed_multiply_mpc_shares (m : Int)
    (a0 a1 a2 b0 b1 b2 rs1 rh1 rs2 rh2 : Nat → Int) :
    (Nat → Int) × (Nat → Int) × (Nat → Int) :=
  let w1 := fun i =>
    (multiply_bits_by_public_integers m (a0 i) (b0 i) (b1 i) (b2 i)
      (rs1 i) (rh1 i)).1
  let w2 := fun i =>
    (multiply_bits_by_public_integers m (evalAdd m a1 a2 i) (b1 i) (b2 i)
      (b0 i) (rs2 i) (rh2 i)).1
  (evalAdd m rs1 w2, evalAdd m rh1 rs2, evalAdd m w1 rh2)

theorem pp_share_modEq (m : Int) (f : (Nat → Int) → (Nat → Int) → Nat → Int)
    (hcongr : ∀ x x2 y y2 : Nat → Int, (∀ i, x i ≡ x2 i [ZMOD m]) →
      (∀ i, y i ≡ y2 i [ZMOD m]) → ∀ t, f x y t ≡ f x2 y2 t [ZMOD m])
    (haddr : ∀ x y y2 : Nat → Int, ∀ t,
      f x (fun i => y i + y2 i) t ≡ f x y t + f x y2 t [ZMOD m])
    (xa xb ya yb r : Nat → Int) (t : Nat) :
    pp_share m f xa xb ya yb r t ≡
      f xa ya t + f xa yb t + f xb ya t + r t [ZMOD m] := by
  show (((f xa (evalAdd m ya yb) t + f xb ya t) % m) + r t) % m ≡ _ [ZMOD m]
  refine (emod_modEq _ m).trans ?_
  have h1 : f xa (evalAdd m ya yb) t ≡ f xa ya t + f xa yb t [ZMOD m] := by
    have hc : ∀ i, evalAdd m ya yb i ≡ (fun i => ya i + yb i) i [ZMOD m] :=
      fun i => emod_modEq _ m
    exact (hcongr xa xa (evalAdd m ya yb) (fun i => ya i + yb i)
      (fun i => Int.ModEq.refl _) hc t).trans (haddr xa ya yb t)
  have h2 : (f xa (evalAdd m ya yb) t + f xb ya t) % m + r t ≡
      (f xa ya t + f xa yb t) + f xb ya t + r t [ZMOD m] :=
    Int.ModEq.add ((emod_modEq _ m).trans
      (Int.ModEq.add h1 (Int.ModEq.refl _))) (Int.ModEq.refl _)
  exact h2

theorem private_product_sum (m : Int)
    (f : (Nat → Int) → (Nat → Int) → Nat → Int)
    (hcongr : ∀ x x2 y y2 : Nat → Int, (∀ i, x i ≡ x2 i [ZMOD m]) →
      (∀ i, y i ≡ y2 i [ZMOD m]) → ∀ t, f x y t ≡ f x2 y2 t [ZMOD m])
    (haddl : ∀ x x2 y : Nat → Int, ∀ t,
      f (fun i => x i + x2 i) y t ≡ f x y t + f x2 y t [ZMOD m])
    (haddr : ∀ x y y2 : Nat → Int, ∀ t,
      f x (fun i => y i + y2 i) t ≡ f x y t + f x y2 t [ZMOD m])
    (x0 x1 x2 y0 y1 y2 r0 r1 r2 : Nat → Int)
    (hr : ∀ i, (r0 i + r1 i + r2 i) % m = 0) (t : Nat) :
    (private_product_shares m f x0 x1 x2 y0 y1 y2 r0 r1 r2).1 t +
      (private_product_shares m f x0 x1 x2 y0 y1 y2 r0 r1 r2).2.1 t +
      (private_product_shares m f x0 x1 x2 y0 y1 y2 r0 r1 r2).2.2 t ≡
      f (fun i => x0 i + x1 i + x2 i) (fun i => y0 i + y1 i + y2 i) t
        [ZMOD m] := by
  have h0 := pp_share_modEq m f hcongr haddr x0 x1 y0 y1 r0 t
  have h1 := pp_share_modEq m f hcongr haddr x1 x2 y1 y2 r1 t
  have h2 := pp_share_modEq m f hcongr haddr x2 x0 y2 y0 r2 t
  have hsum : (private_product_shares m f x0 x1 x2 y0 y1 y2 r0 r1 r2).1 t +
      (private_product_shares m f x0 x1 x2 y0 y1 y2 r0 r1 r2).2.1 t +
      (private_product_shares m f x0 x1 x2 y0 y1 y2 r0 r1 r2).2.2 t ≡
      (f x0 y0 t + f x0 y1 t + f x1 y0 t + r0 t) +
        (f x1 y1 t + f x1 y2 t + f x2 y1 t + r1 t) +
        (f x2 y2 t + f x2 y0 t + f x0 y2 t + r2 t) [ZMOD m] :=
    Int.ModEq.add (Int.ModEq.add h0 h1) h2
  have hr0 : r0 t + r1 t + r2 t ≡ 0 [ZMOD m] := by
    have := hr t
    unfold Int.ModEq
    rw [this, Int.zero_emod]
  have hF : f (fun i => x0 i + x1 i + x2 i) (fun i => y0 i + y1 i + y2 i) t ≡
      f x0 y0 t + f x0 y1 t + f x0 y2 t + f x1 y0 t + f x1 y1 t + f x1 y2 t +
        f x2 y0 t + f x2 y1 t + f x2 y2 t [ZMOD m] := by
    have hx : ∀ i, (fun i => x0 i + x1 i + x2 i) i ≡
        (fun i => x0 i + (x1 i + x2 i)) i [ZMOD m] := by
      intro i
      show x0 i + x1 i + x2 i ≡ x0 i + (x1 i + x2 i) [ZMOD m]
      have : x0 i + x1 i + x2 i = x0 i + (x1 i + x2 i) := by ring
      rw [this]
    have hstep1 : f (fun i => x0 i + x1 i + x2 i)
        (fun i => y0 i + y1 i + y2 i) t ≡
        f x0 (fun i => y0 i + y1 i + y2 i) t +
          (f x1 (fun i => y0 i + y1 i + y2 i) t +
            f x2 (fun i => y0 i + y1 i + y2 i) t) [ZMOD m] := by
      refine ((hcongr _ _ _ _ hx (fun i => Int.ModEq.refl _) t).trans
        (haddl x0 (fun i => x1 i + x2 i) _ t)).trans ?_
      exact Int.ModEq.add (Int.ModEq.refl _) (haddl x1 x2 _ t)
    have hy : ∀ a : Nat → Int, f a (fun i => y0 i + y1 i + y2 i) t ≡
        f a y0 t + f a y1 t + f a y2 t [ZMOD m] := by
      intro a
      have hy2 : ∀ i, (fun i => y0 i + y1 i + y2 i) i ≡
          (fun i => y0 i + (y1 i + y2 i)) i [ZMOD m] := by
        intro i
        show y0 i + y1 i + y2 i ≡ y0 i + (y1 i + y2 i) [ZMOD m]
        have : y0 i + y1 i + y2 i = y0 i + (y1 i + y2 i) := by ring
        rw [this]
      refine ((hcongr _ _ _ _ (fun i => Int.ModEq.refl _) hy2 t).trans
        (haddr a y0 (fun i => y1 i + y2 i) t)).trans ?_
      have := Int.ModEq.add (Int.ModEq.refl (f a y0 t)) (haddr a y1 y2 t)
      refine this.trans ?_
      have he : f a y0 t + (f a y1 t + f a y2 t) =
          f a y0 t + f a y1 t + f a y2 t := by ring
      rw [he]
    refine hstep1.trans ?_
    refine (Int.ModEq.add (hy x0) (Int.ModEq.add (hy x1) (hy x2))).trans ?_
    have he : f x0 y0 t + f x0 y1 t + f x0 y2 t +
        (f x1 y0 t + f x1 y1 t + f x1 y2 t +
          (f x2 y0 t + f x2 y1 t + f x2 y2 t)) =
        f x0 y0 t + f x0 y1 t + f x0 y2 t + f x1 y0 t + f x1 y1 t +
          f x1 y2 t + f x2 y0 t + f x2 y1 t + f x2 y2 t := by ring
    rw [he]
  refine hsum.trans ?_
  have he : (f x0 y0 t + f x0 y1 t + f x1 y0 t + r0 t) +
      (f x1 y1 t + f x1 y2 t + f x2 y1 t + r1 t) +
      (f x2 y2 t + f x2 y0 t + f x0 y2 t + r2 t) =
      (f x0 y0 t + f x0 y1 t + f x0 y2 t + f x1 y0 t + f x1 y1 t +
        f x1 y2 t + f x2 y0 t + f x2 y1 t + f x2 y2 t) +
        (r0 t + r1 t + r2 t) := by ring
  rw [he]
  refine (Int.ModEq.add (Int.ModEq.refl _) hr0).trans ?_
  rw [add_zero]
  exact hF.symm

end CipherCore

namespace CipherCore

theorem evalMul_hcongr (m : Int) : ∀ x x2 y y2 : Nat → Int,
    (∀ i, x i ≡ x2 i [ZMOD m]) → (∀ i, y i ≡ y2 i [ZMOD m]) →
    ∀ t, evalMul m x y t ≡ evalMul m x2 y2 t [ZMOD m] := by
  intro x x2 y y2 hx hy t
  show (x t * y t) % m ≡ (x2 t * y2 t) % m [ZMOD m]
  exact ((emod_modEq _ m).trans (Int.ModEq.mul (hx t) (hy t))).trans
    (emod_modEq _ m).symm

theorem evalMul_haddl (m : Int) : ∀ x x2 y : Nat → Int, ∀ t,
    evalMul m (fun i => x i + x2 i) y t ≡
      evalMul m x y t + evalMul m x2 y t [ZMOD m] := by
  intro x x2 y t
  show ((x t + x2 t) * y t) % m ≡ (x t * y t) % m + (x2 t * y t) % m [ZMOD m]
  refine (emod_modEq _ m).trans ?_
  have he : (x t + x2 t) * y t = x t * y t + x2 t * y t := by ring
  rw [he]
  exact Int.ModEq.add (emod_modEq _ m).symm (emod_modEq _ m).symm

theorem evalMul_haddr (m : Int) : ∀ x y y2 : Nat → Int, ∀ t,
    evalMul m x (fun i => y i + y2 i) t ≡
      evalMul m x y t + evalMul m x y2 t [ZMOD m] := by
  intro x y y2 t
  show (x t * (y t + y2 t)) % m ≡ (x t * y t) % m + (x t * y2 t) % m [ZMOD m]
  refine (emod_modEq _ m).trans ?_
  have he : x t * (y t + y2 t) = x t * y t + x t * y2 t := by ring
  rw [he]
  exact Int.ModEq.add (emod_modEq _ m).symm (emod_modEq _ m).symm

theorem evalDot_hcongr (m : Int) (len : Nat) : ∀ x x2 y y2 : Nat → Int,
    (∀ i, x i ≡ x2 i [ZMOD m]) → (∀ i, y i ≡ y2 i [ZMOD m]) →
    ∀ t, evalDot m len x y t ≡ evalDot m len x2 y2 t [ZMOD m] := by
  intro x x2 y y2 hx hy t
  exact dot_fold_congr m x x2 y y2 len hx hy

theorem evalDot_haddl (m : Int) (len : Nat) : ∀ x x2 y : Nat → Int, ∀ t,
    evalDot m len (fun i => x i + x2 i) y t ≡
      evalDot m len x y t + evalDot m len x2 y t [ZMOD m] := by
  intro x x2 y t
  exact dot_fold_add_left m x x2 y len

theorem evalDot_haddr (m : Int) (len : Nat) : ∀ x y y2 : Nat → Int, ∀ t,
    evalDot m len x (fun i => y i + y2 i) t ≡
      evalDot m len x y t + evalDot m len x y2 t [ZMOD m] := by
  intro x y y2 t
  exact dot_fold_add_right m x y y2 len

theorem evalMatmul_hcongr (m : Int) (k c : Nat) : ∀ x x2 y y2 : Nat → Int,
    (∀ i, x i ≡ x2 i [ZMOD m]) → (∀ i, y i ≡ y2 i [ZMOD m]) →
    ∀ t, evalMatmul m k c x y t ≡ evalMatmul m k c x2 y2 t [ZMOD m] := by
  intro x x2 y y2 hx hy t
  exact dot_fold_congr m _ _ _ _ k (fun j => hx _) (fun j => hy _)

theorem evalMatmul_haddl (m : Int) (k c : Nat) : ∀ x x2 y : Nat → Int, ∀ t,
    evalMatmul m k c (fun i => x i + x2 i) y t ≡
      evalMatmul m k c x y t + evalMatmul m k c x2 y t [ZMOD m] := by
  intro x x2 y t
  exact dot_fold_add_left m (fun j => x (t / c * k + j))
    (fun j => x2 (t / c * k + j)) (fun j => y (j * c + t % c)) k

theorem evalMatmul_haddr (m : Int) (k c : Nat) : ∀ x y y2 : Nat → Int, ∀ t,
    evalMatmul m k c x (fun i => y i + y2 i) t ≡
      evalMatmul m k c x y t + evalMatmul m k c x y2 t [ZMOD m] := by
  intro x y y2 t
  exact dot_fold_add_right m (fun j => x (t / c * k + j))
    (fun j => y (j * c + t % c)) (fun j => y2 (j * c + t % c)) k

theorem gge_congr (m : Int) (L n1 : Nat) (a a2 b b2 : Nat → Int)
    (ha : ∀ i, a i ≡ a2 i [ZMOD m]) (hb : ∀ i, b i ≡ b2 i [ZMOD m]) (t : Nat) :
    general_gemm_entry m L n1 a b t ≡ general_gemm_entry m L n1 a2 b2 t
      [ZMOD m] :=
  dot_fold_congr m _ _ _ _ L (fun _ => ha _) (fun _ => hb _)

theorem gge_addl (m : Int) (L n1 : Nat) (a a2 b : Nat → Int) (t : Nat) :
    general_gemm_entry m L n1 (fun i => a i + a2 i) b t ≡
      general_gemm_entry m L n1 a b t + general_gemm_entry m L n1 a2 b t
        [ZMOD m] :=
  dot_fold_add_left m (fun q => a (t / n1 * L + q))
    (fun q => a2 (t / n1 * L + q)) (fun q => b (t % n1 * L + q)) L

theorem gge_addr (m : Int) (L n1 : Nat) (a b b2 : Nat → Int) (t : Nat) :
    general_gemm_entry m L n1 a (fun i => b i + b2 i) t ≡
      general_gemm_entry m L n1 a b t + general_gemm_entry m L n1 a b2 t
        [ZMOD m] :=
  dot_fold_add_right m (fun q => a (t / n1 * L + q))
    (fun q => b (t % n1 * L + q)) (fun q => b2 (t % n1 * L + q)) L

theorem gemm_lhs_congr (m : Int) (ta : Bool) (rx cx : Nat)
    (x x2 : Nat → Int) (hx : ∀ i, x i ≡ x2 i [ZMOD m]) :
    ∀ i, (if ta then transposeMat rx cx x else x) i ≡
      (if ta then transposeMat rx cx x2 else x2) i [ZMOD m] := by
  intro i
  cases ta
  · rw [if_neg Bool.false_ne_true, if_neg Bool.false_ne_true]
    exact hx i
  · rw [if_pos rfl, if_pos rfl]
    exact hx _

theorem gemm_lhs_add (ta : Bool) (rx cx : Nat) (x x2 : Nat → Int) :
    (if ta then transposeMat rx cx (fun i => x i + x2 i)
      else fun i => x i + x2 i) =
    fun i => (if ta then transposeMat rx cx x else x) i +
      (if ta then transposeMat rx cx x2 else x2) i := by
  cases ta
  · rw [if_neg Bool.false_ne_true, if_neg Bool.false_ne_true,
      if_neg Bool.false_ne_true]
  · rw [if_pos rfl, if_pos rfl, if_pos rfl]
    funext i
    rfl

theorem gemm_rhs_congr (m : Int) (tb : Bool) (ry cy : Nat)
    (y y2 : Nat → Int) (hy : ∀ i, y i ≡ y2 i [ZMOD m]) :
    ∀ i, (if tb then y else transposeMat ry cy y) i ≡
      (if tb then y2 else transposeMat ry cy y2) i [ZMOD m] := by
  intro i
  cases tb
  · rw [if_neg Bool.false_ne_true, if_neg Bool.false_ne_true]
    exact hy _
  · rw [if_pos rfl, if_pos rfl]
    exact hy i

theorem gemm_rhs_add (tb : Bool) (ry cy : Nat) (y y2 : Nat → Int) :
    (if tb then (fun i => y i + y2 i)
      else transposeMat ry cy (fun i => y i + y2 i)) =
    fun i => (if tb then y else transposeMat ry cy y) i +
      (if tb then y2 else transposeMat ry cy y2) i := by
  cases tb
  · rw [if_neg Bool.false_ne_true, if_neg Bool.false_ne_true,
      if_neg Bool.false_ne_true]
    funext i
    rfl
  · rw [if_pos rfl, if_pos rfl, if_pos rfl]

theorem evalGemm_hcongr (m : Int) (ta tb : Bool) (rx cx ry cy : Nat) :
    ∀ x x2 y y2 : Nat → Int,
    (∀ i, x i ≡ x2 i [ZMOD m]) → (∀ i, y i ≡ y2 i [ZMOD m]) →
    ∀ t, evalGemm m ta tb rx cx ry cy x y t ≡
      evalGemm m ta tb rx cx ry cy x2 y2 t [ZMOD m] := by
  intro x x2 y y2 hx hy t
  exact gge_congr m _ _ _ _ _ _ (gemm_lhs_congr m ta rx cx x x2 hx)
    (gemm_rhs_congr m tb ry cy y y2 hy) t

theorem evalGemm_haddl (m : Int) (ta tb : Bool) (rx cx ry cy : Nat) :
    ∀ x x2 y : Nat → Int, ∀ t,
    evalGemm m ta tb rx cx ry cy (fun i => x i + x2 i) y t ≡
      evalGemm m ta tb rx cx ry cy x y t +
        evalGemm m ta tb rx cx ry cy x2 y t [ZMOD m] := by
  intro x x2 y t
  show general_gemm_entry m (if ta then rx else cx) (if tb then ry else cy)
      (if ta then transposeMat rx cx (fun i => x i + x2 i)
        else fun i => x i + x2 i)
      (if tb then y else transposeMat ry cy y) t ≡ _ [ZMOD m]
  rw [gemm_lhs_add ta rx cx x x2]
  exact gge_addl m _ _ _ _ _ t

theorem evalGemm_haddr (m : Int) (ta tb : Bool) (rx cx ry cy : Nat) :
    ∀ x y y2 : Nat → Int, ∀ t,
    evalGemm m ta tb rx cx ry cy x (fun i => y i + y2 i) t ≡
      evalGemm m ta tb rx cx ry cy x y t +
        evalGemm m ta tb rx cx ry cy x y2 t [ZMOD m] := by
  intro x y y2 t
  show general_gemm_entry m (if ta then rx else cx) (if tb then ry else cy)
      (if ta then transposeMat rx cx x else x)
      (if tb then (fun i => y i + y2 i)
        else transposeMat ry cy (fun i => y i + y2 i)) t ≡ _ [ZMOD m]
  rw [gemm_rhs_add tb ry cy y y2]
  exact gge_addr m _ _ _ _ _ t

end CipherCore

namespace CipherCore

theorem mixed_multiply_sum_modEq (m : Int)
    (a0 a1 a2 b0 b1 b2 rs1 rh1 rs2 rh2 : Nat → Int)
    (hb0 : ∀ i, b0 i = 0 ∨ b0 i = 1) (hb2 : ∀ i, b2 i = 0 ∨ b2 i = 1)
    (t : Nat) :
    (mixed_multiply_mpc_shares m a0 a1 a2 b0 b1 b2 rs1 rh1 rs2 rh2).1 t +
      (mixed_multiply_mpc_shares m a0 a1 a2 b0 b1 b2 rs1 rh1 rs2 rh2).2.1 t +
      (mixed_multiply_mpc_shares m a0 a1 a2 b0 b1 b2 rs1 rh1 rs2 rh2).2.2 t ≡
      (b0 t + b1 t + b2 t) % 2 * (a0 t + a1 t + a2 t) [ZMOD m] := by
  have h1 := mbpi_sum_modEq m (a0 t) (b0 t) (b1 t) (b2 t) (rs1 t) (rh1 t)
    (hb2 t)
  have h2 := mbpi_sum_modEq m (evalAdd m a1 a2 t) (b1 t) (b2 t) (b0 t)
    (rs2 t) (rh2 t) (hb0 t)
  have he2 : b1 t + b2 t + b0 t = b0 t + b1 t + b2 t := by ring
  rw [he2] at h2
  have h2' : (multiply_bits_by_public_integers m (evalAdd m a1 a2 t) (b1 t)
        (b2 t) (b0 t) (rs2 t) (rh2 t)).1 + rs2 t + rh2 t ≡
      (b0 t + b1 t + b2 t) % 2 * (a1 t + a2 t) [ZMOD m] :=
    h2.trans (Int.ModEq.mul (Int.ModEq.refl _) (emod_modEq _ m))
  show (rs1 t + (multiply_bits_by_public_integers m (evalAdd m a1 a2 t)
        (b1 t) (b2 t) (b0 t) (rs2 t) (rh2 t)).1) % m +
      (rh1 t + rs2 t) % m +
      ((multiply_bits_by_public_integers m (a0 t) (b0 t) (b1 t) (b2 t)
        (rs1 t) (rh1 t)).1 + rh2 t) % m ≡ _ [ZMOD m]
  refine (Int.ModEq.add (Int.ModEq.add (emod_modEq _ m) (emod_modEq _ m))
    (emod_modEq _ m)).trans ?_
  have he : rs1 t + (multiply_bits_by_public_integers m (evalAdd m a1 a2 t)
        (b1 t) (b2 t) (b0 t) (rs2 t) (rh2 t)).1 +
      (rh1 t + rs2 t) +
      ((multiply_bits_by_public_integers m (a0 t) (b0 t) (b1 t) (b2 t)
        (rs1 t) (rh1 t)).1 + rh2 t) =
      ((multiply_bits_by_public_integers m (a0 t) (b0 t) (b1 t) (b2 t)
        (rs1 t) (rh1 t)).1 + rs1 t + rh1 t) +
      ((multiply_bits_by_public_integers m (evalAdd m a1 a2 t) (b1 t)
        (b2 t) (b0 t) (rs2 t) (rh2 t)).1 + rs2 t + rh2 t) := by ring
  rw [he]
  refine (Int.ModEq.add h1 h2').trans ?_
  have he3 : (b0 t + b1 t + b2 t) % 2 * a0 t +
      (b0 t + b1 t + b2 t) % 2 * (a1 t + a2 t) =
      (b0 t + b1 t + b2 t) % 2 * (a0 t + a1 t + a2 t) := by ring
  rw [he3]

/-- C1: for every supported binary operation (Add, Subtract, Multiply, Dot,
Matmul, Gemm, MixedMultiply) on private inputs shared as 3-tuples with
`x ≡ x0+x1+x2 (mod m)` (bit shares recombine modulo 2), the output shares of
the MPC-compiled custom operation sum modulo `m` to the result of the
reference public evaluator on the plain values; the PRF zero shares and OT
randomness are explicit parameters constrained exactly as the PRF guarantees
(zero shares sum to 0 modulo `m`). -/
theorem c1_mpc_bilinear_refinement (m : Int) :
    (∀ x0 x1 x2 y0 y1 y2 x y : Nat → Int,
      (∀ i, x0 i + x1 i + x2 i ≡ x i [ZMOD m]) →
      (∀ i, y0 i + y1 i + y2 i ≡ y i [ZMOD m]) →
      ∀ t, (add_mpc_shares m x0 x1 x2 y0 y1 y2).1 t +
          (add_mpc_shares m x0 x1 x2 y0 y1 y2).2.1 t +
          (add_mpc_shares m x0 x1 x2 y0 y1 y2).2.2 t ≡
        evalAdd m x y t [ZMOD m]) ∧
    (∀ x0 x1 x2 y0 y1 y2 x y : Nat → Int,
      (∀ i, x0 i + x1 i + x2 i ≡ x i [ZMOD m]) →
      (∀ i, y0 i + y1 i + y2 i ≡ y i [ZMOD m]) →
      ∀ t, (subtract_mpc_shares m x0 x1 x2 y0 y1 y2).1 t +
          (subtract_mpc_shares m x0 x1 x2 y0 y1 y2).2.1 t +
          (subtract_mpc_shares m x0 x1 x2 y0 y1 y2).2.2 t ≡
        evalSub m x y t [ZMOD m]) ∧
    (∀ x0 x1 x2 y0 y1 y2 r0 r1 r2 x y : Nat → Int,
      (∀ i, x0 i + x1 i + x2 i ≡ x i [ZMOD m]) →
      (∀ i, y0 i + y1 i + y2 i ≡ y i [ZMOD m]) →
      (∀ i, (r0 i + r1 i + r2 i) % m = 0) →
      ∀ t, (private_product_shares m (evalMul m) x0 x1 x2 y0 y1 y2
            r0 r1 r2).1 t +
          (private_product_shares m (evalMul m) x0 x1 x2 y0 y1 y2
            r0 r1 r2).2.1 t +
          (private_product_shares m (evalMul m) x0 x1 x2 y0 y1 y2
            r0 r1 r2).2.2 t ≡
        evalMul m x y t [ZMOD m]) ∧
    (∀ len : Nat, ∀ x0 x1 x2 y0 y1 y2 r0 r1 r2 x y : Nat → Int,
      (∀ i, x0 i + x1 i + x2 i ≡ x i [ZMOD m]) →
      (∀ i, y0 i + y1 i + y2 i ≡ y i [ZMOD m]) →
      (∀ i, (r0 i + r1 i + r2 i) % m = 0) →
      ∀ t, (private_product_shares m (evalDot m len) x0 x1 x2 y0 y1 y2
            r0 r1 r2).1 t +
          (private_product_shares m (evalDot m len) x0 x1 x2 y0 y1 y2
            r0 r1 r2).2.1 t +
          (private_product_shares m (evalDot m len) x0 x1 x2 y0 y1 y2
            r0 r1 r2).2.2 t ≡
        evalDot m len x y t [ZMOD m]) ∧
    (∀ k c : Nat, ∀ x0 x1 x2 y0 y1 y2 r0 r1 r2 x y : Nat → Int,
      (∀ i, x0 i + x1 i + x2 i ≡ x i [ZMOD m]) →
      (∀ i, y0 i + y1 i + y2 i ≡ y i [ZMOD m]) →
      (∀ i, (r0 i + r1 i + r2 i) % m = 0) →
      ∀ t, (private_product_shares m (evalMatmul m k c) x0 x1 x2 y0 y1 y2
            r0 r1 r2).1 t +
          (private_product_shares m (evalMatmul m k c) x0 x1 x2 y0 y1 y2
            r0 r1 r2).2.1 t +
          (private_product_shares m (evalMatmul m k c) x0 x1 x2 y0 y1 y2
            r0 r1 r2).2.2 t ≡
        evalMatmul m k c x y t [ZMOD m]) ∧
    (∀ ta tb : Bool, ∀ rx cx ry cy : Nat,
      ∀ x0 x1 x2 y0 y1 y2 r0 r1 r2 x y : Nat → Int,
      (∀ i, x0 i + x1 i + x2 i ≡ x i [ZMOD m]) →
      (∀ i, y0 i + y1 i + y2 i ≡ y i [ZMOD m]) →
      (∀ i, (r0 i + r1 i + r2 i) % m = 0) →
      ∀ t, (private_product_shares m (evalGemm m ta tb rx cx ry cy)
            x0 x1 x2 y0 y1 y2 r0 r1 r2).1 t +
          (private_product_shares m (evalGemm m ta tb rx cx ry cy)
            x0 x1 x2 y0 y1 y2 r0 r1 r2).2.1 t +
          (private_product_shares m (evalGemm m ta tb rx cx ry cy)
            x0 x1 x2 y0 y1 y2 r0 r1 r2).2.2 t ≡
        evalGemm m ta tb rx cx ry cy x y t [ZMOD m]) ∧
    (∀ a0 a1 a2 b0 b1 b2 rs1 rh1 rs2 rh2 x b : Nat → Int,
      (∀ i, a0 i + a1 i + a2 i ≡ x i [ZMOD m]) →
      (∀ i, b0 i + b1 i + b2 i ≡ b i [ZMOD 2]) →
      (∀ i, b i = 0 ∨ b i = 1) →
      (∀ i, b0 i = 0 ∨ b0 i = 1) →
      (∀ i, b2 i = 0 ∨ b2 i = 1) →
      ∀ t, (mixed_multiply_mpc_shares m a0 a1 a2 b0 b1 b2 rs1 rh1
            rs2 rh2).1 t +
          (mixed_multiply_mpc_shares m a0 a1 a2 b0 b1 b2 rs1 rh1
            rs2 rh2).2.1 t +
          (mixed_multiply_mpc_shares m a0 a1 a2 b0 b1 b2 rs1 rh1
            rs2 rh2).2.2 t ≡
        evalMixedMul m x b t [ZMOD m]) := by
  refine ⟨?_, ?_, ?_, ?_, ?_, ?_, ?_⟩
  · intro x0 x1 x2 y0 y1 y2 x y hx hy t
    show (x0 t + y0 t) % m + (x1 t + y1 t) % m + (x2 t + y2 t) % m ≡
      (x t + y t) % m [ZMOD m]
    refine ((Int.ModEq.add (Int.ModEq.add (emod_modEq _ m) (emod_modEq _ m))
      (emod_modEq _ m)).trans ?_).trans (emod_modEq _ m).symm
    have he : x0 t + y0 t + (x1 t + y1 t) + (x2 t + y2 t) =
        (x0 t + x1 t + x2 t) + (y0 t + y1 t + y2 t) := by ring
    rw [he]
    exact Int.ModEq.add (hx t) (hy t)
  · intro x0 x1 x2 y0 y1 y2 x y hx hy t
    show (x0 t - y0 t) % m + (x1 t - y1 t) % m + (x2 t - y2 t) % m ≡
      (x t - y t) % m [ZMOD m]
    refine ((Int.ModEq.add (Int.ModEq.add (emod_modEq _ m) (emod_modEq _ m))
      (emod_modEq _ m)).trans ?_).trans (emod_modEq _ m).symm
    have he : x0 t - y0 t + (x1 t - y1 t) + (x2 t - y2 t) =
        (x0 t + x1 t + x2 t) - (y0 t + y1 t + y2 t) := by ring
    rw [he]
    exact Int.ModEq.sub (hx t) (hy t)
  · intro x0 x1 x2 y0 y1 y2 r0 r1 r2 x y hx hy hr t
    refine (private_product_sum m (evalMul m) (evalMul_hcongr m)
      (evalMul_haddl m) (evalMul_haddr m) x0 x1 x2 y0 y1 y2 r0 r1 r2
      hr t).trans ?_
    exact evalMul_hcongr m _ x _ y hx hy t
  · intro len x0 x1 x2 y0 y1 y2 r0 r1 r2 x y hx hy hr t
    refine (private_product_sum m (evalDot m len) (evalDot_hcongr m len)
      (evalDot_haddl m len) (evalDot_haddr m len) x0 x1 x2 y0 y1 y2 r0 r1 r2
      hr t).trans ?_
    exact evalDot_hcongr m len _ x _ y hx hy t
  · intro k c x0 x1 x2 y0 y1 y2 r0 r1 r2 x y hx hy hr t
    refine (private_product_sum m (evalMatmul m k c) (evalMatmul_hcongr m k c)
      (evalMatmul_haddl m k c) (evalMatmul_haddr m k c) x0 x1 x2 y0 y1 y2
      r0 r1 r2 hr t).trans ?_
    exact evalMatmul_hcongr m k c _ x _ y hx hy t
  · intro ta tb rx cx ry cy x0 x1 x2 y0 y1 y2 r0 r1 r2 x y hx hy hr t
    refine (private_product_sum m (evalGemm m ta tb rx cx ry cy)
      (evalGemm_hcongr m ta tb rx cx ry cy)
      (evalGemm_haddl m ta tb rx cx ry cy)
      (evalGemm_haddr m ta tb rx cx ry cy) x0 x1 x2 y0 y1 y2 r0 r1 r2
      hr t).trans ?_
    exact evalGemm_hcongr m ta tb rx cx ry cy _ x _ y hx hy t
  · intro a0 a1 a2 b0 b1 b2 rs1 rh1 rs2 rh2 x b hx hbm hbb hb0 hb2 t
    refine (mixed_multiply_sum_modEq m a0 a1 a2 b0 b1 b2 rs1 rh1 rs2 rh2
      hb0 hb2 t).trans ?_
    have hbeta : (b0 t + b1 t + b2 t) % 2 = b t := by
      have h1 : (b0 t + b1 t + b2 t) % 2 = b t % 2 := hbm t
      rcases hbb t with h | h <;> rw [h1, h] <;> decide
    rw [hbeta]
    have hstep : b t * (a0 t + a1 t + a2 t) ≡ b t * x t [ZMOD m] :=
      Int.ModEq.mul (Int.ModEq.refl _) (hx t)
    refine hstep.trans ?_
    show b t * x t ≡ (x t * b t) % m [ZMOD m]
    have he : b t * x t = x t * b t := by ring
    rw [he]
    exact (emod_modEq _ m).symm

end CipherCore

namespace CipherCore

/-- Witness for C1 at `m = 16`, constant shares `x = 1+2+3 = 6`,
`y = 1+1+2 = 4`, zero shares `5+6+5 = 16 ≡ 0`, and bit shares
`b = 1 ⊕ 0 ⊕ 0 = 1`; `Dot` at length 2, `Matmul` at `k = c = 1`, `Gemm`
with `ta = true`, `tb = false` on `1×1` matrices. -/
theorem c1_mpc_bilinear_refinement_witness :
    ((add_mpc_shares 16 (fun _ => 1) (fun _ => 2) (fun _ => 3)
        (fun _ => 1) (fun _ => 1) (fun _ => 2)).1 0 +
      (add_mpc_shares 16 (fun _ => 1) (fun _ => 2) (fun _ => 3)
        (fun _ => 1) (fun _ => 1) (fun _ => 2)).2.1 0 +
      (add_mpc_shares 16 (fun _ => 1) (fun _ => 2) (fun _ => 3)
        (fun _ => 1) (fun _ => 1) (fun _ => 2)).2.2 0 ≡
      evalAdd 16 (fun _ => 6) (fun _ => 4) 0 [ZMOD 16]) ∧
    ((subtract_mpc_shares 16 (fun _ => 1) (fun _ => 2) (fun _ => 3)
        (fun _ => 1) (fun _ => 1) (fun _ => 2)).1 0 +
      (subtract_mpc_shares 16 (fun _ => 1) (fun _ => 2) (fun _ => 3)
        (fun _ => 1) (fun _ => 1) (fun _ => 2)).2.1 0 +
      (subtract_mpc_shares 16 (fun _ => 1) (fun _ => 2) (fun _ => 3)
        (fun _ => 1) (fun _ => 1) (fun _ => 2)).2.2 0 ≡
      evalSub 16 (fun _ => 6) (fun _ => 4) 0 [ZMOD 16]) ∧
    ((private_product_shares 16 (evalMul 16) (fun _ => 1) (fun _ => 2)
        (fun _ => 3) (fun _ => 1) (fun _ => 1) (fun _ => 2)
        (fun _ => 5) (fun _ => 6) (fun _ => 5)).1 0 +
      (private_product_shares 16 (evalMul 16) (fun _ => 1) (fun _ => 2)
        (fun _ => 3) (fun _ => 1) (fun _ => 1) (fun _ => 2)
        (fun _ => 5) (fun _ => 6) (fun _ => 5)).2.1 0 +
      (private_product_shares 16 (evalMul 16) (fun _ => 1) (fun _ => 2)
        (fun _ => 3) (fun _ => 1) (fun _ => 1) (fun _ => 2)
        (fun _ => 5) (fun _ => 6) (fun _ => 5)).2.2 0 ≡
      evalMul 16 (fun _ => 6) (fun _ => 4) 0 [ZMOD 16]) ∧
    ((private_product_shares 16 (evalDot 16 2) (fun _ => 1) (fun _ => 2)
        (fun _ => 3) (fun _ => 1) (fun _ => 1) (fun _ => 2)
        (fun _ => 5) (fun _ => 6) (fun _ => 5)).1 0 +
      (private_product_shares 16 (evalDot 16 2) (fun _ => 1) (fun _ => 2)
        (fun _ => 3) (fun _ => 1) (fun _ => 1) (fun _ => 2)
        (fun _ => 5) (fun _ => 6) (fun _ => 5)).2.1 0 +
      (private_product_shares 16 (evalDot 16 2) (fun _ => 1) (fun _ => 2)
        (fun _ => 3) (fun _ => 1) (fun _ => 1) (fun _ => 2)
        (fun _ => 5) (fun _ => 6) (fun _ => 5)).2.2 0 ≡
      evalDot 16 2 (fun _ => 6) (fun _ => 4) 0 [ZMOD 16]) ∧
    ((private_product_shares 16 (evalMatmul 16 1 1) (fun _ => 1) (fun _ => 2)
        (fun _ => 3) (fun _ => 1) (fun _ => 1) (fun _ => 2)
        (fun _ => 5) (fun _ => 6) (fun _ => 5)).1 0 +
      (private_product_shares 16 (evalMatmul 16 1 1) (fun _ => 1) (fun _ => 2)
        (fun _ => 3) (fun _ => 1) (fun _ => 1) (fun _ => 2)
        (fun _ => 5) (fun _ => 6) (fun _ => 5)).2.1 0 +
      (private_product_shares 16 (evalMatmul 16 1 1) (fun _ => 1) (fun _ => 2)
        (fun _ => 3) (fun _ => 1) (fun _ => 1) (fun _ => 2)
        (fun _ => 5) (fun _ => 6) (fun _ => 5)).2.2 0 ≡
      evalMatmul 16 1 1 (fun _ => 6) (fun _ => 4) 0 [ZMOD 16]) ∧
    ((private_product_shares 16 (evalGemm 16 true false 1 1 1 1)
        (fun _ => 1) (fun _ => 2) (fun _ => 3) (fun _ => 1) (fun _ => 1)
        (fun _ => 2) (fun _ => 5) (fun _ => 6) (fun _ => 5)).1 0 +
      (private_product_shares 16 (evalGemm 16 true false 1 1 1 1)
        (fun _ => 1) (fun _ => 2) (fun _ => 3) (fun _ => 1) (fun _ => 1)
        (fun _ => 2) (fun _ => 5) (fun _ => 6) (fun _ => 5)).2.1 0 +
      (private_product_shares 16 (evalGemm 16 true false 1 1 1 1)
        (fun _ => 1) (fun _ => 2) (fun _ => 3) (fun _ => 1) (fun _ => 1)
        (fun _ => 2) (fun _ => 5) (fun _ => 6) (fun _ => 5)).2.2 0 ≡
      evalGemm 16 true false 1 1 1 1 (fun _ => 6) (fun _ => 4) 0
        [ZMOD 16]) ∧
    ((mixed_multiply_mpc_shares 16 (fun _ => 1) (fun _ => 2) (fun _ => 3)
        (fun _ => 1) (fun _ => 0) (fun _ => 0) (fun _ => 2) (fun _ => 3)
        (fun _ => 4) (fun _ => 5)).1 0 +
      (mixed_multiply_mpc_shares 16 (fun _ => 1) (fun _ => 2) (fun _ => 3)
        (fun _ => 1) (fun _ => 0) (fun _ => 0) (fun _ => 2) (fun _ => 3)
        (fun _ => 4) (fun _ => 5)).2.1 0 +
      (mixed_multiply_mpc_shares 16 (fun _ => 1) (fun _ => 2) (fun _ => 3)
        (fun _ => 1) (fun _ => 0) (fun _ => 0) (fun _ => 2) (fun _ => 3)
        (fun _ => 4) (fun _ => 5)).2.2 0 ≡
      evalMixedMul 16 (fun _ => 6) (fun _ => 1) 0 [ZMOD 16]) :=
  ⟨(c1_mpc_bilinear_refinement 16).1 (fun _ => 1) (fun _ => 2) (fun _ => 3)
      (fun _ => 1) (fun _ => 1) (fun _ => 2) (fun _ => 6) (fun _ => 4)
      (fun _ => show (1:Int) + 2 + 3 ≡ 6 [ZMOD 16] by decide) (fun _ => show (1:Int) + 1 + 2 ≡ 4 [ZMOD 16] by decide) 0,
    (c1_mpc_bilinear_refinement 16).2.1 (fun _ => 1) (fun _ => 2)
      (fun _ => 3) (fun _ => 1) (fun _ => 1) (fun _ => 2) (fun _ => 6)
      (fun _ => 4) (fun _ => show (1:Int) + 2 + 3 ≡ 6 [ZMOD 16] by decide) (fun _ => show (1:Int) + 1 + 2 ≡ 4 [ZMOD 16] by decide) 0,
    (c1_mpc_bilinear_refinement 16).2.2.1 (fun _ => 1) (fun _ => 2)
      (fun _ => 3) (fun _ => 1) (fun _ => 1) (fun _ => 2) (fun _ => 5)
      (fun _ => 6) (fun _ => 5) (fun _ => 6) (fun _ => 4)
      (fun _ => show (1:Int) + 2 + 3 ≡ 6 [ZMOD 16] by decide) (fun _ => show (1:Int) + 1 + 2 ≡ 4 [ZMOD 16] by decide) (fun _ => show ((5:Int) + 6 + 5) % 16 = 0 by decide) 0,
    (c1_mpc_bilinear_refinement 16).2.2.2.1 2 (fun _ => 1) (fun _ => 2)
      (fun _ => 3) (fun _ => 1) (fun _ => 1) (fun _ => 2) (fun _ => 5)
      (fun _ => 6) (fun _ => 5) (fun _ => 6) (fun _ => 4)
      (fun _ => show (1:Int) + 2 + 3 ≡ 6 [ZMOD 16] by decide) (fun _ => show (1:Int) + 1 + 2 ≡ 4 [ZMOD 16] by decide) (fun _ => show ((5:Int) + 6 + 5) % 16 = 0 by decide) 0,
    (c1_mpc_bilinear_refinement 16).2.2.2.2.1 1 1 (fun _ => 1) (fun _ => 2)
      (fun _ => 3) (fun _ => 1) (fun _ => 1) (fun _ => 2) (fun _ => 5)
      (fun _ => 6) (fun _ => 5) (fun _ => 6) (fun _ => 4)
      (fun _ => show (1:Int) + 2 + 3 ≡ 6 [ZMOD 16] by decide) (fun _ => show (1:Int) + 1 + 2 ≡ 4 [ZMOD 16] by decide) (fun _ => show ((5:Int) + 6 + 5) % 16 = 0 by decide) 0,
    (c1_mpc_bilinear_refinement 16).2.2.2.2.2.1 true false 1 1 1 1
      (fun _ => 1) (fun _ => 2) (fun _ => 3) (fun _ => 1) (fun _ => 1)
      (fun _ => 2) (fun _ => 5) (fun _ => 6) (fun _ => 5) (fun _ => 6)
      (fun _ => 4) (fun _ => show (1:Int) + 2 + 3 ≡ 6 [ZMOD 16] by decide) (fun _ => show (1:Int) + 1 + 2 ≡ 4 [ZMOD 16] by decide)
      (fun _ => show ((5:Int) + 6 + 5) % 16 = 0 by decide) 0,
    (c1_mpc_bilinear_refinement 16).2.2.2.2.2.2 (fun _ => 1) (fun _ => 2)
      (fun _ => 3) (fun _ => 1) (fun _ => 0) (fun _ => 0) (fun _ => 2)
      (fun _ => 3) (fun _ => 4) (fun _ => 5) (fun _ => 6) (fun _ => 1)
      (fun _ => show (1:Int) + 2 + 3 ≡ 6 [ZMOD 16] by decide) (fun _ => show (1:Int) + 0 + 0 ≡ 1 [ZMOD 2] by decide) (fun _ => show (1:Int) = 0 ∨ (1:Int) = 1 by decide)
      (fun _ => show (1:Int) = 0 ∨ (1:Int) = 1 by decide) (fun _ => show (0:Int) = 0 ∨ (0:Int) = 1 by decide) 0⟩

end CipherCore

namespace CipherCore

/-! ### PSI sub-protocols (mpc_psi.rs): Permutation, Duplication, Switching

Columns are embedded as functions `Nat → Int` from row index to entry, with
the column's scalar modulus `m` applied exactly where the graph applies it
(`BIT` columns use `m = 2`).  PRF outputs (masks, `W` tables, `phi`) and the
in-graph random permutation are explicit parameters; `nop` nodes carrying
`Send` annotations are identities in the simulator. -/

/-- Modelled from the spec: `select_node(flag, a, b)` (mpc/utils.rs, not
under `src/`) multiplexes two columns entry-wise by a bit column: the entry
of `a` where the bit is 1 and of `b` where it is 0. -/
def select_node (bit a b : Int) : Int := if bit = 1 then a else b

theorem select_node_zero (a b : Int) : select_node 0 a b = b := by
  rw [select_node, if_neg]
  norm_num

theorem select_node_one (a b : Int) : select_node 1 a b = a := if_pos rfl

/-- `PermutationMPC::instantiate` per column: Programmer draws a random
permutation `σ` (sent to Sender) and `σinv ∘ perm` (sent to Receiver, with
`σinv` from `InversePermutation`).  Sender sends `x_S[σ[i]] − s[i]` to
Receiver; Receiver's output is that column gathered by `σinv ∘ perm` minus
its mask `t`; Programmer's output is `s` gathered by `σinv ∘ perm`, plus
`t`, plus its own share gathered by `perm`. -/
def permutation_mpc_shares (m : Int) (xP xS s t : Nat → Int)
    (perm σ σinv : Nat → Nat) : (Nat → Int) × (Nat → Int) :=
  (fun i => ((s (σinv (perm i)) + t i) % m + xP (perm i)) % m,
   fun i => ((xS (σ (σinv (perm i))) - s (σinv (perm i))) % m - t i) % m)

theorem permutation_mpc_sum (m : Int) (xP xS s t : Nat → Int)
    (perm σ σinv : Nat → Nat) (hσ : ∀ i, σ (σinv (perm i)) = perm i)
    (i : Nat) :
    (permutation_mpc_shares m xP xS s t perm σ σinv).1 i +
      (permutation_mpc_shares m xP xS s t perm σ σinv).2 i ≡
      xP (perm i) + xS (perm i) [ZMOD m] := by
  show ((s (σinv (perm i)) + t i) % m + xP (perm i)) % m +
      (((xS (σ (σinv (perm i))) - s (σinv (perm i))) % m) - t i) % m ≡
      xP (perm i) + xS (perm i) [ZMOD m]
  rw [hσ i]
  refine (Int.ModEq.add ((emod_modEq _ m).trans (Int.ModEq.add
    (emod_modEq _ m) (Int.ModEq.refl _))) ((emod_modEq _ m).trans
    (Int.ModEq.sub (emod_modEq _ m) (Int.ModEq.refl _)))).trans ?_
  have he : s (σinv (perm i)) + t i + xP (perm i) +
      (xS (perm i) - s (σinv (perm i)) - t i) =
      xP (perm i) + xS (perm i) := by ring
  rw [he]

/-- Receiver's column in `DuplicationMPC`: `B_r[0] = x_S[0] − B_p[0]` (sent
by Sender), `B_r[i]` PRF-random for `i ≥ 1`. -/
def dup_br (m : Int) (xS : Nat → Int) (b0p : Int) (bi_r : Nat → Int) :
    Nat → Int :=
  fun i => if i = 0 then (xS 0 - b0p) % m else bi_r i

/-- Sender's message `M0[i] = x_S[i] − B_r[i] − W_(phi[i])[i]`. -/
def dup_m0 (m : Int) (xS b_r w0 w1 phi : Nat → Int) : Nat → Int :=
  fun i => ((xS i - b_r i) % m - select_node (phi i) (w1 i) (w0 i)) % m

/-- Sender's message `M1[i] = B_r[i−1] − B_r[i] − W_(1−phi[i])[i]`. -/
def dup_m1 (m : Int) (b_r w0 w1 phi : Nat → Int) : Nat → Int :=
  fun i => ((b_r (i - 1) - b_r i) % m -
    select_node (phi i) (w0 i) (w1 i)) % m

/-- Programmer's masked scan input
`M_(bits[i])[i] + W_(rho[i])[i]` with `rho = bits XOR phi`. -/
def dup_mpw (m : Int) (bits m0 m1 w0 w1 phi : Nat → Int) : Nat → Int :=
  fun i => (select_node (bits i) (m1 i) (m0 i) +
    select_node ((bits i + phi i) % 2) (w1 i) (w0 i)) % m

/-- The `SegmentCumSum` recurrence computing `B_p`:
`B_p[0] = B_p[0]` and
`B_p[i] = m_plus_w[i] + bits[i]·B_p[i−1]` (mod `m`). -/
def dup_b_p (m : Int) (b0p : Int) (bits mpw : Nat → Int) : Nat → Int
  | 0 => b0p
  | i + 1 => if bits (i + 1) = 0 then mpw (i + 1)
      else add_u64 m (mpw (i + 1)) (dup_b_p m b0p bits mpw i)

theorem dup_b_p_succ (m : Int) (b0p : Int) (bits mpw : Nat → Int) (i : Nat) :
    dup_b_p m b0p bits mpw (i + 1) =
      if bits (i + 1) = 0 then mpw (i + 1)
      else add_u64 m (mpw (i + 1)) (dup_b_p m b0p bits mpw i) := rfl

/-- `DuplicationMPC::instantiate` per column, general branch
(`num_entries ≥ 2`): Programmer's output is `B_p − r` plus its own share
gathered by the duplication indices; Receiver's output is `B_r + r`. -/
def duplication_mpc_shares (m : Int) (xP xS : Nat → Int)
    (dup_idx : Nat → Nat) (bits : Nat → Int) (b0p : Int)
    (bi_r w0 w1 phi r : Nat → Int) : (Nat → Int) × (Nat → Int) :=
  let b_r := dup_br m xS b0p bi_r
  let mpw := dup_mpw m bits (dup_m0 m xS b_r w0 w1 phi)
    (dup_m1 m b_r w0 w1 phi) w0 w1 phi
  let b_p := dup_b_p m b0p bits mpw
  (fun i => ((b_p i - r i) % m + xP (dup_idx i)) % m,
   fun i => (b_r i + r i) % m)

/-- `DuplicationMPC::instantiate`, the `num_entries = 1` reshare branch:
Sender sends `x_S − B_p` to Receiver; Programmer outputs
`B_p − r + x_P`, Receiver outputs `(x_S − B_p) + r`. -/
def duplication_mpc_shares_single (m xP0 xS0 bp r : Int) : Int × Int :=
  (((bp - r) % m + xP0) % m, ((xS0 - bp) % m + r) % m)

theorem duplication_single_sum (m xP0 xS0 bp r : Int) :
    (duplication_mpc_shares_single m xP0 xS0 bp r).1 +
      (duplication_mpc_shares_single m xP0 xS0 bp r).2 ≡
      xP0 + xS0 [ZMOD m] := by
  show ((bp - r) % m + xP0) % m + ((xS0 - bp) % m + r) % m ≡
      xP0 + xS0 [ZMOD m]
  refine (Int.ModEq.add ((emod_modEq _ m).trans (Int.ModEq.add
    (emod_modEq _ m) (Int.ModEq.refl _))) ((emod_modEq _ m).trans
    (Int.ModEq.add (emod_modEq _ m) (Int.ModEq.refl _)))).trans ?_
  have he : bp - r + xP0 + (xS0 - bp + r) = xP0 + xS0 := by ring
  rw [he]

theorem dup_invariant (m : Int) (xS : Nat → Int) (dup_idx : Nat → Nat)
    (bits : Nat → Int) (b0p : Int) (bi_r w0 w1 phi : Nat → Int) (N : Nat)
    (hphi : ∀ j, j < N → phi j = 0 ∨ phi j = 1)
    (hbits : ∀ j, j < N → bits j = 0 ∨ bits j = 1)
    (hidx0 : dup_idx 0 = 0)
    (hrec0 : ∀ j, j + 1 < N → bits (j + 1) = 0 → dup_idx (j + 1) = j + 1)
    (hrec1 : ∀ j, j + 1 < N → bits (j + 1) = 1 →
      dup_idx (j + 1) = dup_idx j) :
    ∀ i, i < N →
      dup_b_p m b0p bits (dup_mpw m bits
          (dup_m0 m xS (dup_br m xS b0p bi_r) w0 w1 phi)
          (dup_m1 m (dup_br m xS b0p bi_r) w0 w1 phi) w0 w1 phi) i +
        dup_br m xS b0p bi_r i ≡ xS (dup_idx i) [ZMOD m] := by
  set br := dup_br m xS b0p bi_r with br_def
  set mpw := dup_mpw m bits (dup_m0 m xS br w0 w1 phi)
    (dup_m1 m br w0 w1 phi) w0 w1 phi with mpw_def
  set bp := dup_b_p m b0p bits mpw with bp_def
  intro i
  induction i with
  | zero =>
    intro _
    rw [hidx0]
    have hbr0 : br 0 = (xS 0 - b0p) % m := by
      rw [br_def, dup_br]
      simp
    have hbp0 : bp 0 = b0p := by
      rw [bp_def, dup_b_p]
    rw [hbr0, hbp0]
    refine (Int.ModEq.add (Int.ModEq.refl _) (emod_modEq _ m)).trans ?_
    have he : b0p + (xS 0 - b0p) = xS 0 := by ring
    rw [he]
  | succ i ih =>
    intro hN
    have hiN : i < N := by omega
    have hIH := ih hiN
    rcases hbits (i + 1) hN with hb | hb
    · have hbp1 : bp (i + 1) = mpw (i + 1) := by
        rw [bp_def, dup_b_p_succ, if_pos hb]
      rcases hphi (i + 1) hN with hp | hp
      · have h02 : ((0 : Int) + 0) % 2 = 0 := by norm_num
        have hmv : mpw (i + 1) =
            (((xS (i + 1) - br (i + 1)) % m - w0 (i + 1)) % m +
              w0 (i + 1)) % m := by
          rw [mpw_def]
          simp only [dup_mpw, dup_m0, hb, hp, h02, select_node_zero]
        rw [hbp1, hmv, hrec0 i hN hb]
        refine (Int.ModEq.add ((emod_modEq _ m).trans (Int.ModEq.add
          ((emod_modEq _ m).trans (Int.ModEq.sub (emod_modEq _ m)
            (Int.ModEq.refl _))) (Int.ModEq.refl _)))
          (Int.ModEq.refl _)).trans ?_
        have he : xS (i + 1) - br (i + 1) - w0 (i + 1) + w0 (i + 1) +
            br (i + 1) = xS (i + 1) := by ring
        rw [he]
      · have h12 : ((0 : Int) + 1) % 2 = 1 := by norm_num
        have hmv : mpw (i + 1) =
            (((xS (i + 1) - br (i + 1)) % m - w1 (i + 1)) % m +
              w1 (i + 1)) % m := by
          rw [mpw_def]
          simp only [dup_mpw, dup_m0, hb, hp, h12, select_node_zero,
            select_node_one]
        rw [hbp1, hmv, hrec0 i hN hb]
        refine (Int.ModEq.add ((emod_modEq _ m).trans (Int.ModEq.add
          ((emod_modEq _ m).trans (Int.ModEq.sub (emod_modEq _ m)
            (Int.ModEq.refl _))) (Int.ModEq.refl _)))
          (Int.ModEq.refl _)).trans ?_
        have he : xS (i + 1) - br (i + 1) - w1 (i + 1) + w1 (i + 1) +
            br (i + 1) = xS (i + 1) := by ring
        rw [he]
    · have hb0 : ¬bits (i + 1) = 0 := by
        rw [hb]
        norm_num
      have hbp1 : bp (i + 1) = (mpw (i + 1) + bp i) % m := by
        rw [bp_def, dup_b_p_succ, if_neg hb0, add_u64]
      rcases hphi (i + 1) hN with hp | hp
      · have h10 : ((1 : Int) + 0) % 2 = 1 := by norm_num
        have hmv : mpw (i + 1) =
            (((br i - br (i + 1)) % m - w1 (i + 1)) % m +
              w1 (i + 1)) % m := by
          rw [mpw_def]
          simp only [dup_mpw, dup_m1, hb, hp, h10, select_node_zero,
            select_node_one, Nat.add_sub_cancel]
        rw [hbp1, hmv, hrec1 i hN hb]
        refine (Int.ModEq.add ((emod_modEq _ m).trans (Int.ModEq.add
          ((emod_modEq _ m).trans (Int.ModEq.add ((emod_modEq _ m).trans
            (Int.ModEq.sub (emod_modEq _ m) (Int.ModEq.refl _)))
            (Int.ModEq.refl _))) (Int.ModEq.refl _)))
          (Int.ModEq.refl _)).trans ?_
        have he : br i - br (i + 1) - w1 (i + 1) + w1 (i + 1) + bp i +
            br (i + 1) = bp i + br i := by ring
        rw [he]
        exact hIH
      · have h11 : ((1 : Int) + 1) % 2 = 0 := by norm_num
        have hmv : mpw (i + 1) =
            (((br i - br (i + 1)) % m - w0 (i + 1)) % m +
              w0 (i + 1)) % m := by
          rw [mpw_def]
          simp only [dup_mpw, dup_m1, hb, hp, h11, select_node_zero,
            select_node_one, Nat.add_sub_cancel]
        rw [hbp1, hmv, hrec1 i hN hb]
        refine (Int.ModEq.add ((emod_modEq _ m).trans (Int.ModEq.add
          ((emod_modEq _ m).trans (Int.ModEq.add ((emod_modEq _ m).trans
            (Int.ModEq.sub (emod_modEq _ m) (Int.ModEq.refl _)))
            (Int.ModEq.refl _))) (Int.ModEq.refl _)))
          (Int.ModEq.refl _)).trans ?_
        have he : br i - br (i + 1) - w0 (i + 1) + w0 (i + 1) + bp i +
            br (i + 1) = bp i + br i := by ring
        rw [he]
        exact hIH

theorem duplication_mpc_sum (m : Int) (xP xS : Nat → Int)
    (dup_idx : Nat → Nat) (bits : Nat → Int) (b0p : Int)
    (bi_r w0 w1 phi r : Nat → Int) (N : Nat)
    (hphi : ∀ j, j < N → phi j = 0 ∨ phi j = 1)
    (hbits : ∀ j, j < N → bits j = 0 ∨ bits j = 1)
    (hidx0 : dup_idx 0 = 0)
    (hrec0 : ∀ j, j + 1 < N → bits (j + 1) = 0 → dup_idx (j + 1) = j + 1)
    (hrec1 : ∀ j, j + 1 < N → bits (j + 1) = 1 →
      dup_idx (j + 1) = dup_idx j) (i : Nat) (hiN : i < N) :
    (duplication_mpc_shares m xP xS dup_idx bits b0p bi_r w0 w1 phi r).1 i +
      (duplication_mpc_shares m xP xS dup_idx bits b0p bi_r w0 w1 phi r).2
        i ≡ xP (dup_idx i) + xS (dup_idx i) [ZMOD m] := by
  have hinv := dup_invariant m xS dup_idx bits b0p bi_r w0 w1 phi N hphi
    hbits hidx0 hrec0 hrec1 i hiN
  show ((dup_b_p m b0p bits (dup_mpw m bits
      (dup_m0 m xS (dup_br m xS b0p bi_r) w0 w1 phi)
      (dup_m1 m (dup_br m xS b0p bi_r) w0 w1 phi) w0 w1 phi) i - r i) % m +
      xP (dup_idx i)) % m +
      (dup_br m xS b0p bi_r i + r i) % m ≡ _ [ZMOD m]
  refine (Int.ModEq.add ((emod_modEq _ m).trans (Int.ModEq.add
    (emod_modEq _ m) (Int.ModEq.refl _))) (emod_modEq _ m)).trans ?_
  have he : dup_b_p m b0p bits (dup_mpw m bits
      (dup_m0 m xS (dup_br m xS b0p bi_r) w0 w1 phi)
      (dup_m1 m (dup_br m xS b0p bi_r) w0 w1 phi) w0 w1 phi) i - r i +
      xP (dup_idx i) + (dup_br m xS b0p bi_r i + r i) =
      (dup_b_p m b0p bits (dup_mpw m bits
        (dup_m0 m xS (dup_br m xS b0p bi_r) w0 w1 phi)
        (dup_m1 m (dup_br m xS b0p bi_r) w0 w1 phi) w0 w1 phi) i +
        dup_br m xS b0p bi_r i) + xP (dup_idx i) := by ring
  rw [he]
  refine (Int.ModEq.add hinv (Int.ModEq.refl _)).trans ?_
  have he2 : xS (dup_idx i) + xP (dup_idx i) =
      xP (dup_idx i) + xS (dup_idx i) := by ring
  rw [he2]

end CipherCore

namespace CipherCore

theorem getElem_bang_cons_zero {α : Type} [Inhabited α] (a : α)
    (t : List α) : (a :: t)[0]! = a := by
  rw [getElem!_pos (a :: t) 0 (by simp)]
  rfl

theorem getElem_bang_cons_succ {α : Type} [Inhabited α] (a : α)
    (t : List α) (j : Nat) (hj : j < t.length) :
    (a :: t)[j + 1]! = t[j]! := by
  rw [getElem!_pos (a :: t) (j + 1) (by simp only [List.length_cons]; omega),
    getElem!_pos t j hj]
  simp

theorem dup_stage_go_length (prev : Nat) (l : List (Nat × Nat)) :
    (dup_stage_go prev l).length = l.length := by
  induction l generalizing prev with
  | nil => rfl
  | cons hd tl ih =>
    obtain ⟨v, b⟩ := hd
    simp only [dup_stage_go, List.length_cons, ih]

theorem dup_stage_go_get_zero (prev v b : Nat) (tl : List (Nat × Nat)) :
    (dup_stage_go prev ((v, b) :: tl))[0]! = if b = 1 then prev else v := by
  simp only [dup_stage_go]
  exact getElem_bang_cons_zero _ _

theorem dup_stage_go_get_succ (prev v b : Nat) (tl : List (Nat × Nat))
    (j : Nat) (hj : j < tl.length) :
    (dup_stage_go prev ((v, b) :: tl))[j + 1]! =
      (dup_stage_go (if b = 1 then prev else v) tl)[j]! := by
  simp only [dup_stage_go]
  exact getElem_bang_cons_succ _ _ j (by rw [dup_stage_go_length]; exact hj)

theorem dup_stage_go_step (l : List (Nat × Nat)) :
    ∀ (prev : Nat) (j : Nat), j + 1 < l.length →
    (dup_stage_go prev l)[j + 1]! =
      if (l[j + 1]!).2 = 1 then (dup_stage_go prev l)[j]!
      else (l[j + 1]!).1 := by
  induction l with
  | nil =>
    intro prev j hj
    simp at hj
  | cons hd tl ih =>
    intro prev j hj
    obtain ⟨v, b⟩ := hd
    have hjt : j < tl.length := by
      simp only [List.length_cons] at hj
      omega
    rw [dup_stage_go_get_succ prev v b tl j hjt]
    cases j with
    | zero =>
      have htl : 0 < tl.length := hjt
      cases tl with
      | nil => simp at htl
      | cons hd2 tl2 =>
        obtain ⟨v2, b2⟩ := hd2
        rw [dup_stage_go_get_zero]
        rw [getElem_bang_cons_succ (v, b) _ 0 (by simp),
          getElem_bang_cons_zero]
        rw [dup_stage_go_get_zero prev v b]
    | succ j2 =>
      have hj2 : j2 + 1 + 1 ≤ tl.length := hjt
      rw [ih (if b = 1 then prev else v) j2 hjt]
      rw [getElem_bang_cons_succ (v, b) tl (j2 + 1) hjt]
      rw [dup_stage_go_get_succ prev v b tl j2 (by omega)]

theorem decompose_groups_bits01 (map : List Nat) :
    ∀ (vs missing : List Nat) (start : Nat) p1 dm db pt,
    decompose_groups map missing start vs = some (p1, dm, db, pt) →
    ∀ b ∈ db, b = 0 ∨ b = 1 := by
  intro vs
  induction vs with
  | nil =>
    intro missing start p1 dm db pt h b hb
    rw [decompose_groups] at h
    have he := Option.some.inj h
    have hdb : ([] : List Nat) = db := congrArg (fun q => q.2.2.1) he
    rw [← hdb] at hb
    simp at hb
  | cons v vs ih =>
    intro missing start p1 dm db pt h b hb
    rw [decompose_groups] at h
    by_cases hc : missing.length < (locations map v).length - 1
    · rw [if_pos hc] at h
      exact absurd h (by simp)
    · rw [if_neg hc] at h
      cases hrec : decompose_groups map
          (missing.drop ((locations map v).length - 1))
          (start + (locations map v).length) vs with
      | none =>
        rw [hrec] at h
        exact absurd h (by simp)
      | some q =>
        obtain ⟨p1R, dmR, dbR, ptR⟩ := q
        rw [hrec] at h
        have he := Option.some.inj h
        have hdb : (0 :: List.replicate ((locations map v).length - 1) 1) ++
            dbR = db := congrArg (fun q => q.2.2.1) he
        rw [← hdb] at hb
        rcases List.mem_append.mp hb with hb1 | hb2
        · rcases List.mem_cons.mp hb1 with hb0 | hbr
          · exact Or.inl hb0
          · exact Or.inr (List.eq_of_mem_replicate hbr)
        · exact ih _ _ p1R dmR dbR ptR hrec b hb2

end CipherCore

namespace CipherCore

theorem dup_stage_go_get_head (prev : Nat) (l : List (Nat × Nat))
    (hl : 0 < l.length) :
    (dup_stage_go prev l)[0]! =
      if (l[0]!).2 = 1 then prev else (l[0]!).1 := by
  cases l with
  | nil => simp at hl
  | cons hd tl =>
    obtain ⟨v, b⟩ := hd
    rw [dup_stage_go_get_zero, getElem_bang_cons_zero]

theorem switching_map_facts (map : List Nat) (n : Nat) (missing : List Nat)
    (p1 dm db p2 : List Nat)
    (hvals : ∀ v ∈ map, v < n) (hlen : map.length ≤ n)
    (hshuf : missing.Perm (missing_indices map n))
    (hdec : decompose_switching_map map n missing =
      some (p1, (dm, db), p2)) :
    db.length = map.length ∧
    (∀ b ∈ db, b = 0 ∨ b = 1) ∧
    dm[0]! = 0 ∧
    (∀ j, j + 1 < map.length → db[j + 1]! = 0 → dm[j + 1]! = j + 1) ∧
    (∀ j, j + 1 < map.length → db[j + 1]! = 1 → dm[j + 1]! = dm[j]!) ∧
    (∀ i, i < map.length →
      p2[i]! < map.length ∧ p1[dm[p2[i]!]!]! = map[i]!) := by
  have hnd := nodup_existing_indices map
  have hmem : ∀ v ∈ existing_indices map, v ∈ map :=
    fun v hv => (mem_existing_indices map v).mp hv
  have hvn : ∀ v ∈ existing_indices map, v < n :=
    fun v hv => hvals v (hmem v hv)
  have hmx : ∀ x ∈ missing, x ∉ map ∧ x < n := by
    intro x hx
    have hx2 := hshuf.mem_iff.mp hx
    rw [missing_indices, List.mem_filter, List.mem_range] at hx2
    exact ⟨by simpa using hx2.2, hx2.1⟩
  have hsum_eq :
      ((existing_indices map).map (fun v => (locations map v).length)).sum =
        map.length := by
    have := locations_length_sum map
    rwa [List.map_map] at this
  have hml : missing.length = n - (existing_indices map).length := by
    rw [hshuf.length_eq]
    exact missing_indices_length map n hvals
  have hcount :
      ((existing_indices map).map
        (fun v => (locations map v).length - 1)).sum ≤ missing.length := by
    have hge : ∀ v ∈ existing_indices map,
        1 ≤ (locations map v).length := by
      intro v hv
      have := locations_ne_nil map v (hmem v hv)
      cases hl : locations map v with
      | nil => exact absurd hl this
      | cons a l => simp [hl]
    have hs := sum_map_sub_one (existing_indices map)
      (fun v => (locations map v).length) hge
    rw [hsum_eq] at hs
    obtain ⟨hs1, hs2⟩ := hs
    have hs3 : ((existing_indices map).map
        (fun v => (locations map v).length - 1)).sum =
        map.length - (existing_indices map).length := hs1
    omega
  obtain ⟨p1R, dmR, dbR, pt, hEq, hpt, hL1, hL2, hL3, hA, hB, hdb0, hE⟩ :=
    decompose_groups_spec map n (existing_indices map) missing 0
      hnd hmem hvn hmx hcount
  have hnotany : ¬(map.any (fun v => decide (n ≤ v)) = true) := by
    rw [List.any_eq_true]
    rintro ⟨v, hv, hnv⟩
    have := hvals v hv
    simp at hnv
    omega
  have hdec2 : decompose_switching_map map n missing = some (p1R, (dmR, dbR),
      inverse_permutation_writes pt 0 (List.replicate map.length 0)) := by
    unfold decompose_switching_map
    rw [if_neg hnotany, hEq]
  rw [hdec] at hdec2
  have heq2 := Option.some.inj hdec2
  have hp1 : p1 = p1R := congrArg (fun q => q.1) heq2
  have hdm : dm = dmR := congrArg (fun q => q.2.1.1) heq2
  have hdbe : db = dbR := congrArg (fun q => q.2.1.2) heq2
  have hp2 : p2 =
      inverse_permutation_writes pt 0 (List.replicate map.length 0) :=
    congrArg (fun q => q.2.2) heq2
  subst hp1
  subst hdm
  subst hdbe
  subst hp2
  have hptperm : pt.Perm (List.range map.length) := by
    rw [hpt]
    exact grouping_flatten_perm map
  have hm : pt.length = map.length := by
    rw [hptperm.length_eq, List.length_range]
  have hptnd : pt.Nodup := hptperm.nodup_iff.mpr (List.nodup_range _)
  have hptlt : ∀ j, j < pt.length → pt[j]! < map.length := by
    intro j hj
    have hmm : pt[j]! ∈ pt := by
      rw [getElem!_pos pt j hj]
      exact List.getElem_mem hj
    have := hptperm.mem_iff.mp hmm
    simpa using this
  have hbits01 : ∀ b ∈ db, b = 0 ∨ b = 1 :=
    decompose_groups_bits01 map (existing_indices map) missing 0
      p1 dm db pt hEq
  have hdm0 : dm[0]! = 0 := by
    by_cases h0 : 0 < pt.length
    · have hv0 := hdb0 h0
      have hEv := hE 0 h0
      rw [hv0] at hEv
      simpa using hEv
    · have hdmnil : dm.length = 0 := by omega
      rw [getElem!_neg dm 0 (by omega)]
      rfl
  have hrec0 : ∀ j, j + 1 < map.length → db[j + 1]! = 0 →
      dm[j + 1]! = j + 1 := by
    intro j hj hv
    have hEv := hE (j + 1) (by omega)
    rw [hv] at hEv
    simpa using hEv
  have hrec1 : ∀ j, j + 1 < map.length → db[j + 1]! = 1 →
      dm[j + 1]! = dm[j]! := by
    intro j hj hv
    have hEv := hE (j + 1) (by omega)
    rw [hv] at hEv
    simpa using hEv
  have hzip : ∀ j, j < map.length →
      (p1.zip db)[j]! = (p1[j]!, db[j]!) := by
    intro j hj
    have h1 : j < p1.length := by omega
    have h2 : j < db.length := by omega
    rw [getElem!_pos (p1.zip db) j (by rw [List.length_zip]; omega),
      getElem!_pos p1 j h1, getElem!_pos db j h2]
    exact List.getElem_zip
  have hdbmem : ∀ j, j < map.length → db[j]! = 0 ∨ db[j]! = 1 := by
    intro j hj
    have h2 : j < db.length := by omega
    refine hbits01 _ ?_
    rw [getElem!_pos db j h2]
    exact List.getElem_mem h2
  have hd := hB 0
  obtain ⟨hdlen, hdget⟩ := List.forall₂_iff_get.mp hd
  have hdptwise : ∀ j, j < map.length →
      (dup_stage_go 0 (p1.zip db))[j]! = map[pt[j]!]! := by
    intro j hj
    have hj1 : j < pt.length := by omega
    have hj2 : j < (dup_stage_go 0 (p1.zip db)).length := by omega
    have := hdget j hj1 hj2
    rw [get_eq_getElemBang pt j hj1, get_eq_getElemBang _ j hj2] at this
    exact this.symm
  have hzlen : (p1.zip db).length = map.length := by
    rw [List.length_zip]
    omega
  have hF1 : ∀ j, j < map.length → p1[dm[j]!]! = map[pt[j]!]! := by
    intro j
    induction j with
    | zero =>
      intro hj0
      rw [hdm0, ← hdptwise 0 hj0]
      rw [dup_stage_go_get_head 0 (p1.zip db) (by omega), hzip 0 hj0]
      have hdb00 : db[0]! = 0 := hdb0 (by omega)
      rw [hdb00]
      norm_num
    | succ j ihj =>
      intro hj
      have hjm : j < map.length := by omega
      have hstep := dup_stage_go_step (p1.zip db) 0 j (by omega)
      rw [hzip (j + 1) hj] at hstep
      rcases hdbmem (j + 1) hj with hv | hv
      · rw [hrec0 j hj hv, ← hdptwise (j + 1) hj, hstep, hv]
        norm_num
      · rw [hrec1 j hj hv, ← hdptwise (j + 1) hj, hstep, hv]
        rw [if_pos rfl, hdptwise j hjm]
        exact ihj hjm
  have hinv : ∀ j, j < map.length →
      (inverse_permutation_writes pt 0
        (List.replicate map.length 0))[pt[j]!]! = j := by
    intro j hj
    have := inverse_permutation_writes_get pt 0
      (List.replicate map.length 0) hptnd j (by omega) (by
        rw [List.length_replicate]
        exact hptlt j (by omega))
    simpa using this
  have hsurj : ∀ i, i < map.length → ∃ j, j < map.length ∧ pt[j]! = i := by
    intro i hi
    have hmm : i ∈ pt := hptperm.mem_iff.mpr (List.mem_range.mpr hi)
    rcases List.mem_iff_getElem.mp hmm with ⟨j, hj, hji⟩
    refine ⟨j, by omega, ?_⟩
    rw [getElem!_pos pt j hj]
    exact hji
  refine ⟨by omega, hbits01, hdm0, hrec0, hrec1, ?_⟩
  intro i hi
  rcases hsurj i hi with ⟨j, hj, hji⟩
  have hp2i : (inverse_permutation_writes pt 0
      (List.replicate map.length 0))[i]! = j := by
    rw [← hji]
    exact hinv j hj
  refine ⟨by rw [hp2i]; exact hj, ?_⟩
  rw [hp2i, hF1 j hj, hji]

end CipherCore

namespace CipherCore

/-- `SwitchingMPC::instantiate`: decompose the switching map with
`DecomposeSwitchingMap`, then chain Permutation (map `perm1`), Duplication
(map `(dup_map, dup_bits)`, with the previous Receiver acting as Sender) and
Permutation (map `perm2`); each stage's output share pair feeds the next
stage as `(programmer, sender)` shares. -/
def switching_mpc_shares (m : Int) (xP xS : Nat → Int)
    (p1 dm db p2 : List Nat)
    (σ1 σ1inv : Nat → Nat) (s1 t1 : Nat → Int)
    (b0p : Int) (bi_r w0 w1 phi rD : Nat → Int)
    (σ2 σ2inv : Nat → Nat) (s2 t2 : Nat → Int) :
    (Nat → Int) × (Nat → Int) :=
  let st1 := permutation_mpc_shares m xP xS s1 t1 (fun i => p1[i]!) σ1 σ1inv
  let st2 := duplication_mpc_shares m st1.1 st1.2 (fun i => dm[i]!)
    (fun i => (db[i]! : Int)) b0p bi_r w0 w1 phi rD
  permutation_mpc_shares m st2.1 st2.2 s2 t2 (fun i => p2[i]!) σ2 σ2inv

theorem switching_mpc_sum (m : Int) (xP xS : Nat → Int)
    (map : List Nat) (n : Nat) (missing p1 dm db p2 : List Nat)
    (σ1 σ1inv : Nat → Nat) (s1 t1 : Nat → Int)
    (b0p : Int) (bi_r w0 w1 phi rD : Nat → Int)
    (σ2 σ2inv : Nat → Nat) (s2 t2 : Nat → Int)
    (hvals : ∀ v ∈ map, v < n) (hlen : map.length ≤ n)
    (hshuf : missing.Perm (missing_indices map n))
    (hdec : decompose_switching_map map n missing =
      some (p1, (dm, db), p2))
    (hσ1 : ∀ i : Nat, σ1 (σ1inv (p1[i]!)) = p1[i]!)
    (hσ2 : ∀ i : Nat, σ2 (σ2inv (p2[i]!)) = p2[i]!)
    (hphiB : ∀ j, phi j = 0 ∨ phi j = 1)
    (i : Nat) (hi : i < map.length) :
    (switching_mpc_shares m xP xS p1 dm db p2 σ1 σ1inv s1 t1 b0p bi_r
        w0 w1 phi rD σ2 σ2inv s2 t2).1 i +
      (switching_mpc_shares m xP xS p1 dm db p2 σ1 σ1inv s1 t1 b0p bi_r
        w0 w1 phi rD σ2 σ2inv s2 t2).2 i ≡
      xP (map[i]!) + xS (map[i]!) [ZMOD m] := by
  obtain ⟨hdbl, hb01, hdm0, hrec0, hrec1, hcomp⟩ :=
    switching_map_facts map n missing p1 dm db p2 hvals hlen hshuf hdec
  obtain ⟨hp2lt, hcompi⟩ := hcomp i hi
  have hs3 := permutation_mpc_sum m
    (duplication_mpc_shares m
      (permutation_mpc_shares m xP xS s1 t1 (fun i => p1[i]!) σ1 σ1inv).1
      (permutation_mpc_shares m xP xS s1 t1 (fun i => p1[i]!) σ1 σ1inv).2
      (fun i => dm[i]!) (fun i => (db[i]! : Int)) b0p bi_r w0 w1 phi rD).1
    (duplication_mpc_shares m
      (permutation_mpc_shares m xP xS s1 t1 (fun i => p1[i]!) σ1 σ1inv).1
      (permutation_mpc_shares m xP xS s1 t1 (fun i => p1[i]!) σ1 σ1inv).2
      (fun i => dm[i]!) (fun i => (db[i]! : Int)) b0p bi_r w0 w1 phi rD).2
    s2 t2 (fun i => p2[i]!) σ2 σ2inv hσ2 i
  refine hs3.trans ?_
  have hs2 := duplication_mpc_sum m
    (permutation_mpc_shares m xP xS s1 t1 (fun i => p1[i]!) σ1 σ1inv).1
    (permutation_mpc_shares m xP xS s1 t1 (fun i => p1[i]!) σ1 σ1inv).2
    (fun j => dm[j]!) (fun j => (db[j]! : Int)) b0p bi_r w0 w1 phi rD
    map.length (fun j _ => hphiB j)
    (by
      intro j hj
      show (db[j]! : Int) = 0 ∨ (db[j]! : Int) = 1
      rcases hb01 (db[j]!) (by
        rw [getElem!_pos db j (by omega)]
        exact List.getElem_mem (by omega)) with h | h
      · exact Or.inl (by exact_mod_cast h)
      · exact Or.inr (by exact_mod_cast h))
    hdm0
    (by
      intro j hj hv
      have hv2 : (db[j + 1]! : Int) = 0 := hv
      exact hrec0 j hj (by exact_mod_cast hv2))
    (by
      intro j hj hv
      have hv2 : (db[j + 1]! : Int) = 1 := hv
      exact hrec1 j hj (by exact_mod_cast hv2))
    (p2[i]!) hp2lt
  refine hs2.trans ?_
  have hs1 := permutation_mpc_sum m xP xS s1 t1 (fun i => p1[i]!) σ1 σ1inv
    hσ1 (dm[(p2[i]!)]!)
  refine hs1.trans ?_
  show xP (p1[dm[(p2[i]!)]!]!) + xS (p1[dm[(p2[i]!)]!]!) ≡
    xP (map[i]!) + xS (map[i]!) [ZMOD m]
  rw [hcompi]

end CipherCore

namespace CipherCore

/-- C2: each PSI sub-protocol preserves the 2-of-2 resharing invariant under
the column's scalar modulus `m`: for PermutationMPC the Programmer and
Receiver output shares sum to `x_P + x_S` gathered by the permutation; for
DuplicationMPC (both the general branch and the single-entry reshare branch)
they sum to `x_P + x_S` gathered by a valid duplication map; for SwitchingMPC
— the composition of Permutation, Duplication and Permutation over the
evaluator's `DecomposeSwitchingMap` output — they sum to `x_P + x_S` gathered
by the switching map, for every map of length at most `n` with values in
`[0, n)`.  PRF masks, the `W` tables, the bit mask `phi` and the in-graph
random permutations (with their `InversePermutation` outputs) are explicit
parameters constrained exactly as the graph guarantees. -/
theorem c2_psi_subprotocol_invariants (m : Int) :
    (∀ xP xS s t : Nat → Int, ∀ perm σ σinv : Nat → Nat,
      (∀ i, σ (σinv (perm i)) = perm i) → ∀ i,
      (permutation_mpc_shares m xP xS s t perm σ σinv).1 i +
        (permutation_mpc_shares m xP xS s t perm σ σinv).2 i ≡
        xP (perm i) + xS (perm i) [ZMOD m]) ∧
    (∀ xP xS : Nat → Int, ∀ dup_idx : Nat → Nat, ∀ bits : Nat → Int,
      ∀ b0p : Int, ∀ bi_r w0 w1 phi r : Nat → Int, ∀ N : Nat,
      (∀ j, j < N → phi j = 0 ∨ phi j = 1) →
      (∀ j, j < N → bits j = 0 ∨ bits j = 1) →
      dup_idx 0 = 0 →
      (∀ j, j + 1 < N → bits (j + 1) = 0 → dup_idx (j + 1) = j + 1) →
      (∀ j, j + 1 < N → bits (j + 1) = 1 → dup_idx (j + 1) = dup_idx j) →
      ∀ i, i < N →
      (duplication_mpc_shares m xP xS dup_idx bits b0p bi_r w0 w1
          phi r).1 i +
        (duplication_mpc_shares m xP xS dup_idx bits b0p bi_r w0 w1
          phi r).2 i ≡
        xP (dup_idx i) + xS (dup_idx i) [ZMOD m]) ∧
    (∀ xP0 xS0 bp r : Int,
      (duplication_mpc_shares_single m xP0 xS0 bp r).1 +
        (duplication_mpc_shares_single m xP0 xS0 bp r).2 ≡
        xP0 + xS0 [ZMOD m]) ∧
    (∀ xP xS : Nat → Int, ∀ (map : List Nat) (n : Nat)
      (missing p1 dm db p2 : List Nat), ∀ σ1 σ1inv : Nat → Nat,
      ∀ s1 t1 : Nat → Int, ∀ b0p : Int, ∀ bi_r w0 w1 phi rD : Nat → Int,
      ∀ σ2 σ2inv : Nat → Nat, ∀ s2 t2 : Nat → Int,
      (∀ v ∈ map, v < n) → map.length ≤ n →
      missing.Perm (missing_indices map n) →
      decompose_switching_map map n missing = some (p1, (dm, db), p2) →
      (∀ i : Nat, σ1 (σ1inv (p1[i]!)) = p1[i]!) →
      (∀ i : Nat, σ2 (σ2inv (p2[i]!)) = p2[i]!) →
      (∀ j, phi j = 0 ∨ phi j = 1) →
      ∀ i, i < map.length →
      (switching_mpc_shares m xP xS p1 dm db p2 σ1 σ1inv s1 t1 b0p bi_r
          w0 w1 phi rD σ2 σ2inv s2 t2).1 i +
        (switching_mpc_shares m xP xS p1 dm db p2 σ1 σ1inv s1 t1 b0p bi_r
          w0 w1 phi rD σ2 σ2inv s2 t2).2 i ≡
        xP (map[i]!) + xS (map[i]!) [ZMOD m]) := by
  refine ⟨?_, ?_, ?_, ?_⟩
  · intro xP xS s t perm σ σinv hσ i
    exact permutation_mpc_sum m xP xS s t perm σ σinv hσ i
  · intro xP xS dup_idx bits b0p bi_r w0 w1 phi r N hphi hbits hidx0
      hrec0 hrec1 i hi
    exact duplication_mpc_sum m xP xS dup_idx bits b0p bi_r w0 w1 phi r N
      hphi hbits hidx0 hrec0 hrec1 i hi
  · intro xP0 xS0 bp r
    exact duplication_single_sum m xP0 xS0 bp r
  · intro xP xS map n missing p1 dm db p2 σ1 σ1inv s1 t1 b0p bi_r w0 w1
      phi rD σ2 σ2inv s2 t2 hvals hlen hshuf hdec hσ1 hσ2 hphiB i hi
    exact switching_mpc_sum m xP xS map n missing p1 dm db p2 σ1 σ1inv
      s1 t1 b0p bi_r w0 w1 phi rD σ2 σ2inv s2 t2 hvals hlen hshuf hdec
      hσ1 hσ2 hphiB i hi

/-- Witness for C2 at `m = 16`: the permutation conjunct with identity
permutations, the duplication conjunct with the identity duplication map on
two rows, the single-entry reshare, and the switching conjunct on the spec
example map `[2,0,1,3,2,4,3,8]` with `n = 9` and shuffled missing indices
`[6,5,7]`, all at concrete constant shares. -/
theorem c2_psi_subprotocol_invariants_witness :
    ((permutation_mpc_shares 16 (fun _ => 3) (fun _ => 4) (fun _ => 7)
        (fun _ => 2) (fun i => i) (fun i => i) (fun i => i)).1 0 +
      (permutation_mpc_shares 16 (fun _ => 3) (fun _ => 4) (fun _ => 7)
        (fun _ => 2) (fun i => i) (fun i => i) (fun i => i)).2 0 ≡
      (fun _ : Nat => (3 : Int)) 0 + (fun _ : Nat => (4 : Int)) 0
        [ZMOD 16]) ∧
    ((duplication_mpc_shares 16 (fun _ => 3) (fun _ => 4) (fun i => i)
        (fun _ => 0) 5 (fun _ => 6) (fun _ => 1) (fun _ => 2) (fun _ => 0)
        (fun _ => 9)).1 1 +
      (duplication_mpc_shares 16 (fun _ => 3) (fun _ => 4) (fun i => i)
        (fun _ => 0) 5 (fun _ => 6) (fun _ => 1) (fun _ => 2) (fun _ => 0)
        (fun _ => 9)).2 1 ≡
      (fun _ : Nat => (3 : Int)) 1 + (fun _ : Nat => (4 : Int)) 1
        [ZMOD 16]) ∧
    ((duplication_mpc_shares_single 16 3 4 5 7).1 +
      (duplication_mpc_shares_single 16 3 4 5 7).2 ≡ 3 + 4 [ZMOD 16]) ∧
    ((switching_mpc_shares 16 (fun _ => 3) (fun _ => 4)
        [2, 6, 0, 1, 3, 5, 4, 8] [0, 0, 2, 3, 4, 4, 6, 7]
        [0, 1, 0, 0, 0, 1, 0, 0] [0, 2, 3, 4, 1, 6, 5, 7]
        (fun i => i) (fun i => i) (fun _ => 7) (fun _ => 2) 5 (fun _ => 6)
        (fun _ => 1) (fun _ => 2) (fun _ => 0) (fun _ => 9)
        (fun i => i) (fun i => i) (fun _ => 11) (fun _ => 13)).1 0 +
      (switching_mpc_shares 16 (fun _ => 3) (fun _ => 4)
        [2, 6, 0, 1, 3, 5, 4, 8] [0, 0, 2, 3, 4, 4, 6, 7]
        [0, 1, 0, 0, 0, 1, 0, 0] [0, 2, 3, 4, 1, 6, 5, 7]
        (fun i => i) (fun i => i) (fun _ => 7) (fun _ => 2) 5 (fun _ => 6)
        (fun _ => 1) (fun _ => 2) (fun _ => 0) (fun _ => 9)
        (fun i => i) (fun i => i) (fun _ => 11) (fun _ => 13)).2 0 ≡
      (fun _ : Nat => (3 : Int)) (([2, 0, 1, 3, 2, 4, 3, 8] :
          List Nat)[0]!) +
        (fun _ : Nat => (4 : Int)) (([2, 0, 1, 3, 2, 4, 3, 8] :
          List Nat)[0]!) [ZMOD 16]) := by
  refine ⟨?_, ?_, ?_, ?_⟩
  · exact (c2_psi_subprotocol_invariants 16).1 (fun _ => 3) (fun _ => 4)
      (fun _ => 7) (fun _ => 2) (fun i => i) (fun i => i) (fun i => i)
      (fun i => rfl) 0
  · exact (c2_psi_subprotocol_invariants 16).2.1 (fun _ => 3) (fun _ => 4)
      (fun i => i) (fun _ => 0) 5 (fun _ => 6) (fun _ => 1) (fun _ => 2)
      (fun _ => 0) (fun _ => 9) 2 (fun j _ => Or.inl rfl)
      (fun j _ => Or.inl rfl) rfl (fun j _ _ => rfl)
      (fun j _ h => absurd h (by norm_num)) 1 (by norm_num)
  · exact (c2_psi_subprotocol_invariants 16).2.2.1 3 4 5 7
  · exact (c2_psi_subprotocol_invariants 16).2.2.2 (fun _ => 3)
      (fun _ => 4) [2, 0, 1, 3, 2, 4, 3, 8] 9 [6, 5, 7]
      [2, 6, 0, 1, 3, 5, 4, 8] [0, 0, 2, 3, 4, 4, 6, 7]
      [0, 1, 0, 0, 0, 1, 0, 0] [0, 2, 3, 4, 1, 6, 5, 7]
      (fun i => i) (fun i => i) (fun _ => 7) (fun _ => 2) 5 (fun _ => 6)
      (fun _ => 1) (fun _ => 2) (fun _ => 0) (fun _ => 9)
      (fun i => i) (fun i => i) (fun _ => 11) (fun _ => 13)
      (by decide) (by decide) (by decide) (by decide) (fun i => rfl)
      (fun i => rfl) (fun j => Or.inl rfl) 0 (by norm_num)

end CipherCore
